import Mathlib

/-!
Shallow embedding of the spatial-rs R*/R-tree core (src/geometry.rs, src/vecext.rs,
src/tree/mbr/*) for verification of spec claims.

Coordinates: the source is generic over an IEEE float type `P`.  We embed `P` as `ℤ`
(exact arithmetic, total linear order; every finite set of floats is a set of dyadic
rationals and scales to integers, and every comparison the algorithms make is
homogeneous in that scale).  `P::max_value()` is embedded as the distinguished
constant `FMAX`; arithmetic on coordinates is exact, which matches the source on
executions where no intermediate float overflows or rounds in a way that changes a
comparison.  NaN never arises (constructors reject non-finite input).

A `Rect` is its list of `DIM` edges `(lo, hi)`, matching `Rect { edges: [(P, P); DIM] }`.
-/

namespace SpatialRs

/-- Embeds `P::max_value()` (`Bounded::max_value` for the float type). `f32::MAX < 2^128`,
the exact value is irrelevant, it only needs to dominate all coordinates of
well-formed input (the literal is `2^128`, written out to be a numeral). -/
def FMAX : ℤ := 340282366920938463463374607431768211456

/-- `Rect<P, DIM>`: the list of `DIM` edges `(lo, hi)` (src/geometry.rs `Rect.edges`). -/
abbrev Rect : Type := List (ℤ × ℤ)

/-- `Rect::max_inverted()`: every edge is `(MAX, -MAX)` (src/geometry.rs:134). -/
def maxInverted (dim : Nat) : Rect := List.replicate dim (FMAX, -FMAX)

/-- `Rect::max()`: every edge is `(-MAX, MAX)` (src/geometry.rs:144). -/
def rectMax (dim : Nat) : Rect := List.replicate dim (-FMAX, FMAX)

/-- `Rect::new(edges)` (src/geometry.rs:113 and src/shapes.rs:120): for each edge,
`*x = x.min(*y); *y = x.max(*y)` — note the second statement reads the already
updated `x`.  The finiteness asserts are vacuous in the embedding. -/
def rectNew (edges : List (ℤ × ℤ)) : Rect :=
  edges.map (fun e => let x := min e.1 e.2; (x, max x e.2))

/-- `Rect::expand_mbr_to_fit` as implemented by `MbrLeafGeometry for Rect`
(src/tree/mbr/leafgeometry.rs:175): for each zipped pair of edges of `mbr` and `self`,
`*x1 = x1.min(x2); *y1 = y1.max(y2)`.  `izip!` stops at the shorter list and the
remaining edges of `mbr` are left unchanged. -/
def expandMbrToFit (self mbr : Rect) : Rect :=
  List.zipWith (fun m s => (min m.1 s.1, max m.2 s.2)) mbr self ++ mbr.drop self.length

/-- `Rect::area` (src/tree/mbr/leafgeometry.rs:161): fold of `area * (y - x)` from 1. -/
def rectArea (r : Rect) : ℤ := r.foldl (fun area e => area * (e.2 - e.1)) 1

/-- `Margin for Rect` (src/tree/mbr/index/rstar.rs:28): fold of `margin + y - x` from 0. -/
def rectMargin (r : Rect) : ℤ := r.foldl (fun m e => m + e.2 - e.1) 0

/-- `Rect::min_for_axis` (src/tree/mbr/leafgeometry.rs:167); out-of-range access
panics in the source and is modelled by a default. -/
def minForAxis (r : Rect) (d : Nat) : ℤ := (r.getD d (0, 0)).1

/-- `Rect::max_for_axis` (src/tree/mbr/leafgeometry.rs:171). -/
def maxForAxis (r : Rect) (d : Nat) : ℤ := (r.getD d (0, 0)).2

/-- `Rect::contained_by_mbr(self, mbr)` (src/tree/mbr/leafgeometry.rs:191): false iff
some zipped axis has `x2 < x1 || y1 < y2`, with `(x1,y1)` from `mbr`, `(x2,y2)` from `self`. -/
def containedByMbr (self mbr : Rect) : Bool :=
  (mbr.zip self).all (fun p => !(decide (p.2.1 < p.1.1) || decide (p.1.2 < p.2.2)))

/-- `Rect::overlapped_by_mbr(self, mbr)` (src/tree/mbr/leafgeometry.rs:200): false iff
some zipped axis has `!(x1 < y2) || !(x2 < y1)`. -/
def overlappedByMbr (self mbr : Rect) : Bool :=
  (mbr.zip self).all (fun p => !(!decide (p.1.1 < p.2.2) || !decide (p.2.1 < p.1.2)))

/-- `Rect::area_overlapped_with_mbr(self, mbr)` (src/tree/mbr/leafgeometry.rs:209):
fold of `area * (y1.min(y2) - x1.max(x2)).max(0)` from 1 over the zipped edges. -/
def areaOverlappedWithMbr (self mbr : Rect) : ℤ :=
  (mbr.zip self).foldl
    (fun area p => area * max (min p.1.2 p.2.2 - max p.1.1 p.2.1) 0) 1

/-- `Rect::distance_from_mbr_center(self, mbr)` (src/tree/mbr/leafgeometry.rs:182)
computes `sqrt (Σ ((x1+y1)/2 - (x2+y2)/2)^2)`.  This value is used only as a
comparison / sort key; `sqrt` is strictly monotone on nonnegative reals and scaling by
the positive constant 4 is strictly monotone too, so we embed
`Σ ((x1+y1) - (x2+y2))^2 = 4 · (distance)^2`, which induces the identical order
exactly. -/
def distanceFromMbrCenter2 (self mbr : Rect) : ℤ :=
  (mbr.zip self).foldl
    (fun d p =>
      d + ((p.1.1 + p.1.2) - (p.2.1 + p.2.2)) * ((p.1.1 + p.1.2) - (p.2.1 + p.2.2))) 0

/-- `MbrLeaf<P, DIM, LG, T>` with the leaf geometry instantiated at `Rect`
(src/tree/mbr/leaf.rs:18); the `MbrLeafGeometry` impl for the leaf delegates every
method to `geometry` (src/tree/mbr/leaf.rs:51). -/
structure MbrLeaf (T : Type) where
  geometry : Rect
  item : T
deriving DecidableEq, Repr

/-- `MbrLeaf::extract` (src/tree/mbr/leaf.rs:38). -/
def MbrLeaf.extract {T : Type} (l : MbrLeaf T) : Rect × T := (l.geometry, l.item)

/-- `RTreeNode<P, DIM, LG, T>` (src/tree/mbr/node.rs:46). -/
inductive RTreeNode (T : Type) where
  /-- Contains only other levels -/
  | Level (mbr : Rect) (children : List (RTreeNode T))
  /-- Contains only leaves -/
  | Leaves (mbr : Rect) (children : List (MbrLeaf T))

namespace RTreeNode

variable {T : Type}

/-- `MbrNode::mbr` (src/tree/mbr/node.rs:85). -/
def mbr : RTreeNode T → Rect
  | .Level m _ => m
  | .Leaves m _ => m

/-- Writing through `mbr_mut` (src/tree/mbr/node.rs:92) is modelled by rebuilding. -/
def withMbr : RTreeNode T → Rect → RTreeNode T
  | .Level _ c, m => .Level m c
  | .Leaves _ c, m => .Leaves m c

/-- `MbrNode::len` (src/tree/mbr/node.rs:99). -/
def len : RTreeNode T → Nat
  | .Level _ c => c.length
  | .Leaves _ c => c.length

/-- `MbrNode::is_empty` (src/tree/mbr/node.rs:106). -/
def isEmpty : RTreeNode T → Bool
  | .Level _ c => c.isEmpty
  | .Leaves _ c => c.isEmpty

/-- `MbrNode::has_leaves` (src/tree/mbr/node.rs:74). -/
def hasLeaves : RTreeNode T → Bool
  | .Level _ _ => false
  | .Leaves _ _ => true

/-- `MbrNode::has_levels` (src/tree/mbr/node.rs:81). -/
def hasLevels (n : RTreeNode T) : Bool := !n.hasLeaves

/-- `MbrNode::new_leaves` (src/tree/mbr/node.rs:66); `new_no_alloc` builds the same value. -/
def newLeaves (dim : Nat) : RTreeNode T := .Leaves (maxInverted dim) []

end RTreeNode

/-- All leaves reachable from a node, in depth-first order. -/
def leavesOf {T : Type} : RTreeNode T → List (MbrLeaf T)
  | .Leaves _ c => c
  | .Level _ cs => leavesOfList cs
where
  /-- Leaves reachable from a list of sibling nodes, in order. -/
  leavesOfList : List (RTreeNode T) → List (MbrLeaf T)
    | [] => []
    | c :: cs => leavesOf c ++ leavesOfList cs

/-- Number of leaves reachable from a node. -/
def leafCount {T : Type} (n : RTreeNode T) : Nat := (leavesOf n).length

/-! ### src/vecext.rs

`retain_part` and friends are index loops over a `Vec` with swaps; they are embedded
literally, with the vector as a list, `v.swap(i, j)` as `listSwap`, and the loop
counter driven by a fuel argument equal to the remaining iteration count (the loop
`for i in 0..len` runs exactly `len` iterations and swaps preserve the length). -/

/-- `v.swap(i, j)`; out-of-range indices panic in the source. -/
def listSwap {α : Type} (v : List α) (i j : Nat) : List α :=
  match v[i]?, v[j]? with
  | some a, some b => (v.set i b).set j a
  | _, _ => v

/-- The loop of `RetainPart::retain_part` (src/vecext.rs:41): for `i in 0..len`,
`if !f(&v[i]) { del += 1 } else if del > 0 { v.swap(i - del, i) }`. -/
def retainPartGo {α : Type} (f : α → Bool) : Nat → List α → Nat → Nat → List α × Nat
  | 0, v, _, del => (v, del)
  | fuel + 1, v, i, del =>
    match v[i]? with
    | none => (v, del)
    | some a =>
      if !f a then retainPartGo f fuel v (i + 1) (del + 1)
      else if del > 0 then retainPartGo f fuel (listSwap v (i - del) i) (i + 1) del
      else retainPartGo f fuel v (i + 1) del

/-- `RetainPart::retain_part` (src/vecext.rs:41): returns the permuted vector and `del`. -/
def retainPart {α : Type} (f : α → Bool) (v : List α) : List α × Nat :=
  retainPartGo f v.length v 0 0

/-- The pop loop of `RetainAndAppend::retain_and_append` (src/vecext.rs:101):
`for i in 0..del { m.push(self.pop().unwrap()) }`. -/
def popAppendGo {α : Type} : Nat → List α → List α → List α × List α
  | 0, v, m => (v, m)
  | d + 1, v, m =>
    match v.getLast? with
    | some a => popAppendGo d v.dropLast (m ++ [a])
    | none => (v, m)

/-- `RetainAndAppend::retain_and_append` (src/vecext.rs:98): run `retain_part`, then
pop the `del` trailing elements onto `m`.  Returns the new vector and the new `m`. -/
def retainAndAppend {α : Type} (v m : List α) (f : α → Bool) : List α × List α :=
  let r := retainPart f v
  if r.2 > 0 then popAppendGo r.2 r.1 m else (r.1, m)

/-- The loop of `RetainMutPart::retain_mut_part` (src/vecext.rs:62), generalized to a
closure that threads explicit state `σ` (the source closure captures `&mut` state):
`f(&mut v[i])` both rewrites the element and returns the keep flag. -/
def retainMutGo {α σ : Type} (f : α → σ → Bool × α × σ) :
    Nat → List α → Nat → Nat → σ → List α × Nat × σ
  | 0, v, _, del, s => (v, del, s)
  | fuel + 1, v, i, del, s =>
    match v[i]? with
    | none => (v, del, s)
    | some a =>
      let r := f a s
      let v₁ := v.set i r.2.1
      if !r.1 then retainMutGo f fuel v₁ (i + 1) (del + 1) r.2.2
      else if del > 0 then retainMutGo f fuel (listSwap v₁ (i - del) i) (i + 1) del r.2.2
      else retainMutGo f fuel v₁ (i + 1) del r.2.2

/-- `RetainMut::retain_mut` (src/vecext.rs:112): `retain_mut_part` then
`truncate(len - del)`.  Returns the retained vector and the threaded state. -/
def retainMutS {α σ : Type} (f : α → σ → Bool × α × σ) (v : List α) (s : σ) :
    List α × σ :=
  let r := retainMutGo f v.length v 0 0 s
  (r.1.take (r.1.length - r.2.1), r.2.2)

/-- Recursive characterization of `retain_mut`: process the elements in order,
keeping the rewritten element exactly when the closure returns true.
`retainMutS_eq_spec` below proves this equal to the literal loop embedding. -/
def retainMutSpec {α σ : Type} (f : α → σ → Bool × α × σ) :
    List α → σ → List α × σ
  | [], s => ([], s)
  | a :: v, s =>
    let r := f a s
    let rest := retainMutSpec f v r.2.2
    (if r.1 then r.2.1 :: rest.1 else rest.1, rest.2)

/-! ### Sorting and argmin / argmax selection

`Vec::sort_by_key` is a stable sort; a stable sort is determined extensionally by the
key order, so it is embedded as a stable insertion sort (`stableSortBy_perm` /
`stableSortBy_sorted` below establish the defining properties).
`Iterator::min_by_key` returns the first minimal element, `Iterator::max_by_key` the
last maximal element. -/

/-- Stable insert: place `a` after every element strictly below it. -/
def stableInsert {α : Type} (le : α → α → Bool) (a : α) : List α → List α
  | [] => [a]
  | b :: l => if le b a && !le a b then b :: stableInsert le a l else a :: b :: l

/-- Stable sort by a boolean total preorder; embeds `sort_by_key` with
`le a b = (key a ≤ key b)`. -/
def stableSortBy {α : Type} (le : α → α → Bool) (l : List α) : List α :=
  l.foldr (stableInsert le) []

/-- Index of the first element with strictly minimal key (`Iterator::min_by_key`).
On an empty list the source unwraps `None` (panic); modelled as 0. -/
def argminIdxBy {α β : Type} (key : α → β) (lt : β → β → Bool) : List α → Nat
  | [] => 0
  | a :: l => go l 1 0 (key a)
where
  go : List α → Nat → Nat → β → Nat
    | [], _, best, _ => best
    | a :: l, i, best, bk =>
      if lt (key a) bk then go l (i + 1) i (key a) else go l (i + 1) best bk

/-- The last element with maximal key (`Iterator::max_by_key`); panics on empty input
in the source, modelled by a default. -/
def maxByLast {α β : Type} (key : α → β) (lt : β → β → Bool) (dflt : α) :
    List α → α
  | [] => dflt
  | a :: l => go l a
where
  go : List α → α → α
    | [], best => best
    | a :: l, best => if lt (key a) (key best) then go l best else go l a

/-- Lexicographic strict order on `ℚ × ℚ` (the derived `Ord` on Rust tuples of
`NotNan` floats). -/
def lex2Lt (a b : ℤ × ℤ) : Bool :=
  decide (a.1 < b.1) || (decide (a.1 = b.1) && decide (a.2 < b.2))

/-- Lexicographic `≤` on `ℚ × ℚ`. -/
def lex2Le (a b : ℤ × ℤ) : Bool :=
  decide (a.1 < b.1) || (decide (a.1 = b.1) && decide (a.2 ≤ b.2))

/-- Lexicographic strict order on `ℤ × ℤ × ℤ`. -/
def lex3Lt (a b : ℤ × ℤ × ℤ) : Bool :=
  decide (a.1 < b.1) || (decide (a.1 = b.1) && lex2Lt a.2 b.2)

/-- Lexicographic strict order on `(ℚ, ℚ, usize)` — the comparison key of the seed
split loop QS3 (src/tree/mbr/index/r.rs:220). -/
def lexQQN (a b : ℤ × ℤ × Nat) : Bool :=
  decide (a.1 < b.1) ||
    (decide (a.1 = b.1) &&
      (decide (a.2.1 < b.2.1) || (decide (a.2.1 = b.2.1) && decide (a.2.2 < b.2.2))))

/-! ### src/tree/mbr/query.rs -/

/-- The `MbrQuery` trait: acceptance predicates over leaves and nodes.  The removal
and iteration machinery is generic over this pair, exactly as the source is generic
over `Q: MbrQuery`. -/
structure QueryFns (T : Type) where
  acceptLeaf : MbrLeaf T → Bool
  acceptLevel : RTreeNode T → Bool

/-- `MbrRectQuery` (src/tree/mbr/query.rs:29). -/
inductive MbrRectQuery where
  | ContainedBy (r : Rect)
  | Overlaps (r : Rect)

/-- `MbrRectQuery::accept_leaf` (src/tree/mbr/query.rs:44), for `Rect` leaf geometry. -/
def MbrRectQuery.acceptLeaf {T : Type} : MbrRectQuery → MbrLeaf T → Bool
  | .ContainedBy q, leaf => containedByMbr leaf.geometry q
  | .Overlaps q, leaf => overlappedByMbr leaf.geometry q

/-- `MbrRectQuery::accept_level` (src/tree/mbr/query.rs:52): both modes test
`level.overlapped_by_mbr(query)`, which delegates to the node's MBR
(src/tree/mbr/node.rs:136). -/
def MbrRectQuery.acceptLevel {T : Type} : MbrRectQuery → RTreeNode T → Bool
  | .ContainedBy q, lvl => overlappedByMbr lvl.mbr q
  | .Overlaps q, lvl => overlappedByMbr lvl.mbr q

/-- Package an `MbrRectQuery` as a `QueryFns`. -/
def MbrRectQuery.toQuery (T : Type) (q : MbrRectQuery) : QueryFns T :=
  ⟨q.acceptLeaf, q.acceptLevel⟩

/-! ### src/tree/mbr/index/rstar.rs — the R* insert strategy

The split routines are generic over `V: MbrLeafGeometry`; the methods they use are
bundled in `GeomOps`.  The two instantiations mirror the delegating trait impls for
`MbrLeaf` (src/tree/mbr/leaf.rs:51) and `RTreeNode` (src/tree/mbr/node.rs:115). -/

/-- The slice of the `MbrLeafGeometry` capability used by the split routines. -/
structure GeomOps (V : Type) where
  expandFit : V → Rect → Rect
  minAxis : V → Nat → ℤ
  maxAxis : V → Nat → ℤ

/-- `MbrLeafGeometry for MbrLeaf`: delegate to the geometry. -/
def leafOps (T : Type) : GeomOps (MbrLeaf T) :=
  ⟨fun l m => expandMbrToFit l.geometry m,
   fun l d => minForAxis l.geometry d,
   fun l d => maxForAxis l.geometry d⟩

/-- `MbrLeafGeometry for RTreeNode`: delegate to the node's MBR. -/
def nodeOps (T : Type) : GeomOps (RTreeNode T) :=
  ⟨fun n m => expandMbrToFit n.mbr m,
   fun n d => minForAxis n.mbr d,
   fun n d => maxForAxis n.mbr d⟩

/-- The recompute-MBR pattern
`*mbr = Rect::max_inverted(); for child in children { child.expand_mbr_to_fit(mbr) }`. -/
def mbrOfListWith {V : Type} (ops : GeomOps V) (dim : Nat) (cs : List V) : Rect :=
  cs.foldl (fun m c => ops.expandFit c m) (maxInverted dim)

/-- `RStarInsert` configuration (src/tree/mbr/index/rstar.rs:54); `dim` stands for the
const generic `DIM`. -/
structure RStarConf where
  dim : Nat
  max : Nat
  preferredMin : Nat
  reinsertM : Nat
  chooseSubtreeP : Nat
  minK : Nat
  maxK : Nat

/-- The exact value of the `f32` literal `0.30f32` (`D_REINSERT_P`) as a fraction:
`10066330 / 2^25`. -/
def dReinsertP : Nat × Nat := (10066330, 33554432)

/-- The exact value of the `f32` literal `0.40f32` (`D_SPLIT_P`) as a fraction:
`13421773 / 2^25`. -/
def dSplitP : Nat × Nat := (13421773, 33554432)

/-- `RStarInsert::new_with_options` (src/tree/mbr/index/rstar.rs:78).  The fraction
arguments `reinsert_p` / `split_p` are passed as exact numerator / denominator pairs
(denominator positive); `(max as f32 * p) as usize` is the exact floor
`max * num / den` (`Nat` division).  `usize` subtraction truncates at 0 where the
source would panic on underflow.  The source asserts `max_k > min_k` and
`max > max_k`; those asserts are carried as hypotheses (`RStarConfOk`) by the
theorems. -/
def newWithOptions (dim maxE : Nat) (rp sp : Nat × Nat) (chooseSubtreeP : Nat) :
    RStarConf :=
  let minP := if rp.1 * sp.2 ≤ sp.1 * rp.2 then rp else sp
  let preferredMin := Nat.max (maxE * minP.1 / minP.2) 1
  let reinsertSize := Nat.max (maxE * rp.1 / rp.2) 1
  let reinsertM := maxE - reinsertSize
  let minK := Nat.max (maxE * sp.1 / sp.2) 1
  let maxK := Nat.max (maxE - 2 * minK + 1) (minK + 1)
  ⟨dim, maxE, preferredMin, reinsertM, chooseSubtreeP, minK, maxK⟩

/-- `RStarInsert::area_cost` (src/tree/mbr/index/rstar.rs:117):
`(expanded.area() - mbr.area(), mbr.area())`. -/
def rsAreaCost {T : Type} (mbr : Rect) (leaf : MbrLeaf T) : ℤ × ℤ :=
  let expanded := expandMbrToFit leaf.geometry mbr
  let mbrArea := rectArea mbr
  (rectArea expanded - mbrArea, mbrArea)

/-- `RStarInsert::overlap_cost` (src/tree/mbr/index/rstar.rs:132):
`leaf.area() - leaf.area_overlapped_with_mbr(mbr)`. -/
def rsOverlapCost {T : Type} (mbr : Rect) (leaf : MbrLeaf T) : ℤ :=
  rectArea leaf.geometry - areaOverlappedWithMbr leaf.geometry mbr

/-- `RStarInsert::overlap_area_cost` (src/tree/mbr/index/rstar.rs:138). -/
def rsOverlapAreaCost {T : Type} (mbr : Rect) (leaf : MbrLeaf T) : ℤ × ℤ × ℤ :=
  let ac := rsAreaCost mbr leaf
  (rsOverlapCost mbr leaf, ac.1, ac.2)

/-- `RStarInsert::choose_subnode` (src/tree/mbr/index/rstar.rs:149).  The sort in the
`> choose_subtree_p` branch mutates the children vector, so the (possibly re-sorted)
vector is returned along with the index of the chosen subnode.  The source asserts a
non-empty level; the empty case returns index 0 (the caller's lookup then misses). -/
def chooseSubnode {T : Type} (conf : RStarConf) (children : List (RTreeNode T))
    (leaf : MbrLeaf T) : List (RTreeNode T) × Nat :=
  match children.head? with
  | none => (children, 0)
  | some first =>
    if first.hasLeaves then
      if children.length > conf.chooseSubtreeP then
        let sorted := stableSortBy
          (fun a b => lex2Le (rsAreaCost a.mbr leaf) (rsAreaCost b.mbr leaf)) children
        (sorted,
          argminIdxBy (fun a => rsOverlapCost a.mbr leaf) (fun x y => decide (x < y))
            (sorted.take conf.chooseSubtreeP))
      else
        (children, argminIdxBy (fun a => rsOverlapAreaCost a.mbr leaf) lex3Lt children)
    else
      (children, argminIdxBy (fun a => rsAreaCost a.mbr leaf) lex2Lt children)

/-- `RStarInsert::split_for_reinsert` (src/tree/mbr/index/rstar.rs:176): stable sort by
distance of each leaf's center from the node MBR's center (ascending), keep the first
`reinsert_m`, return the tail for reinsertion, and recompute the node MBR from the kept
leaves.  Result: `(new mbr, kept children, reinsert set)`. -/
def splitForReinsert {T : Type} (conf : RStarConf) (mbr : Rect)
    (children : List (MbrLeaf T)) : Rect × List (MbrLeaf T) × List (MbrLeaf T) :=
  let sorted := stableSortBy
    (fun a b => decide (distanceFromMbrCenter2 a.geometry mbr ≤
                        distanceFromMbrCenter2 b.geometry mbr)) children
  let kept := sorted.take conf.reinsertM
  let splitLs := sorted.drop conf.reinsertM
  (mbrOfListWith (leafOps T) conf.dim kept, kept, splitLs)

/-- Accumulator of `best_split_position_for_axis` (src/tree/mbr/index/rstar.rs:248):
`margin`, `d_overlap`, `d_area`, `d_edge`, `d_index`. -/
structure BspAcc where
  margin : ℤ
  dOverlap : ℤ
  dArea : ℤ
  dEdge : Nat
  dIndex : Nat

/-- The per-edge sort of the R* split: by `min_for_axis` for edge 0, by `max_for_axis`
for edge 1 (src/tree/mbr/index/rstar.rs:254 and 306). -/
def sortForEdge {V : Type} (ops : GeomOps V) (axis edge : Nat) (children : List V) :
    List V :=
  if edge == 0 then
    stableSortBy (fun a b => decide (ops.minAxis a axis ≤ ops.minAxis b axis)) children
  else
    stableSortBy (fun a b => decide (ops.maxAxis a axis ≤ ops.maxAxis b axis)) children

/-- `RStarInsert::best_split_position_for_axis` (src/tree/mbr/index/rstar.rs:243).
The sorts mutate the children vector, so it is threaded through and returned.
Result: `(children after the sorts, (margin, (axis, d_edge, d_index)))`. -/
def bestSplitPositionForAxis {V : Type} (conf : RStarConf) (ops : GeomOps V)
    (axis : Nat) (children : List V) : List V × (ℤ × (Nat × Nat × Nat)) :=
  let st := [0, 1].foldl (fun (st : List V × BspAcc) edge =>
    let sorted := sortForEdge ops axis edge st.1
    let acc := (List.range' conf.minK (conf.maxK - conf.minK)).foldl (fun a k =>
      let r1 := mbrOfListWith ops conf.dim (sorted.take k)
      let r2 := mbrOfListWith ops conf.dim (sorted.drop k)
      let area := rectArea r1 + rectArea r2
      let overlap := areaOverlappedWithMbr r1 r2
      let a₁ := { a with margin := a.margin + rectMargin r1 + rectMargin r2 }
      if lex2Lt (overlap, area) (a₁.dOverlap, a₁.dArea) then
        { a₁ with dOverlap := overlap, dArea := area, dEdge := edge, dIndex := k }
      else a₁) st.2
    (sorted, acc)) (children, ⟨0, FMAX, FMAX, 0, 0⟩)
  (st.1, (st.2.margin, (axis, st.2.dEdge, st.2.dIndex)))

/-- First element with strictly minimal key (`Iterator::min_by_key` over a non-empty
collection); the source unwraps `None` on empty input (panic), modelled by `dflt`. -/
def minByFirst {α β : Type} (key : α → β) (lt : β → β → Bool) (dflt : α) :
    List α → α
  | [] => dflt
  | a :: l => go l a
where
  go : List α → α → α
    | [], best => best
    | a :: l, best => if lt (key a) (key best) then go l a else go l best

/-- `RStarInsert::split` (src/tree/mbr/index/rstar.rs:292): compute the best split
position of every axis (each call re-sorting the children vector in place), pick the
axis of minimal margin, re-sort by the chosen axis/edge, split off at the chosen
index, and recompute both MBRs.  Result: `(node mbr, node children, split mbr, split
children)`. -/
def rstarSplit {V : Type} (conf : RStarConf) (ops : GeomOps V) (_mbr : Rect)
    (children : List V) : Rect × List V × Rect × List V :=
  let folded := (List.range conf.dim).foldl
    (fun (st : List V × List (ℤ × (Nat × Nat × Nat))) axis =>
      let r := bestSplitPositionForAxis conf ops axis st.1
      (r.1, st.2 ++ [r.2])) (children, [])
  let best := minByFirst (fun r => r.1) (fun x y => decide (x < y)) (0, 0, 0, 0) folded.2
  let sAxis := best.2.1
  let sEdge := best.2.2.1
  let sIndex := best.2.2.2
  let sorted := sortForEdge ops sAxis sEdge folded.1
  let kept := sorted.take sIndex
  let splitChildren := sorted.drop sIndex
  (mbrOfListWith ops conf.dim kept, kept,
   mbrOfListWith ops conf.dim splitChildren, splitChildren)

/-- `InsertResult` (src/tree/mbr/index/rstar.rs:38). -/
inductive InsertResult (T : Type) where
  | Ok
  | Reinsert (leaves : List (MbrLeaf T))
  | Split (node : RTreeNode T)

/-- `RStarInsert::handle_overflow` (src/tree/mbr/index/rstar.rs:325).  The
`_ => unreachable!()` arm (a `Level` node reached with `!at_root && !force_split`)
panics in the source; it is modelled as returning the node unchanged. -/
def rstarHandleOverflow {T : Type} (conf : RStarConf) (level : RTreeNode T)
    (atRoot forceSplit : Bool) : RTreeNode T × InsertResult T :=
  if !atRoot && !forceSplit then
    match level with
    | .Leaves mbr children =>
      let r := splitForReinsert conf mbr children
      (.Leaves r.1 r.2.1, .Reinsert r.2.2)
    | .Level mbr children => (.Level mbr children, .Ok)
  else
    match level with
    | .Leaves mbr children =>
      let r := rstarSplit conf (leafOps T) mbr children
      (.Leaves r.1 r.2.1, .Split (.Leaves r.2.2.1 r.2.2.2))
    | .Level mbr children =>
      let r := rstarSplit conf (nodeOps T) mbr children
      (.Level r.1 r.2.1, .Split (.Level r.2.2.1 r.2.2.2))

/-- Height of a node: 0 for a leaf-bearing node, 1 + max child height otherwise. -/
def height {T : Type} : RTreeNode T → Nat
  | .Leaves _ _ => 0
  | .Level _ cs => heightL cs + 1
where
  /-- Maximum height of a list of nodes. -/
  heightL : List (RTreeNode T) → Nat
    | [] => 0
    | c :: cs => Nat.max (height c) (heightL cs)

/-- `RStarInsert::insert_into_level` (src/tree/mbr/index/rstar.rs:192).  The recursion
descends into the subnode chosen from a re-sorted children vector, which is not a
structural subterm; the recursion is therefore driven by a fuel argument, with
`fuel ≥ height level` sufficient (the wrapper passes the exact height).  On a `Level`
node with exhausted fuel — unreachable for sufficient fuel — the leaf is dropped. -/
def rstarInsertGo {T : Type} (conf : RStarConf) :
    Nat → RTreeNode T → MbrLeaf T → Bool → Bool → RTreeNode T × InsertResult T
  | fuel, level, leaf, atRoot, forceSplit =>
    let mbr₀ := expandMbrToFit leaf.geometry level.mbr
    match level with
    | .Leaves _ children =>
      let node := RTreeNode.Leaves mbr₀ (children ++ [leaf])
      if node.len > conf.max then rstarHandleOverflow conf node atRoot forceSplit
      else (node, .Ok)
    | .Level _ children =>
      match fuel with
      | 0 => (RTreeNode.Level mbr₀ children, .Ok)
      | fuel' + 1 =>
        let ch := chooseSubnode conf children leaf
        match ch.1[ch.2]? with
        | none => (RTreeNode.Level mbr₀ ch.1, .Ok)
        | some sub =>
          let r := rstarInsertGo conf fuel' sub leaf false forceSplit
          let children₂ := ch.1.set ch.2 r.1
          match r.2 with
          | .Split c =>
            let node := RTreeNode.Level mbr₀ (children₂ ++ [c])
            if node.len > conf.max then rstarHandleOverflow conf node atRoot forceSplit
            else (node, .Ok)
          | .Reinsert ls =>
            (RTreeNode.Level (mbrOfListWith (nodeOps T) conf.dim children₂) children₂,
              .Reinsert ls)
          | .Ok => (RTreeNode.Level mbr₀ children₂, .Ok)

/-- `RStarInsert::handle_split_root` (src/tree/mbr/index/rstar.rs:364). -/
def rstarHandleSplitRoot {T : Type} (root split : RTreeNode T) : RTreeNode T :=
  RTreeNode.Level (expandMbrToFit split.mbr root.mbr) [root, split]

/-- `RStarInsert::insert_into_root` (src/tree/mbr/index/rstar.rs:383): the initial call
passes `(at_root, force_split) = (true, false)`; a `Reinsert` result triggers one
forced-split pass per returned leaf; a nested `Reinsert` is `unreachable!()` in the
source (claim C6), modelled by keeping the mutated root. -/
def rstarInsertIntoRoot {T : Type} (conf : RStarConf) (root : RTreeNode T)
    (leaf : MbrLeaf T) : RTreeNode T :=
  let r := rstarInsertGo conf (height root) root leaf true false
  match r.2 with
  | .Split child => rstarHandleSplitRoot r.1 child
  | .Reinsert leaves =>
    leaves.foldl (fun rt lf =>
      let r₂ := rstarInsertGo conf (height rt) rt lf true true
      match r₂.2 with
      | .Split child => rstarHandleSplitRoot r₂.1 child
      | .Reinsert _ => r₂.1
      | .Ok => r₂.1) r.1
  | .Ok => r.1

/-! ### src/tree/mbr/index/r.rs — remove strategy and seed split -/

/-- `RRemove::remove_matching_leaves` (src/tree/mbr/index/r.rs:415): retain the leaves
with `!query.accept_leaf(leaf) || f(&leaf.item)`, appending the rest to `removed`;
if the retained count drops below `min` away from the root, move the retained leaves
to `to_reinsert` and report drop; otherwise recompute the MBR when leaves were
removed.  Result: `(retain?, mbr, children, removed, to_reinsert)`. -/
def removeMatchingLeaves {T : Type} (minE dim : Nat) (q : QueryFns T) (f : T → Bool)
    (mbr : Rect) (children removed toReinsert : List (MbrLeaf T)) (atRoot : Bool) :
    Bool × Rect × List (MbrLeaf T) × List (MbrLeaf T) × List (MbrLeaf T) :=
  let origLen := children.length
  let ra := retainAndAppend children removed (fun leaf => !q.acceptLeaf leaf || f leaf.item)
  let childrenRemoved := origLen != ra.1.length
  if ra.1.length < minE && !atRoot then
    (false, mbr, [], ra.2, toReinsert ++ ra.1)
  else if childrenRemoved then
    (true, mbrOfListWith (leafOps T) dim ra.1, ra.1, ra.2, toReinsert)
  else
    (true, mbr, ra.1, ra.2, toReinsert)

/-- `RRemove::consume_leaves_for_reinsert` (src/tree/mbr/index/r.rs:448): push every
leaf reachable from the nodes onto `to_reinsert`, in traversal order. -/
def consumeLeavesForReinsert {T : Type} :
    List (RTreeNode T) → List (MbrLeaf T) → List (MbrLeaf T)
  | [], acc => acc
  | n :: ns, acc => consumeLeavesForReinsert ns (consumeNode n acc)
where
  /-- One node of the loop body. -/
  consumeNode : RTreeNode T → List (MbrLeaf T) → List (MbrLeaf T)
    | .Leaves _ cs, acc => acc ++ cs
    | .Level _ cs, acc => consumeLeavesForReinsert cs acc

/-- `RRemove::remove_leaves_from_level` (src/tree/mbr/index/r.rs:466).  The interior
case runs `children.retain_mut(|child| recurse(child, .., NOT_AT_ROOT))`; `retain_mut`
keeps, in order, exactly the children for which the closure returns true (see
`retainMutS_eq_spec` below for the src/vecext.rs loop), modelled here by the direct
recursion `removeChildren` so that the nested recursion is structural.
Result: `(retain?, node, removed, to_reinsert)`. -/
def removeLeavesFromLevel {T : Type} (minE dim : Nat) (q : QueryFns T) (f : T → Bool) :
    RTreeNode T → List (MbrLeaf T) → List (MbrLeaf T) → Bool →
    Bool × RTreeNode T × List (MbrLeaf T) × List (MbrLeaf T)
  | level, removed, toReinsert, atRoot =>
    if !q.acceptLevel level then (true, level, removed, toReinsert)
    else
      match level with
      | .Leaves mbr children =>
        let r := removeMatchingLeaves minE dim q f mbr children removed toReinsert atRoot
        (r.1, .Leaves r.2.1 r.2.2.1, r.2.2.2.1, r.2.2.2.2)
      | .Level mbr children =>
        let origLen := children.length
        let rc := removeChildren children removed toReinsert
        if rc.1.length < minE && !atRoot then
          (false, .Level mbr rc.1, rc.2.1, consumeLeavesForReinsert rc.1 rc.2.2)
        else if origLen != rc.1.length then
          (true, .Level (mbrOfListWith (nodeOps T) dim rc.1) rc.1, rc.2.1, rc.2.2)
        else
          (true, .Level mbr rc.1, rc.2.1, rc.2.2)
where
  /-- The `retain_mut` pass over the children, threading `removed` / `to_reinsert`. -/
  removeChildren : List (RTreeNode T) → List (MbrLeaf T) → List (MbrLeaf T) →
      List (RTreeNode T) × List (MbrLeaf T) × List (MbrLeaf T)
    | [], removed, toReinsert => ([], removed, toReinsert)
    | c :: cs, removed, toReinsert =>
      let r := removeLeavesFromLevel minE dim q f c removed toReinsert false
      let rest := removeChildren cs r.2.2.1 r.2.2.2
      (if r.1 then r.2.1 :: rest.1 else rest.1, rest.2)

/-- `RRemove::remove_from_root` (src/tree/mbr/index/r.rs:541), with the generic insert
index `I: IndexInsert` instantiated at the R* insert strategy (the pairing used by the
`RStar` facade): descend, replace an emptied interior root by a fresh leaf node, then
reinsert every orphaned leaf through `insert_into_root`. -/
def removeFromRoot {T : Type} (minE : Nat) (conf : RStarConf) (q : QueryFns T)
    (f : T → Bool) (root : RTreeNode T) : RTreeNode T × List (MbrLeaf T) :=
  if root.isEmpty then (root, [])
  else
    let r := removeLeavesFromLevel minE conf.dim q f root [] [] true
    let root₂ := if r.2.1.isEmpty && r.2.1.hasLevels then RTreeNode.newLeaves conf.dim
      else r.2.1
    (r.2.2.2.foldl (fun rt leaf => rstarInsertIntoRoot conf rt leaf) root₂, r.2.2.1)

/-! ### src/tree/mbr/map.rs — the public map and its iteration -/

/-- `MbrMap` (src/tree/mbr/map.rs:19): the owned root and the length counter.  The
insert index is the R* strategy (configuration `RStarConf`), the remove index is
`RRemove { min }`. -/
structure MbrMap (T : Type) where
  root : RTreeNode T
  len : Nat

/-- `MbrMap::new` (src/tree/mbr/map.rs:33): an empty leaf-bearing root, `len = 0`. -/
def mapNew (T : Type) (dim : Nat) : MbrMap T := ⟨RTreeNode.newLeaves dim, 0⟩

/-- `MbrMap::insert` (src/tree/mbr/map.rs:44). -/
def mapInsert {T : Type} (conf : RStarConf) (m : MbrMap T) (g : Rect) (item : T) :
    MbrMap T :=
  ⟨rstarInsertIntoRoot conf m.root ⟨g, item⟩, m.len + 1⟩

/-- `MbrMap::retain` (src/tree/mbr/map.rs:61): run the remove index, subtract the
number of removed leaves from `len`, extract the removed `(geometry, item)` pairs. -/
def mapRetain {T : Type} (conf : RStarConf) (rrMin : Nat) (m : MbrMap T)
    (q : QueryFns T) (f : T → Bool) : MbrMap T × List (Rect × T) :=
  let r := removeFromRoot rrMin conf q f m.root
  (⟨r.1, m.len - r.2.length⟩, r.2.map MbrLeaf.extract)

/-- `MbrMap::remove` (src/tree/mbr/map.rs:53): `retain(query, |_| false)`. -/
def mapRemove {T : Type} (conf : RStarConf) (rrMin : Nat) (m : MbrMap T)
    (q : QueryFns T) : MbrMap T × List (Rect × T) :=
  mapRetain conf rrMin m q (fun _ => false)

/-- `MbrMap::clear` (src/tree/mbr/map.rs:92). -/
def mapClear {T : Type} (conf : RStarConf) (_m : MbrMap T) : MbrMap T :=
  ⟨RTreeNode.newLeaves conf.dim, 0⟩

/-- The sequence of leaves yielded by the two-level cursor `Iter` / `LevelIter`
(src/tree/mbr/map.rs:127-435): nothing if the root is empty or rejected; otherwise a
depth-first traversal in which every non-root node is skipped (with its subtree) when
`accept_level` rejects it, and the leaves of each surviving leaf-bearing node are
filtered by `accept_leaf`. -/
def collectNode {T : Type} (q : QueryFns T) : RTreeNode T → List (MbrLeaf T)
  | .Leaves _ cs => cs.filter q.acceptLeaf
  | .Level _ cs => collectList cs
where
  /-- `LevelIter::next_leaves` over a child iterator. -/
  collectList : List (RTreeNode T) → List (MbrLeaf T)
    | [] => []
    | c :: cs => (if q.acceptLevel c then collectNode q c else []) ++ collectList cs

/-- `MbrMap::iter_query` as a sequence (src/tree/mbr/map.rs:108 with the constructor
check of `LevelIter::new`, src/tree/mbr/map.rs:150). -/
def iterQuery {T : Type} (q : QueryFns T) (root : RTreeNode T) : List (MbrLeaf T) :=
  if root.isEmpty || !q.acceptLevel root then [] else collectNode q root

/-- `MbrMap::iter` (src/tree/mbr/map.rs:98): `iter_query(Overlaps(Rect::max()))`,
yielding `(geometry, item)` views of each leaf. -/
def mapIter {T : Type} (conf : RStarConf) (m : MbrMap T) : List (Rect × T) :=
  (iterQuery ((MbrRectQuery.Overlaps (rectMax conf.dim)).toQuery T) m.root).map
    MbrLeaf.extract

/-- Map with the element index, from a starting index (structural, kernel-reducible
replacement for `List.mapIdx`). -/
def mapIdxFrom {α β : Type} (f : Nat → α → β) : Nat → List α → List β
  | _, [] => []
  | i, a :: l => f i a :: mapIdxFrom f (i + 1) l

/-- Exact comparison of the quotients `a.1 / a.2 < b.1 / b.2` for positive
denominators, by cross-multiplication. -/
def fracLt (a b : ℤ × ℤ) : Bool := decide (a.1 * b.2 < b.1 * a.2)

/-- `Linear::pick_seed` (src/tree/mbr/index/r.rs:75).  Note the update of the
greatest-lower tracker: the source tests `max_for_axis < *gmin` but then stores
`*gmin = min_for_axis` (src/tree/mbr/index/r.rs:103).  The embedding reproduces that
assignment literally.  The per-axis separation `(gmin - lmax) / width` is kept as the
exact pair `(gmin - lmax, width)` and compared with `fracLt` (the widths are clamped
positive, so this is the exact order of the quotients). -/
def linearPickSeed {V : Type} (ops : GeomOps V) (mbr : Rect) (children : List V) :
    Nat × Nat :=
  let widths := mbr.map (fun e => let w := e.2 - e.1; if w ≤ 0 then 1 else w)
  let init : List ((ℤ × Nat) × (ℤ × Nat)) :=
    List.replicate mbr.length ((-FMAX, 0), (FMAX, 0))
  let st := children.enum.foldl (fun st (p : Nat × V) =>
    mapIdxFrom (fun d e =>
      let mn := ops.minAxis p.2 d
      let mx := ops.maxAxis p.2 d
      ((if mn > e.1.1 then (mn, p.1) else e.1),
       (if mx < e.2.1 then (mn, p.1) else e.2))) 0 st) init
  let triples := (widths.zip st).map
    (fun p => (((p.2.2.1 - p.2.1.1), p.1), p.2.1.2, p.2.2.2))
  let best := maxByLast (fun t => t.1) fracLt (((0 : ℤ), (1 : ℤ)), 0, 0) triples
  if best.2.1 > best.2.2 then (best.2.2, best.2.1) else (best.2.1, best.2.2)

/-- The distribution loop QS2/QS3 of `SeedSplit::split` (src/tree/mbr/index/r.rs:193):
children are popped from the tail; a side short by exactly the number of remaining
children absorbs them all; otherwise the popped child goes to the side of smaller
`(area expansion, area, count)`.  The loop pops one child per iteration, so fuel equal
to the initial length drives it.  State and result: `(k mbr, k children, l mbr,
l children)`. -/
def seedSplitLoop {V : Type} (ops : GeomOps V) (minE : Nat) :
    Nat → List V → Rect → List V → Rect → List V → Rect × List V × Rect × List V
  | 0, _, kMbr, kCh, lMbr, lCh => (kMbr, kCh, lMbr, lCh)
  | fuel + 1, children, kMbr, kCh, lMbr, lCh =>
    if children.isEmpty then (kMbr, kCh, lMbr, lCh)
    else if kCh.length + children.length == minE then
      (children.foldl (fun m c => ops.expandFit c m) kMbr, kCh ++ children, lMbr, lCh)
    else if lCh.length + children.length == minE then
      (kMbr, kCh, children.foldl (fun m c => ops.expandFit c m) lMbr, lCh ++ children)
    else
      match children.getLast? with
      | none => (kMbr, kCh, lMbr, lCh)
      | some child =>
        let rest := children.dropLast
        let kExpanded := ops.expandFit child kMbr
        let lExpanded := ops.expandFit child lMbr
        let kArea := rectArea kMbr
        let lArea := rectArea lMbr
        if lexQQN (rectArea kExpanded - kArea, kArea, kCh.length)
            (rectArea lExpanded - lArea, lArea, lCh.length) then
          seedSplitLoop ops minE fuel rest kExpanded (kCh ++ [child]) lMbr lCh
        else
          seedSplitLoop ops minE fuel rest kMbr kCh lExpanded (lCh ++ [child])

/-- `SeedSplit::split` (src/tree/mbr/index/r.rs:159), generic over the pick-seed
strategy `ps` (the `PS: PickSeed` type parameter).  Picks the seeds, applies the tie
fix, removes them, runs the distribution loop.  The source's asserts (non-empty
children, `k < l`) and out-of-range removals panic; those cases return the input
unchanged with an empty sibling.  Result: `(node mbr, node children, split mbr, split
children)`. -/
def seedSplit {V : Type} (ops : GeomOps V) (ps : Rect → List V → Nat × Nat)
    (minE dim : Nat) (mbr : Rect) (children : List V) :
    Rect × List V × Rect × List V :=
  let s := ps mbr children
  let kl :=
    if s.1 == s.2 then
      if s.1 < children.length - 1 then (s.1, s.2 + 1) else (s.1 - 1, s.2)
    else (s.1, s.2)
  match children[kl.1]?, (children.eraseIdx kl.1)[kl.2 - 1]? with
  | some kChild, some lChild =>
    let rest := (children.eraseIdx kl.1).eraseIdx (kl.2 - 1)
    let kMbr := ops.expandFit kChild (maxInverted dim)
    let lMbr := ops.expandFit lChild (maxInverted dim)
    seedSplitLoop ops minE rest.length rest kMbr [kChild] lMbr [lChild]
  | _, _ => (mbr, children, maxInverted dim, [])

/-! ### Specification-side predicates

These definitions express the invariants and reference traversals that the claims
quantify over; they are stated against the embedded data model. -/

/-- `insideB g r`: the box `g` lies inside the box `r` — same dimension and, on every
axis, `r.lo ≤ g.lo ∧ g.hi ≤ r.hi`. -/
def insideB (g r : Rect) : Bool :=
  g.length == r.length &&
    (r.zip g).all (fun p => decide (p.1.1 ≤ p.2.1) && decide (p.2.2 ≤ p.1.2))

/-- `boxOKB dim B r`: `r` has dimension `dim`, every edge is ordered, and all
coordinates lie in `[-B, B]`. -/
def boxOKB (dim : Nat) (B : ℤ) (r : Rect) : Bool :=
  r.length == dim &&
    r.all (fun e => decide (-B ≤ e.1) && decide (e.1 ≤ e.2) && decide (e.2 ≤ B))

/-- The tight-MBR invariant (spec §3, global invariant 1): every node's MBR is the
fold of its children's boxes from `Rect::max_inverted()`, with uniform dimension. -/
def tightTree {T : Type} (dim : Nat) : RTreeNode T → Bool
  | .Leaves mbr cs =>
    mbr.length == dim && cs.all (fun l => l.geometry.length == dim) &&
      mbr == mbrOfListWith (leafOps T) dim cs
  | .Level mbr cs =>
    mbr.length == dim && mbr == mbrOfListWith (nodeOps T) dim cs && tightList cs
where
  /-- `tightTree` on every node of a list. -/
  tightList : List (RTreeNode T) → Bool
    | [] => true
    | c :: cs => tightTree dim c && tightList cs

/-- The structural invariant maintained by the public operations, parameterized by a
coordinate bound `B`: uniform dimension, every geometry and every non-empty node's
MBR a valid box within `[-B, B]` (an empty leaf node — only the root — carries the
`max_inverted` sentinel MBR), every child box inside its parent's MBR, and no
empty node below the root. -/
def nodeInvB {T : Type} (dim : Nat) (B : ℤ) : RTreeNode T → Bool
  | .Leaves mbr cs =>
    mbr.length == dim &&
      ((cs.isEmpty && mbr == maxInverted dim) || boxOKB dim B mbr) &&
      cs.all (fun l => boxOKB dim B l.geometry && insideB l.geometry mbr)
  | .Level mbr cs =>
    mbr.length == dim && !cs.isEmpty && boxOKB dim B mbr && nodeInvList mbr cs
where
  /-- The invariant on each child of an interior node: recursively well-formed,
  inside the parent's MBR, and non-empty. -/
  nodeInvList : Rect → List (RTreeNode T) → Bool
    | _, [] => true
    | pm, c :: cs =>
      nodeInvB dim B c && insideB c.mbr pm && !c.isEmpty && nodeInvList pm cs

/-- The leaves carried by an `InsertResult`. -/
def resLeaves {T : Type} : InsertResult T → List (MbrLeaf T)
  | .Ok => []
  | .Reinsert ls => ls
  | .Split n => leavesOf n

/-- The reference removal traversal: the leaves that `remove_leaves_from_level`
extracts, in traversal order — prune any node rejected by `accept_level`, and from
each surviving leaf-bearing node take the leaves with `accept_leaf && !f`. -/
def collectRemovable {T : Type} (q : QueryFns T) (f : T → Bool) :
    RTreeNode T → List (MbrLeaf T)
  | .Leaves mbr cs =>
    if !q.acceptLevel (.Leaves mbr cs) then []
    else cs.filter (fun l => q.acceptLeaf l && !f l.item)
  | .Level mbr cs =>
    if !q.acceptLevel (.Level mbr cs) then [] else collectRemovableList cs
where
  /-- Concatenation over the children in order. -/
  collectRemovableList : List (RTreeNode T) → List (MbrLeaf T)
    | [] => []
    | c :: cs => collectRemovable q f c ++ collectRemovableList cs

/-- The asserted preconditions of `RStarInsert::new_with_options`
(src/tree/mbr/index/rstar.rs:92), together with the derived facts the algorithms rely
on (`reinsert_m ≥ 1` and `reinsert_m ≤ max` hold for every configuration the
constructor accepts, since `reinsert_size ∈ [1, max - 1]` there). -/
def RStarConfOk (conf : RStarConf) : Prop :=
  1 ≤ conf.dim ∧ 1 ≤ conf.minK ∧ conf.minK < conf.maxK ∧ conf.maxK < conf.max ∧
    1 ≤ conf.reinsertM ∧ conf.reinsertM ≤ conf.max

/-- Iterated product (structural, kernel-reducible power on `ℤ`). -/
def zpowNat (b : ℤ) : Nat → ℤ
  | 0 => 1
  | n + 1 => b * zpowNat b n

/-- Coordinate-bound side conditions: with all coordinates in `[-B, B]` and
`(2B)^dim < P::MAX`, no area or overlap computation reaches `P::MAX` (the float code
would neither overflow to infinity nor saturate a comparison against
`Float::max_value()`). -/
def BoundsOk (dim : Nat) (B : ℤ) : Prop :=
  0 ≤ B ∧ B < FMAX ∧ zpowNat (2 * B) dim < FMAX

/-- A public map operation (spec §4.6): `insert`, `retain` (subsuming `remove q` =
`retain q (fun _ => false)`), or `clear`. -/
inductive MapOp (T : Type) where
  | insert (g : Rect) (item : T)
  | retain (q : QueryFns T) (f : T → Bool)
  | clear

/-- Apply one public operation. -/
def applyOp {T : Type} (conf : RStarConf) (rrMin : Nat) (m : MbrMap T) :
    MapOp T → MbrMap T
  | .insert g t => mapInsert conf m g t
  | .retain q f => (mapRetain conf rrMin m q f).1
  | .clear => mapClear conf m

/-- Apply a sequence of public operations. -/
def applyOps {T : Type} (conf : RStarConf) (rrMin : Nat) (m : MbrMap T)
    (ops : List (MapOp T)) : MbrMap T :=
  ops.foldl (applyOp conf rrMin) m

/-- The geometry bound required of an operation: inserted geometries are valid boxes
of dimension `dim` within `[-B, B]`. -/
def opOK {T : Type} (dim : Nat) (B : ℤ) : MapOp T → Prop
  | .insert g _ => boxOKB dim B g = true
  | .retain _ _ => True
  | .clear => True

/-- Bounded fan-out: every node holds at most `maxE` children (`max` splits keep
this, and it makes an overflowing node hold exactly `max + 1` children). -/
def sizeOK {T : Type} (maxE : Nat) : RTreeNode T → Bool
  | .Leaves _ cs => decide (cs.length ≤ maxE)
  | .Level _ cs => decide (cs.length ≤ maxE) && sizeList cs
where
  /-- `sizeOK` on every node of a list. -/
  sizeList : List (RTreeNode T) → Bool
    | [] => true
    | c :: cs => sizeOK maxE c && sizeList cs

/-! ## Utility lemmas -/

theorem stableInsert_perm {α : Type} (le : α → α → Bool) (a : α) (l : List α) :
    (stableInsert le a l).Perm (a :: l) := by
  induction l with
  | nil => simp [stableInsert]
  | cons b l ih =>
    rw [stableInsert]
    split
    · exact ((ih.cons b).trans (List.Perm.swap a b l)).symm.symm
    · exact List.Perm.refl _

theorem stableSortBy_perm {α : Type} (le : α → α → Bool) (l : List α) :
    (stableSortBy le l).Perm l := by
  induction l with
  | nil => simp [stableSortBy]
  | cons a l ih =>
    exact (stableInsert_perm le a (stableSortBy le l)).trans (ih.cons a)

theorem stableSortBy_length {α : Type} (le : α → α → Bool) (l : List α) :
    (stableSortBy le l).length = l.length :=
  (stableSortBy_perm le l).length_eq

theorem stableInsert_pairwise {α : Type} {le : α → α → Bool}
    (htot : ∀ a b, (le a b || le b a) = true)
    (htrans : ∀ a b c, le a b = true → le b c = true → le a c = true)
    (a : α) {l : List α} (hl : l.Pairwise (fun x y => le x y = true)) :
    (stableInsert le a l).Pairwise (fun x y => le x y = true) := by
  induction l with
  | nil => simp [stableInsert]
  | cons b l ih =>
    rcases List.pairwise_cons.mp hl with ⟨hb, hl'⟩
    rw [stableInsert]
    by_cases hcond : (le b a && !le a b) = true
    · rw [if_pos hcond]
      simp only [Bool.and_eq_true, Bool.not_eq_true'] at hcond
      refine List.pairwise_cons.mpr ⟨fun x hx => ?_, ih hl'⟩
      rcases List.mem_cons.mp ((stableInsert_perm le a l).mem_iff.mp hx) with rfl | hx
      · exact hcond.1
      · exact hb x hx
    · rw [if_neg hcond]
      have hab : le a b = true := by
        rcases Bool.or_eq_true_iff.mp (htot a b) with h | h
        · exact h
        · by_contra habf
          simp only [Bool.not_eq_true] at habf
          simp [h, habf] at hcond
      refine List.pairwise_cons.mpr ⟨fun x hx => ?_,
        List.pairwise_cons.mpr ⟨hb, hl'⟩⟩
      rcases List.mem_cons.mp hx with rfl | hx
      · exact hab
      · exact htrans a b x hab (hb x hx)

theorem stableSortBy_pairwise {α : Type} {le : α → α → Bool}
    (htot : ∀ a b, (le a b || le b a) = true)
    (htrans : ∀ a b c, le a b = true → le b c = true → le a c = true)
    (l : List α) :
    (stableSortBy le l).Pairwise (fun x y => le x y = true) := by
  induction l with
  | nil => simp [stableSortBy]
  | cons a l ih => exact stableInsert_pairwise htot htrans a ih

/-! ## Claim C10 -/

/-- C10: `Rect::overlapped_by_mbr` is strict on every axis — an `Overlaps(Q)` query
accepts a `Rect` leaf iff on every axis the query's low endpoint is strictly below the
leaf's high endpoint and the leaf's low endpoint is strictly below the query's high
endpoint; consequently a leaf that merely touches `Q` (equal endpoints on some axis)
is rejected. -/
theorem C10_overlap_strict {T : Type} (q : Rect) (leaf : MbrLeaf T) :
    ((MbrRectQuery.Overlaps q).acceptLeaf leaf = true ↔
      ∀ p ∈ q.zip leaf.geometry, p.1.1 < p.2.2 ∧ p.2.1 < p.1.2) ∧
    (∀ p ∈ q.zip leaf.geometry, p.1.2 = p.2.1 ∨ p.2.2 = p.1.1 →
      (MbrRectQuery.Overlaps q).acceptLeaf leaf = false) := by
  constructor
  · simp [MbrRectQuery.acceptLeaf, overlappedByMbr, List.all_eq_true]
  · intro p hp heq
    rw [← Bool.not_eq_true]
    intro hacc
    simp only [MbrRectQuery.acceptLeaf, overlappedByMbr, List.all_eq_true,
      Bool.not_or, Bool.not_not, Bool.and_eq_true, decide_eq_true_eq] at hacc
    have h2 := hacc p hp
    rcases heq with he | he
    · rw [he] at h2; exact absurd h2.2 (lt_irrefl _)
    · rw [he] at h2; exact absurd h2.1 (lt_irrefl _)

/-- Witness for C10 at a concrete input: the query `[0,1]` and a leaf `[1,2]` that
touches it share the boundary `1`, and the leaf is rejected. -/
theorem C10_overlap_strict_witness :
    (MbrRectQuery.Overlaps [((0 : ℤ), 1)]).acceptLeaf
      (⟨[((1 : ℤ), 2)], 0⟩ : MbrLeaf Nat) = false :=
  (C10_overlap_strict [((0 : ℤ), 1)] (⟨[((1 : ℤ), 2)], 0⟩ : MbrLeaf Nat)).2
    (((0 : ℤ), (1 : ℤ)), ((1 : ℤ), (2 : ℤ))) (by decide) (Or.inl (by decide))

/-! ## Claim C4 -/

/-- C4 (code bug): `Rect::new` is meant to normalize each edge, but after
`*x = x.min(*y)` the statement `*y = x.max(*y)` reads the already-updated `x`, so the
swapped edge `(5, 3)` collapses to `(3, 3)` instead of the claimed `(3, 5)`: the
coordinate `5` is lost. -/
theorem C4_rect_new_collapses_swapped_edge :
    rectNew [((5 : ℤ), 3)] = [((3 : ℤ), 3)] ∧
      rectNew [((5 : ℤ), 3)] ≠ [((3 : ℤ), 5)] ∧
      rectNew [((3 : ℤ), 5)] = [((3 : ℤ), 5)] := by decide

/-! ## Claim C7 -/

/-- C7 (code bug): on the one-axis input with children `[0,20]`, `[10,12]`, `[8,9]`
and node MBR `[0,20]`, `Linear::pick_seed` returns `(0, 1)`, although child 2 is the
unique child with the smallest maximum and child 1 the unique child with the greatest
minimum, so the seeds described by the claim are `(1, 2)`.  The cause: the update of
the smallest-maximum tracker tests `max_for_axis < *gmin` but stores `min_for_axis`
(src/tree/mbr/index/r.rs:103). -/
theorem C7_linear_pick_seed_diverges :
    linearPickSeed (leafOps Nat) [((0 : ℤ), 20)]
        [⟨[((0 : ℤ), 20)], 0⟩, ⟨[((10 : ℤ), 12)], 1⟩, ⟨[((8 : ℤ), 9)], 2⟩] = (0, 1) ∧
      maxForAxis [((8 : ℤ), 9)] 0 < maxForAxis [((0 : ℤ), 20)] 0 ∧
      maxForAxis [((8 : ℤ), 9)] 0 < maxForAxis [((10 : ℤ), 12)] 0 ∧
      minForAxis [((0 : ℤ), 20)] 0 < minForAxis [((10 : ℤ), 12)] 0 ∧
      minForAxis [((8 : ℤ), 9)] 0 < minForAxis [((10 : ℤ), 12)] 0 := by
  set_option maxRecDepth 100000 in decide

/-! ## Claim C6 -/

theorem rstarHandleOverflow_not_reinsert {T : Type} (conf : RStarConf)
    (level : RTreeNode T) (atRoot forceSplit : Bool)
    (h : atRoot = true ∨ forceSplit = true) (ls : List (MbrLeaf T)) :
    (rstarHandleOverflow conf level atRoot forceSplit).2 ≠ .Reinsert ls := by
  unfold rstarHandleOverflow
  have hcond : (!atRoot && !forceSplit) = false := by
    rcases h with h | h <;> simp [h]
  rw [hcond]
  simp only [Bool.false_eq_true, if_false]
  cases level <;> simp

/-- C6: `insert_into_level` invoked with `force_split = true` never returns the
`Reinsert` variant (`handle_overflow` can only return `Reinsert` when `at_root` and
`force_split` are both false), so the `unreachable!()` arm taken on a `Reinsert`
result during the reinsertion pass of `insert_into_root` is dead code. -/
theorem C6_force_split_never_reinserts {T : Type} (conf : RStarConf) (fuel : Nat)
    (level : RTreeNode T) (leaf : MbrLeaf T) (atRoot : Bool) (ls : List (MbrLeaf T)) :
    (rstarInsertGo conf fuel level leaf atRoot true).2 ≠ .Reinsert ls ∧
      (∀ (lvl : RTreeNode T) (ar fs : Bool), ar = true ∨ fs = true →
        (rstarHandleOverflow conf lvl ar fs).2 ≠ .Reinsert ls) := by
  refine ⟨?_, fun lvl ar fs h => rstarHandleOverflow_not_reinsert conf lvl ar fs h ls⟩
  induction fuel generalizing level atRoot ls with
  | zero =>
    rw [rstarInsertGo.eq_def]
    cases level with
    | Leaves mbr children =>
      simp only []
      split
      · exact rstarHandleOverflow_not_reinsert conf _ atRoot true (Or.inr rfl) ls
      · simp
    | Level mbr children => simp
  | succ fuel ih =>
    rw [rstarInsertGo.eq_def]
    cases level with
    | Leaves mbr children =>
      simp only []
      split
      · exact rstarHandleOverflow_not_reinsert conf _ atRoot true (Or.inr rfl) ls
      · simp
    | Level mbr children =>
      simp only []
      cases hsub : (chooseSubnode conf children leaf).1[(chooseSubnode conf children leaf).2]? with
      | none => simp
      | some sub =>
        simp only []
        cases hres : (rstarInsertGo conf fuel sub leaf false true).2 with
        | Ok => simp
        | Reinsert ls' => exact absurd hres (ih sub false ls')
        | Split c =>
          simp only []
          split
          · exact rstarHandleOverflow_not_reinsert conf _ atRoot true (Or.inr rfl) ls
          · simp

/-- Witness for C6's second conjunct at a concrete input. -/
theorem C6_force_split_never_reinserts_witness :
    (rstarInsertGo (newWithOptions 1 4 dReinsertP dSplitP 32) 0
        (RTreeNode.Leaves [((0 : ℤ), 1)] [] : RTreeNode Nat)
        ⟨[((0 : ℤ), 1)], 0⟩ false true).2 ≠ .Reinsert [] :=
  (C6_force_split_never_reinserts (newWithOptions 1 4 dReinsertP dSplitP 32) 0
    (RTreeNode.Leaves [((0 : ℤ), 1)] []) ⟨[((0 : ℤ), 1)], 0⟩ false []).1

/-! ## Claim C5 -/

/-- The sort key of `split_for_reinsert` for a fixed node MBR. -/
theorem splitForReinsert_sorted_pairwise {T : Type} (mbr : Rect)
    (children : List (MbrLeaf T)) :
    (stableSortBy (fun a b => decide (distanceFromMbrCenter2 a.geometry mbr ≤
        distanceFromMbrCenter2 b.geometry mbr)) children).Pairwise
      (fun a b => decide (distanceFromMbrCenter2 a.geometry mbr ≤
        distanceFromMbrCenter2 b.geometry mbr) = true) := by
  refine stableSortBy_pairwise (fun a b => ?_) (fun a b c hab hbc => ?_) children
  · simp only [Bool.or_eq_true, decide_eq_true_eq]
    exact le_total _ _
  · simp only [decide_eq_true_eq] at *
    exact le_trans hab hbc

/-- C5 (corrected): when `split_for_reinsert` runs on a node with `len` leaves
(`len = max + 1` at the overflow call site), it returns the `len - reinsert_m`
leaves whose centers are furthest from the node's MBR center (the tail of the
ascending stable sort by center distance) — not `max - reinsert_m` of them — keeps
the `reinsert_m` closest leaves, and recomputes the node's MBR as the tight fold over
the kept leaves. -/
theorem C5_split_for_reinsert_amended {T : Type} (conf : RStarConf) (mbr : Rect)
    (children : List (MbrLeaf T)) (h : conf.reinsertM ≤ children.length) :
    (splitForReinsert conf mbr children).2.2.length
        = children.length - conf.reinsertM ∧
      (splitForReinsert conf mbr children).2.1.length = conf.reinsertM ∧
      ((splitForReinsert conf mbr children).2.1 ++
        (splitForReinsert conf mbr children).2.2).Perm children ∧
      (∀ a ∈ (splitForReinsert conf mbr children).2.1,
        ∀ b ∈ (splitForReinsert conf mbr children).2.2,
          distanceFromMbrCenter2 a.geometry mbr ≤
            distanceFromMbrCenter2 b.geometry mbr) ∧
      (splitForReinsert conf mbr children).1
        = mbrOfListWith (leafOps T) conf.dim (splitForReinsert conf mbr children).2.1 ∧
      (children.length = conf.max + 1 →
        (splitForReinsert conf mbr children).2.2.length
          = conf.max + 1 - conf.reinsertM) := by
  have hlen : (stableSortBy (fun a b => decide (distanceFromMbrCenter2 a.geometry mbr ≤
      distanceFromMbrCenter2 b.geometry mbr)) children).length = children.length :=
    stableSortBy_length _ children
  have hperm := stableSortBy_perm (fun a b => decide (distanceFromMbrCenter2 a.geometry mbr ≤
      distanceFromMbrCenter2 b.geometry mbr)) children
  refine ⟨?_, ?_, ?_, ?_, ?_, ?_⟩
  · simp [splitForReinsert, hlen]
  · simp [splitForReinsert, hlen]
    omega
  · simp only [splitForReinsert, List.take_append_drop]
    exact hperm
  · intro a ha b hb
    have hpw := splitForReinsert_sorted_pairwise mbr children
    rw [← List.take_append_drop conf.reinsertM (stableSortBy _ children)] at hpw
    have := (List.pairwise_append.mp hpw).2.2
    simp only [splitForReinsert] at ha hb
    have h2 := this a ha b hb
    simpa using h2
  · rfl
  · intro hml
    simp [splitForReinsert, hlen, hml]

/-- C5 counterexample: with `new_with_options(max = 4, 0.3, 0.4, 32)` we get
`reinsert_m = 3`; on an overflowing node of `max + 1 = 5` leaves the reinsert set has
`5 - 3 = 2` leaves, while the claim's `max - reinsert_m` is `1`. -/
theorem C5_counterexample :
    (newWithOptions 1 4 dReinsertP dSplitP 32).reinsertM = 3 ∧
      (newWithOptions 1 4 dReinsertP dSplitP 32).max
        - (newWithOptions 1 4 dReinsertP dSplitP 32).reinsertM = 1 ∧
      (splitForReinsert (newWithOptions 1 4 dReinsertP dSplitP 32) [((0 : ℤ), 10)]
        ([⟨[(0, 0)], 0⟩, ⟨[(10, 10)], 1⟩, ⟨[(1, 1)], 2⟩, ⟨[(4, 4)], 3⟩,
          ⟨[(6, 6)], 4⟩] : List (MbrLeaf Nat))).2.2.length = 2 := by decide

/-- Witness for C5's amended statement at the same concrete input. -/
theorem C5_split_for_reinsert_amended_witness :
    (splitForReinsert (newWithOptions 1 4 dReinsertP dSplitP 32) [((0 : ℤ), 10)]
      ([⟨[(0, 0)], 0⟩, ⟨[(10, 10)], 1⟩, ⟨[(1, 1)], 2⟩, ⟨[(4, 4)], 3⟩,
        ⟨[(6, 6)], 4⟩] : List (MbrLeaf Nat))).2.2.length = 5 - 3 :=
  (C5_split_for_reinsert_amended (newWithOptions 1 4 dReinsertP dSplitP 32)
    [((0 : ℤ), 10)] _ (by decide)).1

/-! ## Claim C8 -/

theorem perm_getElem_cons_eraseIdx {α : Type} (l : List α) (i : Nat)
    (h : i < l.length) : (l[i] :: l.eraseIdx i).Perm l := by
  rw [List.eraseIdx_eq_take_drop_succ]
  refine List.perm_middle.symm.trans ?_
  rw [List.getElem_cons_drop, List.take_append_drop]

/-- The distribution loop QS2/QS3 preserves the entries as a multiset and, when both
sides start with one seed and the usual count bounds hold, ends with at least `min`
entries on each side. -/
theorem seedSplitLoop_spec {V : Type} (ops : GeomOps V) (minE : Nat) :
    ∀ (fuel : Nat) (children kCh lCh : List V) (kMbr lMbr : Rect),
      children.length ≤ fuel →
      1 ≤ kCh.length → 1 ≤ lCh.length →
      minE ≤ kCh.length + children.length →
      minE ≤ lCh.length + children.length →
      2 * minE ≤ kCh.length + lCh.length + children.length →
      ((seedSplitLoop ops minE fuel children kMbr kCh lMbr lCh).2.1 ++
          (seedSplitLoop ops minE fuel children kMbr kCh lMbr lCh).2.2.2).Perm
            (kCh ++ lCh ++ children) ∧
        minE ≤ (seedSplitLoop ops minE fuel children kMbr kCh lMbr lCh).2.1.length ∧
        minE ≤ (seedSplitLoop ops minE fuel children kMbr kCh lMbr lCh).2.2.2.length := by
  intro fuel
  induction fuel with
  | zero =>
    intro children kCh lCh kMbr lMbr hfuel hk hl hkc hlc htot
    have : children = [] := List.length_eq_zero.mp (Nat.le_zero.mp hfuel)
    subst this
    rw [seedSplitLoop]
    refine ⟨by simp, ?_, ?_⟩
    · show minE ≤ kCh.length
      simp at hkc
      omega
    · show minE ≤ lCh.length
      simp at hlc
      omega
  | succ fuel ih =>
    intro children kCh lCh kMbr lMbr hfuel hk hl hkc hlc htot
    rw [seedSplitLoop]
    by_cases hemp : children.isEmpty
    · rw [if_pos hemp]
      have : children = [] := by simpa [List.isEmpty_iff] using hemp
      subst this
      refine ⟨by simp, ?_, ?_⟩
      · show minE ≤ kCh.length
        simp at hkc
        omega
      · show minE ≤ lCh.length
        simp at hlc
        omega
    · rw [if_neg hemp]
      have hne : children ≠ [] := by simpa [List.isEmpty_iff] using hemp
      by_cases hkdump : (kCh.length + children.length == minE) = true
      · rw [if_pos hkdump]
        simp only [beq_iff_eq] at hkdump
        refine ⟨?_, ?_, ?_⟩
        · show ((kCh ++ children) ++ lCh).Perm (kCh ++ lCh ++ children)
          have e1 : (kCh ++ children) ++ lCh = kCh ++ (children ++ lCh) := by simp
          have e2 : kCh ++ lCh ++ children = kCh ++ (lCh ++ children) := by simp
          rw [e1, e2]
          exact (List.perm_append_comm).append_left kCh
        · show minE ≤ (kCh ++ children).length
          simp [List.length_append]
          omega
        · show minE ≤ lCh.length
          omega
      · rw [if_neg hkdump]
        by_cases hldump : (lCh.length + children.length == minE) = true
        · rw [if_pos hldump]
          simp only [beq_iff_eq] at hldump hkdump
          refine ⟨by simp, ?_, ?_⟩
          · show minE ≤ kCh.length
            omega
          · show minE ≤ (lCh ++ children).length
            simp [List.length_append]
            omega
        · rw [if_neg hldump]
          simp only [beq_iff_eq] at hkdump hldump
          cases hlast : children.getLast? with
          | none => exact absurd (List.getLast?_eq_none_iff.mp hlast) hne
          | some child =>
            simp only []
            have hsplit : children.dropLast ++ [child] = children := by
              rw [List.getLast?_eq_getLast children hne] at hlast
              have hc : child = children.getLast hne := by
                injection hlast with h
                exact h.symm
              rw [hc]
              exact List.dropLast_append_getLast hne
            have hclen : 1 ≤ children.length := by
              cases children with
              | nil => exact absurd rfl hne
              | cons a l => simp
            have hrlen : children.dropLast.length = children.length - 1 :=
              List.length_dropLast children
            split
            · have hres := ih children.dropLast (kCh ++ [child]) lCh
                (ops.expandFit child kMbr) lMbr
                (by omega) (by simp) hl (by simp; omega) (by omega) (by simp; omega)
              refine ⟨hres.1.trans ?_, hres.2.1, hres.2.2⟩
              have e1 : ((kCh ++ [child]) ++ lCh) ++ children.dropLast
                  = kCh ++ ([child] ++ (lCh ++ children.dropLast)) := by simp
              have e2 : kCh ++ lCh ++ children
                  = kCh ++ ((lCh ++ children.dropLast) ++ [child]) := by
                rw [← hsplit]
                simp
              rw [e1, e2]
              exact (List.perm_append_comm).append_left kCh
            · have hres := ih children.dropLast kCh (lCh ++ [child]) kMbr
                (ops.expandFit child lMbr)
                (by omega) hk (by simp) (by omega) (by simp; omega) (by simp; omega)
              refine ⟨hres.1.trans ?_, hres.2.1, hres.2.2⟩
              have e1 : (kCh ++ (lCh ++ [child])) ++ children.dropLast
                  = kCh ++ (lCh ++ ([child] ++ children.dropLast)) := by simp
              have e2 : kCh ++ lCh ++ children
                  = kCh ++ (lCh ++ (children.dropLast ++ [child])) := by
                rw [← hsplit]
                simp
              rw [e1, e2]
              exact ((List.perm_append_comm).append_left lCh).append_left kCh

/-- C8: for every `min ≥ 1`, every children vector with at least `2·min` entries, and
any pick-seed strategy returning in-range seeds `k ≤ l`, `SeedSplit::split` partitions
the entries into the node's group and the returned sibling's group: together they are
a permutation of the input and each holds at least `min` entries (when one side is
short by exactly the number of remaining children, the loop assigns all remaining
children to that side). -/
theorem C8_seed_split_partitions {V : Type} (ops : GeomOps V)
    (ps : Rect → List V → Nat × Nat) (minE dim : Nat) (mbr : Rect)
    (children : List V) (hmin : 1 ≤ minE) (hlen : 2 * minE ≤ children.length)
    (hk : (ps mbr children).1 < children.length)
    (hl : (ps mbr children).2 < children.length)
    (hkl : (ps mbr children).1 ≤ (ps mbr children).2) :
    ((seedSplit ops ps minE dim mbr children).2.1 ++
        (seedSplit ops ps minE dim mbr children).2.2.2).Perm children ∧
      minE ≤ (seedSplit ops ps minE dim mbr children).2.1.length ∧
      minE ≤ (seedSplit ops ps minE dim mbr children).2.2.2.length := by
  have hn2 : 2 ≤ children.length := by omega
  rw [seedSplit]
  simp only []
  set k₀ := (ps mbr children).1 with hk₀
  set l₀ := (ps mbr children).2 with hl₀
  set kl := (if (k₀ == l₀) = true then
      if k₀ < children.length - 1 then (k₀, l₀ + 1) else (k₀ - 1, l₀)
    else (k₀, l₀)) with hkldef
  have hklrange : kl.1 < kl.2 ∧ kl.2 < children.length := by
    rw [hkldef]
    by_cases he : (k₀ == l₀) = true
    · simp only [beq_iff_eq] at he
      rw [if_pos (by simp [he])]
      by_cases hlt : k₀ < children.length - 1
      · rw [if_pos hlt]
        refine ⟨by simp [he], by omega⟩
      · rw [if_neg hlt]
        refine ⟨by simp; omega, by simpa [he] using hl⟩
    · rw [if_neg he]
      simp only [beq_iff_eq] at he
      exact ⟨by omega, hl⟩
  have hkr : kl.1 < children.length := lt_trans hklrange.1 hklrange.2
  have hkelem : children[kl.1]? = some children[kl.1] := List.getElem?_eq_getElem hkr
  have herlen : (children.eraseIdx kl.1).length = children.length - 1 := by
    rw [List.length_eraseIdx]
    simp [hkr]
  have hl1 : kl.2 - 1 < (children.eraseIdx kl.1).length := by omega
  have hlelem : (children.eraseIdx kl.1)[kl.2 - 1]? =
      some (children.eraseIdx kl.1)[kl.2 - 1] := List.getElem?_eq_getElem hl1
  rw [hkelem, hlelem]
  simp only []
  have herlen2 : ((children.eraseIdx kl.1).eraseIdx (kl.2 - 1)).length
      = children.length - 2 := by
    rw [List.length_eraseIdx]
    simp only [hl1, if_pos]
    omega
  have hperm2 : ((children.eraseIdx kl.1)[kl.2 - 1] ::
      (children.eraseIdx kl.1).eraseIdx (kl.2 - 1)).Perm (children.eraseIdx kl.1) :=
    perm_getElem_cons_eraseIdx _ _ hl1
  have hperm1 : (children[kl.1] :: children.eraseIdx kl.1).Perm children :=
    perm_getElem_cons_eraseIdx _ _ hkr
  have hloop := seedSplitLoop_spec ops minE
    ((children.eraseIdx kl.1).eraseIdx (kl.2 - 1)).length
    ((children.eraseIdx kl.1).eraseIdx (kl.2 - 1))
    [children[kl.1]] [(children.eraseIdx kl.1)[kl.2 - 1]]
    (ops.expandFit children[kl.1] (maxInverted dim))
    (ops.expandFit (children.eraseIdx kl.1)[kl.2 - 1] (maxInverted dim))
    le_rfl (by simp) (by simp) (by simp; omega) (by simp; omega) (by simp; omega)
  refine ⟨hloop.1.trans (List.Perm.trans ?_ hperm1), hloop.2.1, hloop.2.2⟩
  have e : [children[kl.1]] ++ [(children.eraseIdx kl.1)[kl.2 - 1]] ++
      (children.eraseIdx kl.1).eraseIdx (kl.2 - 1)
      = children[kl.1] :: ((children.eraseIdx kl.1)[kl.2 - 1] ::
        (children.eraseIdx kl.1).eraseIdx (kl.2 - 1)) := by simp
  rw [e]
  exact hperm2.cons _

/-- Witness for C8 at a concrete input: `min = 2`, four children, the trivial picker
`(0, 1)`. -/
theorem C8_seed_split_partitions_witness :
    2 ≤ (seedSplit (leafOps Nat) (fun _ _ => (0, 1)) 2 1 [((0 : ℤ), 10)]
      [⟨[(0, 1)], 0⟩, ⟨[(9, 10)], 1⟩, ⟨[(1, 2)], 2⟩, ⟨[(8, 9)], 3⟩]).2.1.length :=
  (C8_seed_split_partitions (leafOps Nat) (fun _ _ => (0, 1)) 2 1 [((0 : ℤ), 10)]
    [⟨[(0, 1)], 0⟩, ⟨[(9, 10)], 1⟩, ⟨[(1, 2)], 2⟩, ⟨[(8, 9)], 3⟩]
    (by decide) (by decide) (by decide) (by decide) (by decide)).2.1

/-! ## Pointwise rectangle lemmas -/

theorem length_expandMbrToFit (s m : Rect) : (expandMbrToFit s m).length = m.length := by
  simp [expandMbrToFit]
  omega

theorem getD_expandMbrToFit (s m : Rect) (i : Nat) (d : ℤ × ℤ) (him : i < m.length) :
    (expandMbrToFit s m).getD i d =
      if i < s.length then
        (min (m.getD i d).1 (s.getD i d).1, max (m.getD i d).2 (s.getD i d).2)
      else m.getD i d := by
  by_cases his : i < s.length
  · rw [if_pos his]
    have hlt : i < (List.zipWith (fun mm ss => (min mm.1 ss.1, max mm.2 ss.2)) m s).length := by
      simp [List.length_zipWith]
      omega
    rw [expandMbrToFit, List.getD_eq_getElem _ d (by simp [List.length_zipWith]; omega),
      List.getElem_append_left hlt, List.getElem_zipWith,
      List.getD_eq_getElem _ d him, List.getD_eq_getElem _ d his]
  · rw [if_neg his]
    have hzl : (List.zipWith (fun mm ss => (min mm.1 ss.1, max mm.2 ss.2)) m s).length
        = s.length := by
      simp [List.length_zipWith]
      omega
    rw [expandMbrToFit, List.getD_eq_getElem _ d (by simp [List.length_zipWith]; omega),
      List.getElem_append_right (by omega), List.getD_eq_getElem _ d him]
    rw [List.getElem_drop]
    congr 1
    omega

theorem all_zip_iff {α β : Type} (l1 : List α) (l2 : List β) (p : α × β → Bool) :
    ((l1.zip l2).all p = true) ↔
      ∀ i (h1 : i < l1.length) (h2 : i < l2.length), p (l1[i], l2[i]) = true := by
  rw [List.all_eq_true]
  constructor
  · intro h i h1 h2
    refine h _ ?_
    rw [List.mem_iff_getElem]
    refine ⟨i, by simp [List.length_zip]; omega, ?_⟩
    rw [List.getElem_zip]
  · intro h x hx
    rw [List.mem_iff_getElem] at hx
    obtain ⟨i, hi, rfl⟩ := hx
    have hi' : i < min l1.length l2.length := by simpa [List.length_zip] using hi
    rw [List.getElem_zip]
    exact h i (by omega) (by omega)

theorem insideB_iff (g r : Rect) : insideB g r = true ↔
    g.length = r.length ∧ ∀ i, i < r.length →
      minForAxis r i ≤ minForAxis g i ∧ maxForAxis g i ≤ maxForAxis r i := by
  rw [insideB, Bool.and_eq_true, beq_iff_eq, all_zip_iff]
  constructor
  · rintro ⟨hlen, h⟩
    refine ⟨hlen, fun i hi => ?_⟩
    have h2 := h i hi (by omega)
    simp only [Bool.and_eq_true, decide_eq_true_eq] at h2
    rw [minForAxis, minForAxis, maxForAxis, maxForAxis,
      List.getD_eq_getElem _ _ hi, List.getD_eq_getElem _ _ (by omega : i < g.length)]
    exact h2
  · rintro ⟨hlen, h⟩
    refine ⟨hlen, fun i hi1 hi2 => ?_⟩
    have h2 := h i hi1
    rw [minForAxis, minForAxis, maxForAxis, maxForAxis,
      List.getD_eq_getElem _ _ hi1, List.getD_eq_getElem _ _ hi2] at h2
    simp only [Bool.and_eq_true, decide_eq_true_eq]
    exact h2

theorem overlappedByMbr_iff (self mbr : Rect) : overlappedByMbr self mbr = true ↔
    ∀ i, i < mbr.length → i < self.length →
      minForAxis mbr i < maxForAxis self i ∧ minForAxis self i < maxForAxis mbr i := by
  rw [overlappedByMbr, all_zip_iff]
  constructor
  · intro h i h1 h2
    have h3 := h i h1 h2
    simp only [Bool.not_or, Bool.not_not, Bool.and_eq_true, decide_eq_true_eq] at h3
    rw [minForAxis, minForAxis, maxForAxis, maxForAxis,
      List.getD_eq_getElem _ _ h1, List.getD_eq_getElem _ _ h2]
    exact h3
  · intro h i h1 h2
    have h3 := h i h1 h2
    rw [minForAxis, minForAxis, maxForAxis, maxForAxis,
      List.getD_eq_getElem _ _ h1, List.getD_eq_getElem _ _ h2] at h3
    simp only [Bool.not_or, Bool.not_not, Bool.and_eq_true, decide_eq_true_eq]
    exact h3

theorem insideB_trans {a b c : Rect} (hab : insideB a b = true)
    (hbc : insideB b c = true) : insideB a c = true := by
  rw [insideB_iff] at *
  refine ⟨hab.1.trans hbc.1, fun i hi => ?_⟩
  have h1 := hab.2 i (by rw [hbc.1]; exact hi)
  have h2 := hbc.2 i hi
  exact ⟨le_trans h2.1 h1.1, le_trans h1.2 h2.2⟩

theorem insideB_expand_mono (g s m : Rect) (h : insideB g m = true) :
    insideB g (expandMbrToFit s m) = true := by
  rw [insideB_iff] at h ⊢
  refine ⟨by rw [length_expandMbrToFit]; exact h.1, ?_⟩
  intro i hi
  rw [length_expandMbrToFit] at hi
  have h2 := h.2 i hi
  simp only [minForAxis, maxForAxis] at h2 ⊢
  rw [getD_expandMbrToFit s m i _ hi]
  split
  · exact ⟨le_trans (min_le_left _ _) h2.1, le_trans h2.2 (le_max_left _ _)⟩
  · exact h2

theorem insideB_expand_self (g m : Rect) (hlen : g.length = m.length) :
    insideB g (expandMbrToFit g m) = true := by
  rw [insideB_iff]
  refine ⟨by rw [length_expandMbrToFit]; exact hlen, ?_⟩
  intro i hi
  rw [length_expandMbrToFit] at hi
  simp only [minForAxis, maxForAxis]
  rw [getD_expandMbrToFit g m i _ hi, if_pos (by omega)]
  exact ⟨min_le_right _ _, le_max_right _ _⟩

theorem insideB_fold_mono (bs : List Rect) (m g : Rect) (h : insideB g m = true) :
    insideB g (bs.foldl (fun acc bb => expandMbrToFit bb acc) m) = true := by
  induction bs generalizing m with
  | nil => exact h
  | cons b bs ih => exact ih _ (insideB_expand_mono g b m h)

theorem insideB_foldExpand (bs : List Rect) (m : Rect) (b : Rect) (hb : b ∈ bs)
    (hlen : b.length = m.length) :
    insideB b (bs.foldl (fun acc bb => expandMbrToFit bb acc) m) = true := by
  induction bs generalizing m with
  | nil => exact absurd hb (List.not_mem_nil b)
  | cons c bs ih =>
    rcases List.mem_cons.mp hb with rfl | hb
    · exact insideB_fold_mono bs _ b (insideB_expand_self b m hlen)
    · exact ih (expandMbrToFit c m) hb (by rw [length_expandMbrToFit]; exact hlen)


theorem mbrOfListWith_leafOps (T : Type) (dim : Nat) (cs : List (MbrLeaf T)) :
    mbrOfListWith (leafOps T) dim cs =
      (cs.map (fun l => l.geometry)).foldl
        (fun acc bb => expandMbrToFit bb acc) (maxInverted dim) := by
  rw [mbrOfListWith, List.foldl_map]
  rfl

theorem mbrOfListWith_nodeOps (T : Type) (dim : Nat) (cs : List (RTreeNode T)) :
    mbrOfListWith (nodeOps T) dim cs =
      (cs.map (fun c => c.mbr)).foldl
        (fun acc bb => expandMbrToFit bb acc) (maxInverted dim) := by
  rw [mbrOfListWith, List.foldl_map]
  rfl

theorem length_maxInverted (dim : Nat) : (maxInverted dim).length = dim := by
  simp [maxInverted]

theorem length_foldExpand (bs : List Rect) (m : Rect) :
    (bs.foldl (fun acc bb => expandMbrToFit bb acc) m).length = m.length := by
  induction bs generalizing m with
  | nil => rfl
  | cons b bs ih => rw [List.foldl_cons, ih, length_expandMbrToFit]

theorem length_mbrOfListWith_leafOps (T : Type) (dim : Nat) (cs : List (MbrLeaf T)) :
    (mbrOfListWith (leafOps T) dim cs).length = dim := by
  rw [mbrOfListWith_leafOps, length_foldExpand, length_maxInverted]

theorem length_mbrOfListWith_nodeOps (T : Type) (dim : Nat) (cs : List (RTreeNode T)) :
    (mbrOfListWith (nodeOps T) dim cs).length = dim := by
  rw [mbrOfListWith_nodeOps, length_foldExpand, length_maxInverted]

/-! ## Tree-level containment -/

theorem height_child_le {T : Type} (c : RTreeNode T) (cs : List (RTreeNode T))
    (hc : c ∈ cs) : height c ≤ height.heightL cs := by
  induction cs with
  | nil => exact absurd hc (List.not_mem_nil c)
  | cons a l ih =>
    rw [height.heightL]
    rcases List.mem_cons.mp hc with rfl | hc
    · exact Nat.le_max_left _ _
    · exact le_trans (ih hc) (Nat.le_max_right _ _)

theorem mem_leavesOfList {T : Type} (l : MbrLeaf T) (cs : List (RTreeNode T)) :
    l ∈ leavesOf.leavesOfList cs ↔ ∃ c ∈ cs, l ∈ leavesOf c := by
  induction cs with
  | nil => simp [leavesOf.leavesOfList]
  | cons c cs ih =>
    rw [leavesOf.leavesOfList, List.mem_append, ih]
    constructor
    · rintro (h | ⟨c2, hc2, h⟩)
      · exact ⟨c, List.mem_cons_self c cs, h⟩
      · exact ⟨c2, List.mem_cons_of_mem c hc2, h⟩
    · rintro ⟨c2, hc2, h⟩
      rcases List.mem_cons.mp hc2 with rfl | hc2
      · exact Or.inl h
      · exact Or.inr ⟨c2, hc2, h⟩

theorem tightList_mem {T : Type} (dim : Nat) (cs : List (RTreeNode T))
    (h : tightTree.tightList dim cs = true) : ∀ c ∈ cs, tightTree dim c = true := by
  induction cs with
  | nil => intro c hc; exact absurd hc (List.not_mem_nil c)
  | cons a l ih =>
    rw [tightTree.tightList, Bool.and_eq_true] at h
    intro c hc
    rcases List.mem_cons.mp hc with rfl | hc
    · exact h.1
    · exact ih h.2 c hc

theorem tightTree_mbr_length {T : Type} (dim : Nat) (n : RTreeNode T)
    (h : tightTree dim n = true) : n.mbr.length = dim := by
  cases n with
  | Leaves mbr cs =>
    rw [tightTree, Bool.and_eq_true, Bool.and_eq_true] at h
    simpa using h.1.1
  | Level mbr cs =>
    rw [tightTree, Bool.and_eq_true, Bool.and_eq_true] at h
    simpa using h.1.1

/-- Under the tight-MBR invariant, every leaf geometry lies inside its node's MBR. -/
theorem tight_leaves_inside {T : Type} (dim : Nat) :
    ∀ (fuel : Nat) (n : RTreeNode T), height n ≤ fuel → tightTree dim n = true →
      ∀ l ∈ leavesOf n, insideB l.geometry n.mbr = true := by
  intro fuel
  induction fuel with
  | zero =>
    intro n hh ht l hl
    cases n with
    | Leaves mbr cs =>
      rw [tightTree, Bool.and_eq_true, Bool.and_eq_true] at ht
      have hmbr : mbr = mbrOfListWith (leafOps T) dim cs := by simpa using ht.2
      have hglen : l.geometry.length = dim := by
        have := ht.1.2
        rw [List.all_eq_true] at this
        simpa using this l hl
      show insideB l.geometry mbr = true
      rw [hmbr, mbrOfListWith_leafOps]
      exact insideB_foldExpand _ _ _ (List.mem_map_of_mem _ hl)
        (by rw [length_maxInverted]; exact hglen)
    | Level mbr cs =>
      rw [height] at hh
      omega
  | succ fuel ih =>
    intro n hh ht l hl
    cases n with
    | Leaves mbr cs =>
      exact ih (.Leaves mbr cs) (by rw [height]; omega) ht l hl
    | Level mbr cs =>
      rw [tightTree, Bool.and_eq_true, Bool.and_eq_true] at ht
      have hmbr : mbr = mbrOfListWith (nodeOps T) dim cs := by simpa using ht.1.2
      obtain ⟨c, hc, hlc⟩ := (mem_leavesOfList l cs).mp hl
      have htc : tightTree dim c = true := tightList_mem dim cs ht.2 c hc
      have hrec : insideB l.geometry c.mbr = true := by
        refine ih c ?_ htc l hlc
        rw [height] at hh
        have := height_child_le c cs hc
        omega
      refine insideB_trans hrec ?_
      show insideB c.mbr mbr = true
      rw [hmbr, mbrOfListWith_nodeOps]
      exact insideB_foldExpand _ _ _ (List.mem_map_of_mem _ hc)
        (by rw [length_maxInverted]; exact tightTree_mbr_length dim c htc)

/-- A node whose MBR fails the strict overlap test contains no leaf whose geometry
strictly overlaps the query, provided the leaf lies inside the node's MBR. -/
theorem overlap_prune (q nmbr g : Rect) (hin : insideB g nmbr = true)
    (hno : overlappedByMbr nmbr q = false) : overlappedByMbr g q = false := by
  rw [← Bool.not_eq_true] at hno ⊢
  intro hacc
  apply hno
  rw [overlappedByMbr_iff] at hacc ⊢
  rw [insideB_iff] at hin
  intro i h1 h2
  have h3 := hacc i h1 (by omega)
  have h4 := hin.2 i h2
  exact ⟨lt_of_lt_of_le h3.1 h4.2, lt_of_le_of_lt h4.1 h3.2⟩

/-! ## Claim C3 -/

theorem mem_collectList {T : Type} (q : QueryFns T) (l : MbrLeaf T)
    (cs : List (RTreeNode T)) :
    l ∈ collectNode.collectList q cs ↔
      ∃ c ∈ cs, q.acceptLevel c = true ∧ l ∈ collectNode q c := by
  induction cs with
  | nil => simp [collectNode.collectList]
  | cons c cs ih =>
    rw [collectNode.collectList, List.mem_append, ih]
    constructor
    · rintro (h | ⟨c2, hc2, h⟩)
      · by_cases hacc : q.acceptLevel c = true
        · rw [if_pos hacc] at h
          exact ⟨c, List.mem_cons_self c cs, hacc, h⟩
        · rw [if_neg hacc] at h
          exact absurd h (List.not_mem_nil l)
      · exact ⟨c2, List.mem_cons_of_mem c hc2, h⟩
    · rintro ⟨c2, hc2, hacc, h⟩
      rcases List.mem_cons.mp hc2 with rfl | hc2
      · exact Or.inl (by rw [if_pos hacc]; exact h)
      · exact Or.inr ⟨c2, hc2, hacc, h⟩

theorem collectNode_sound {T : Type} (q : QueryFns T) :
    ∀ (fuel : Nat) (n : RTreeNode T), height n ≤ fuel →
      ∀ l ∈ collectNode q n, q.acceptLeaf l = true := by
  intro fuel
  induction fuel with
  | zero =>
    intro n hh l hl
    cases n with
    | Leaves mbr cs =>
      rw [collectNode, List.mem_filter] at hl
      exact hl.2
    | Level mbr cs => rw [height] at hh; omega
  | succ fuel ih =>
    intro n hh l hl
    cases n with
    | Leaves mbr cs =>
      rw [collectNode, List.mem_filter] at hl
      exact hl.2
    | Level mbr cs =>
      rw [collectNode] at hl
      obtain ⟨c, hc, -, hlc⟩ := (mem_collectList q l cs).mp hl
      refine ih c ?_ l hlc
      rw [height] at hh
      have := height_child_le c cs hc
      omega

/-- C3 (corrected): every leaf yielded by `iter_query(q)` satisfies `q.accept_leaf`
(for an arbitrary query); and for **Overlaps** queries on a tree satisfying the
tight-MBR invariant, a node rejected by `accept_level` contains no accepted leaf in
its subtree.  (For `ContainedBy` the completeness direction fails: see
`C3_counterexample`.) -/
theorem C3_iter_query_sound_and_overlaps_prune {T : Type} (dim : Nat) (q : Rect)
    (n : RTreeNode T) (ht : tightTree dim n = true)
    (hno : (MbrRectQuery.Overlaps q).acceptLevel n = false) :
    (∀ (Q : QueryFns T) (root : RTreeNode T),
      ∀ l ∈ iterQuery Q root, Q.acceptLeaf l = true) ∧
      ∀ l ∈ leavesOf n, (MbrRectQuery.Overlaps q).acceptLeaf l = false := by
  constructor
  · intro Q root l hl
    rw [iterQuery] at hl
    split at hl
    · exact absurd hl (List.not_mem_nil l)
    · exact collectNode_sound Q (height root) root le_rfl l hl
  · intro l hl
    have hin : insideB l.geometry n.mbr = true :=
      tight_leaves_inside dim (height n) n le_rfl ht l hl
    have hno2 : overlappedByMbr n.mbr q = false := by
      cases n <;> exact hno
    show overlappedByMbr l.geometry q = false
    exact overlap_prune q n.mbr l.geometry hin hno2

/-- C3 counterexample: a tight single-leaf node whose degenerate geometry `[1,1]` is
contained in the query box `[0,1]` (so `accept_leaf` holds for `ContainedBy`), while
the node's MBR only touches the query and `accept_level` rejects it — the traversal
prunes the node and `iter_query` misses the accepted leaf. -/
theorem C3_counterexample :
    tightTree 1 (RTreeNode.Leaves [((1 : ℤ), 1)] [⟨[((1 : ℤ), 1)], (0 : Nat)⟩]) = true ∧
      (MbrRectQuery.ContainedBy [((0 : ℤ), 1)]).acceptLevel
        (RTreeNode.Leaves [((1 : ℤ), 1)] [⟨[((1 : ℤ), 1)], (0 : Nat)⟩]) = false ∧
      (MbrRectQuery.ContainedBy [((0 : ℤ), 1)]).acceptLeaf
        (⟨[((1 : ℤ), 1)], (0 : Nat)⟩ : MbrLeaf Nat) = true ∧
      iterQuery ((MbrRectQuery.ContainedBy [((0 : ℤ), 1)]).toQuery Nat)
        (RTreeNode.Leaves [((1 : ℤ), 1)] [⟨[((1 : ℤ), 1)], (0 : Nat)⟩]) = [] := by
  decide

/-- Witness for C3 at a concrete input: an `Overlaps` query strictly left of a tight
single-leaf node rejects the node, and indeed the leaf is not accepted. -/
theorem C3_iter_query_sound_and_overlaps_prune_witness :
    (MbrRectQuery.Overlaps [((-5 : ℤ), 0)]).acceptLeaf
      (⟨[((1 : ℤ), 2)], (0 : Nat)⟩ : MbrLeaf Nat) = false :=
  (C3_iter_query_sound_and_overlaps_prune 1 [((-5 : ℤ), 0)]
      (RTreeNode.Leaves [((1 : ℤ), 2)] [⟨[((1 : ℤ), 2)], (0 : Nat)⟩])
      (by decide) (by decide)).2
    ⟨[((1 : ℤ), 2)], (0 : Nat)⟩ (by decide)

/-! ## Characterization of the src/vecext.rs loops -/

theorem listSwap_cons_succ {α : Type} (a : α) (l : List α) (i j : Nat) :
    listSwap (a :: l) (i + 1) (j + 1) = a :: listSwap l i j := by
  unfold listSwap
  cases h1 : l[i]? <;> cases h2 : l[j]? <;>
    simp [List.getElem?_cons_succ, h1, h2]

theorem listSwap_decomp {α : Type} (K W2 R2 : List α) (w r : α) :
    listSwap (K ++ (w :: W2) ++ (r :: R2)) K.length (K.length + (w :: W2).length)
      = K ++ (r :: W2) ++ (w :: R2) := by
  induction K with
  | nil =>
    simp only [List.nil_append, List.length_nil, Nat.zero_add]
    unfold listSwap
    have h1 : ((w :: W2) ++ (r :: R2))[0]? = some w := by simp
    have h2 : ((w :: W2) ++ (r :: R2))[(w :: W2).length]? = some r := by
      rw [List.getElem?_append_right (le_refl _)]
      simp
    rw [h1, h2]
    simp only []
    have h3 : ((w :: W2) ++ (r :: R2)).set 0 r = (r :: W2) ++ (r :: R2) := by simp
    rw [h3]
    have h4 : (w :: W2).length = (r :: W2).length := by simp
    rw [h4, List.set_append_right _ _ (le_refl _)]
    simp
  | cons a K ih =>
    have e1 : (a :: K) ++ (w :: W2) ++ (r :: R2)
        = a :: (K ++ (w :: W2) ++ (r :: R2)) := by simp
    have e3 : (a :: K).length + (w :: W2).length
        = (K.length + (w :: W2).length) + 1 := by simp; omega
    have e2 : (a :: K).length = K.length + 1 := by simp
    rw [e1, e3, e2, listSwap_cons_succ, ih]
    simp

theorem retainPartGo_spec {α : Type} (f : α → Bool) :
    ∀ (R : List α) (fuel : Nat) (K W : List α), R.length ≤ fuel →
      ∃ W2 : List α,
        (retainPartGo f fuel (K ++ W ++ R) (K.length + W.length) W.length).1
            = K ++ R.filter f ++ W2 ∧
          (retainPartGo f fuel (K ++ W ++ R) (K.length + W.length) W.length).2
            = W.length + (R.filter (fun a => !f a)).length ∧
          W2.Perm (W ++ R.filter (fun a => !f a)) := by
  intro R
  induction R with
  | nil =>
    intro fuel K W hfuel
    refine ⟨W, ?_⟩
    cases fuel with
    | zero => simp [retainPartGo]
    | succ fu =>
      rw [retainPartGo]
      rw [List.getElem?_eq_none (by simp)]
      simp
  | cons r R ih =>
    intro fuel K W hfuel
    cases fuel with
    | zero => simp at hfuel
    | succ fu =>
      have hfu : R.length ≤ fu := by simpa using hfuel
      rw [retainPartGo]
      have hget : (K ++ W ++ (r :: R))[K.length + W.length]? = some r := by
        rw [List.getElem?_append_right
          (by simp : (K ++ W).length ≤ K.length + W.length)]
        simp
      rw [hget]
      simp only []
      by_cases hf : f r
      · rw [if_neg (by simp [hf])]
        by_cases hdel : W.length > 0
        · rw [if_pos hdel]
          obtain ⟨w, W3, rfl⟩ : ∃ w W3, W = w :: W3 := by
            cases W with
            | nil => simp at hdel
            | cons w W3 => exact ⟨w, W3, rfl⟩
          rw [show K.length + (w :: W3).length - (w :: W3).length = K.length
            by omega]
          rw [listSwap_decomp K W3 R w r]
          have e1 : K ++ (r :: W3) ++ (w :: R) = (K ++ [r]) ++ (W3 ++ [w]) ++ R := by
            simp
          have e2 : K.length + (w :: W3).length + 1
              = (K ++ [r]).length + (W3 ++ [w]).length := by simp; omega
          have e3 : (w :: W3).length = (W3 ++ [w]).length := by simp
          rw [e1, e2, e3]
          obtain ⟨W2, hres1, hres2, hperm⟩ := ih fu (K ++ [r]) (W3 ++ [w]) hfu
          refine ⟨W2, ?_, ?_, ?_⟩
          · rw [hres1]
            simp [List.filter_cons, hf]
          · rw [hres2]
            simp [List.filter_cons, hf]
          · refine hperm.trans ?_
            have e4 : (w :: W3) ++ List.filter (fun a => !f a) (r :: R)
                = w :: (W3 ++ List.filter (fun a => !f a) R) := by
              simp [List.filter_cons, hf]
            rw [e4]
            have e5 : (W3 ++ [w]) ++ List.filter (fun a => !f a) R
                = W3 ++ ([w] ++ List.filter (fun a => !f a) R) := by simp
            rw [e5]
            exact List.perm_middle
        · rw [if_neg hdel]
          have hW : W = [] := List.length_eq_zero.mp (by omega)
          subst hW
          have e1 : K ++ ([] : List α) ++ (r :: R) = (K ++ [r]) ++ [] ++ R := by simp
          have e2 : K.length + List.length ([] : List α) + 1
              = (K ++ [r]).length + List.length ([] : List α) := by simp
          rw [e1, e2]
          obtain ⟨W2, hres1, hres2, hperm⟩ := ih fu (K ++ [r]) [] hfu
          refine ⟨W2, ?_, ?_, ?_⟩
          · rw [hres1]
            simp [List.filter_cons, hf]
          · rw [hres2]
            simp [List.filter_cons, hf]
          · refine hperm.trans ?_
            simp [List.filter_cons, hf]
      · rw [if_pos (by simp [hf])]
        have e1 : K ++ W ++ (r :: R) = K ++ (W ++ [r]) ++ R := by simp
        have e2 : K.length + W.length + 1 = K.length + (W ++ [r]).length := by
          simp
          omega
        have e3 : W.length + 1 = (W ++ [r]).length := by simp
        rw [e1, e2, e3]
        obtain ⟨W2, hres1, hres2, hperm⟩ := ih fu K (W ++ [r]) hfu
        refine ⟨W2, ?_, ?_, ?_⟩
        · rw [hres1]
          simp [List.filter_cons, hf]
        · rw [hres2]
          simp [List.filter_cons, hf]
          omega
        · refine hperm.trans ?_
          have e4 : W ++ List.filter (fun a => !f a) (r :: R)
              = W ++ (r :: List.filter (fun a => !f a) R) := by
            simp [List.filter_cons, hf]
          rw [e4]
          have e5 : (W ++ [r]) ++ List.filter (fun a => !f a) R
              = W ++ ([r] ++ List.filter (fun a => !f a) R) := by simp
          rw [e5]
          exact List.Perm.refl _

theorem retainPart_spec {α : Type} (f : α → Bool) (v : List α) :
    ∃ W2 : List α,
      (retainPart f v).1 = v.filter f ++ W2 ∧
        (retainPart f v).2 = (v.filter (fun a => !f a)).length ∧
        W2.Perm (v.filter (fun a => !f a)) := by
  obtain ⟨W2, hres1, hres2, hperm⟩ := retainPartGo_spec f v v.length [] [] le_rfl
  refine ⟨W2, ?_, ?_, by simpa using hperm⟩
  · rw [retainPart]
    simpa using hres1
  · rw [retainPart]
    simpa using hres2

theorem popAppendGo_spec {α : Type} :
    ∀ (W2 P m : List α),
      popAppendGo W2.length (P ++ W2) m = (P, m ++ W2.reverse) := by
  intro W2
  induction W2 using List.reverseRecOn with
  | nil => intro P m; simp [popAppendGo]
  | append_singleton W3 a ih =>
    intro P m
    rw [show (W3 ++ [a]).length = W3.length + 1 by simp]
    rw [popAppendGo]
    rw [show P ++ (W3 ++ [a]) = (P ++ W3) ++ [a] by simp]
    rw [List.getLast?_concat, List.dropLast_concat]
    simp only []
    rw [ih P (m ++ [a])]
    simp

theorem retainAndAppend_spec {α : Type} (f : α → Bool) (v m : List α) :
    ∃ rem : List α,
      retainAndAppend v m f = (v.filter f, m ++ rem) ∧
        rem.Perm (v.filter (fun a => !f a)) := by
  obtain ⟨W2, hres1, hres2, hperm⟩ := retainPart_spec f v
  rw [retainAndAppend]
  have hpair : retainPart f v
      = (v.filter f ++ W2, (v.filter (fun a => !f a)).length) := by
    rw [← hres1, ← hres2]
  rw [hpair]
  simp only []
  by_cases hdel : (v.filter (fun a => !f a)).length > 0
  · rw [if_pos hdel]
    have hlen : W2.length = (v.filter (fun a => !f a)).length := hperm.length_eq
    rw [← hlen, popAppendGo_spec W2 (v.filter f) m]
    exact ⟨W2.reverse, rfl, (List.reverse_perm W2).trans hperm⟩
  · rw [if_neg hdel]
    have hlen : W2.length = (v.filter (fun a => !f a)).length := hperm.length_eq
    have hW2 : W2 = [] := List.length_eq_zero.mp (by omega)
    subst hW2
    refine ⟨[], by simp, ?_⟩
    have h0 : (v.filter (fun a => !f a)).length = 0 := by omega
    rw [List.length_eq_zero.mp h0]

theorem retainMutSpec_kept_length_le {α σ : Type} (f : α → σ → Bool × α × σ) :
    ∀ (v : List α) (s : σ), (retainMutSpec f v s).1.length ≤ v.length := by
  intro v
  induction v with
  | nil => intro s; simp [retainMutSpec]
  | cons a v ih =>
    intro s
    rw [retainMutSpec]
    simp only []
    split
    · simpa using Nat.succ_le_succ (ih _)
    · exact le_trans (ih _) (by simp)

theorem retainMutGo_spec {α σ : Type} (f : α → σ → Bool × α × σ) :
    ∀ (R : List α) (fuel : Nat) (K W : List α) (s : σ), R.length ≤ fuel →
      ∃ W2 : List α,
        (retainMutGo f fuel (K ++ W ++ R) (K.length + W.length) W.length s).1
            = K ++ (retainMutSpec f R s).1 ++ W2 ∧
          (retainMutGo f fuel (K ++ W ++ R) (K.length + W.length) W.length s).2.1
            = W.length + (R.length - (retainMutSpec f R s).1.length) ∧
          (retainMutGo f fuel (K ++ W ++ R) (K.length + W.length) W.length s).2.2
            = (retainMutSpec f R s).2 ∧
          W2.length = W.length + (R.length - (retainMutSpec f R s).1.length) := by
  intro R
  induction R with
  | nil =>
    intro fuel K W s hfuel
    refine ⟨W, ?_⟩
    cases fuel with
    | zero => simp [retainMutGo, retainMutSpec]
    | succ fu =>
      rw [retainMutGo]
      rw [List.getElem?_eq_none (by simp)]
      simp [retainMutSpec]
  | cons r R ih =>
    intro fuel K W s hfuel
    cases fuel with
    | zero => simp at hfuel
    | succ fu =>
      have hfu : R.length ≤ fu := by simpa using hfuel
      rw [retainMutGo]
      have hget : (K ++ W ++ (r :: R))[K.length + W.length]? = some r := by
        rw [List.getElem?_append_right
          (by simp : (K ++ W).length ≤ K.length + W.length)]
        simp
      rw [hget]
      simp only []
      have hset : (K ++ W ++ (r :: R)).set (K.length + W.length) (f r s).2.1
          = K ++ W ++ ((f r s).2.1 :: R) := by
        rw [List.set_append_right _ _ (by simp : (K ++ W).length ≤ K.length + W.length)]
        simp
      rw [hset]
      rw [retainMutSpec]
      simp only []
      by_cases hkeep : (f r s).1 = true
      · rw [if_neg (by simp [hkeep]), if_pos hkeep]
        by_cases hdel : W.length > 0
        · rw [if_pos hdel]
          obtain ⟨w, W3, rfl⟩ : ∃ w W3, W = w :: W3 := by
            cases W with
            | nil => simp at hdel
            | cons w W3 => exact ⟨w, W3, rfl⟩
          rw [show K.length + (w :: W3).length - (w :: W3).length = K.length
            by omega]
          rw [listSwap_decomp K W3 R w (f r s).2.1]
          have e1 : K ++ ((f r s).2.1 :: W3) ++ (w :: R)
              = (K ++ [(f r s).2.1]) ++ (W3 ++ [w]) ++ R := by simp
          have e2 : K.length + (w :: W3).length + 1
              = (K ++ [(f r s).2.1]).length + (W3 ++ [w]).length := by simp; omega
          have e3 : (w :: W3).length = (W3 ++ [w]).length := by simp
          rw [e1, e2, e3]
          obtain ⟨W2, hr1, hr2, hr3, hr4⟩ := ih fu (K ++ [(f r s).2.1]) (W3 ++ [w])
            (f r s).2.2 hfu
          have hkle := retainMutSpec_kept_length_le f R (f r s).2.2
          refine ⟨W2, ?_, ?_, ?_, ?_⟩
          · rw [hr1]; simp
          · rw [hr2]; simp
          · rw [hr3]
          · rw [hr4]; simp
        · rw [if_neg hdel]
          have hW : W = [] := List.length_eq_zero.mp (by omega)
          subst hW
          have e1 : K ++ ([] : List α) ++ ((f r s).2.1 :: R)
              = (K ++ [(f r s).2.1]) ++ [] ++ R := by simp
          have e2 : K.length + List.length ([] : List α) + 1
              = (K ++ [(f r s).2.1]).length + List.length ([] : List α) := by simp
          rw [e1, e2]
          obtain ⟨W2, hr1, hr2, hr3, hr4⟩ := ih fu (K ++ [(f r s).2.1]) []
            (f r s).2.2 hfu
          have hkle := retainMutSpec_kept_length_le f R (f r s).2.2
          refine ⟨W2, ?_, ?_, ?_, ?_⟩
          · rw [hr1]; simp
          · rw [hr2]; simp
          · rw [hr3]
          · rw [hr4]; simp
      · rw [if_pos (by simp [hkeep]), if_neg hkeep]
        have e1 : K ++ W ++ ((f r s).2.1 :: R) = K ++ (W ++ [(f r s).2.1]) ++ R := by
          simp
        have e2 : K.length + W.length + 1 = K.length + (W ++ [(f r s).2.1]).length := by
          simp
          omega
        have e3 : W.length + 1 = (W ++ [(f r s).2.1]).length := by simp
        rw [e1, e2, e3]
        obtain ⟨W2, hr1, hr2, hr3, hr4⟩ := ih fu K (W ++ [(f r s).2.1]) (f r s).2.2 hfu
        have hkle := retainMutSpec_kept_length_le f R (f r s).2.2
        refine ⟨W2, ?_, ?_, ?_, ?_⟩
        · rw [hr1]
        · rw [hr2]; simp; omega
        · rw [hr3]
        · rw [hr4]; simp; omega

/-- The literal src/vecext.rs `retain_mut` loop keeps, in order, exactly the elements
the (state-threading) closure approves, rewritten, and threads the state left to
right — the recursion `retainMutSpec`. -/
theorem retainMutS_eq_spec {α σ : Type} (f : α → σ → Bool × α × σ) (v : List α)
    (s : σ) :
    retainMutS f v s = ((retainMutSpec f v s).1, (retainMutSpec f v s).2) := by
  obtain ⟨W2, hr1, hr2, hr3, hr4⟩ := retainMutGo_spec f v v.length [] [] s le_rfl
  simp only [List.nil_append, List.length_nil, Nat.zero_add, Nat.add_zero]
    at hr1 hr2 hr3 hr4
  have hkle := retainMutSpec_kept_length_le f v s
  show ((retainMutGo f v.length v 0 0 s).1.take
      ((retainMutGo f v.length v 0 0 s).1.length
        - (retainMutGo f v.length v 0 0 s).2.1),
      (retainMutGo f v.length v 0 0 s).2.2) = _
  rw [hr1, hr2, hr3]
  congr 1
  rw [List.length_append, hr4]
  rw [show (retainMutSpec f v s).1.length + (v.length - (retainMutSpec f v s).1.length)
      - (v.length - (retainMutSpec f v s).1.length)
      = (retainMutSpec f v s).1.length by omega]
  exact List.take_left' rfl

/-- `removeChildren` is the `retainMutSpec` recursion for the removal closure, so by
`retainMutS_eq_spec` it is the behavior of `children.retain_mut(..)` in
`remove_leaves_from_level`. -/
theorem removeChildren_eq_retainMutSpec {T : Type} (minE dim : Nat) (q : QueryFns T)
    (f : T → Bool) (cs : List (RTreeNode T))
    (removed toReinsert : List (MbrLeaf T)) :
    removeLeavesFromLevel.removeChildren minE dim q f cs removed toReinsert
      = retainMutSpec (fun c s =>
          ((removeLeavesFromLevel minE dim q f c s.1 s.2 false).1,
           (removeLeavesFromLevel minE dim q f c s.1 s.2 false).2.1,
           (removeLeavesFromLevel minE dim q f c s.1 s.2 false).2.2))
          cs (removed, toReinsert) := by
  induction cs generalizing removed toReinsert with
  | nil => rw [removeLeavesFromLevel.removeChildren, retainMutSpec]
  | cons c cs ih =>
    rw [removeLeavesFromLevel.removeChildren, retainMutSpec]
    simp only []
    rw [ih]

/-! ## C9: the removed vector of retain / remove -/

theorem removeMatchingLeaves_removed {T : Type} (minE dim : Nat) (q : QueryFns T)
    (f : T → Bool) (mbr : Rect) (cs removed toReinsert : List (MbrLeaf T))
    (atRoot : Bool) :
    (removeMatchingLeaves minE dim q f mbr cs removed toReinsert atRoot).2.2.2.1
      = (retainAndAppend cs removed
          (fun leaf => !q.acceptLeaf leaf || f leaf.item)).2 := by
  simp only [removeMatchingLeaves]
  split_ifs <;> rfl

theorem collectRemovable_of_isEmpty {T : Type} (q : QueryFns T) (f : T → Bool)
    (root : RTreeNode T) (he : root.isEmpty = true) :
    collectRemovable q f root = [] := by
  cases root with
  | Leaves mbr cs =>
    have hcs : cs = [] := by
      simpa [RTreeNode.isEmpty, List.isEmpty_iff] using he
    subst hcs
    rw [collectRemovable]
    split <;> simp
  | Level mbr cs =>
    have hcs : cs = [] := by
      simpa [RTreeNode.isEmpty, List.isEmpty_iff] using he
    subst hcs
    rw [collectRemovable]
    split
    · rfl
    · rw [collectRemovable.collectRemovableList]

theorem removeLeaves_leaves_delta {T : Type} (minE dim : Nat) (q : QueryFns T)
    (f : T → Bool) (mbr : Rect) (cs removed toReinsert : List (MbrLeaf T))
    (atRoot : Bool) :
    ∃ delta : List (MbrLeaf T),
      (removeLeavesFromLevel minE dim q f (.Leaves mbr cs) removed toReinsert
          atRoot).2.2.1 = removed ++ delta
        ∧ delta.Perm (collectRemovable q f (.Leaves mbr cs)) := by
  rw [removeLeavesFromLevel, collectRemovable]
  cases hq : q.acceptLevel (RTreeNode.Leaves mbr cs) with
  | false =>
    rw [if_pos (by simp [hq]), if_pos (by simp [hq])]
    refine ⟨[], by simp, List.Perm.refl []⟩
  | true =>
    rw [if_neg (by simp [hq]), if_neg (by simp [hq])]
    simp only []
    obtain ⟨rem, hra, hperm⟩ := retainAndAppend_spec
      (fun leaf => !q.acceptLeaf leaf || f leaf.item) cs removed
    refine ⟨rem, ?_, ?_⟩
    · rw [removeMatchingLeaves_removed, hra]
    · refine hperm.trans (List.Perm.of_eq ?_)
      apply List.filter_congr
      intro a _
      simp [Bool.not_or]

theorem removeLevel_removed {T : Type} (minE dim : Nat) (q : QueryFns T)
    (f : T → Bool) (mbr : Rect) (cs : List (RTreeNode T))
    (removed toReinsert : List (MbrLeaf T)) (atRoot : Bool)
    (hq : q.acceptLevel (.Level mbr cs) = true) :
    (removeLeavesFromLevel minE dim q f (.Level mbr cs) removed toReinsert
        atRoot).2.2.1
      = (removeLeavesFromLevel.removeChildren minE dim q f cs removed
          toReinsert).2.1 := by
  rw [removeLeavesFromLevel]
  rw [if_neg (by simp [hq])]
  simp only []
  split_ifs <;> rfl

theorem removeLeavesFromLevel_removed_delta {T : Type} (minE dim : Nat)
    (q : QueryFns T) (f : T → Bool) :
    ∀ (h : Nat) (node : RTreeNode T), height node ≤ h →
      ∀ (removed toReinsert : List (MbrLeaf T)) (atRoot : Bool),
        ∃ delta : List (MbrLeaf T),
          (removeLeavesFromLevel minE dim q f node removed toReinsert atRoot).2.2.1
              = removed ++ delta
            ∧ delta.Perm (collectRemovable q f node) := by
  intro h
  induction h with
  | zero =>
    intro node hh removed toReinsert atRoot
    cases node with
    | Leaves mbr cs =>
      exact removeLeaves_leaves_delta minE dim q f mbr cs removed toReinsert atRoot
    | Level mbr cs => simp [height] at hh
  | succ h ih =>
    intro node hh removed toReinsert atRoot
    cases node with
    | Leaves mbr cs =>
      exact removeLeaves_leaves_delta minE dim q f mbr cs removed toReinsert atRoot
    | Level mbr cs =>
      cases hq : q.acceptLevel (RTreeNode.Level mbr cs) with
      | false =>
        refine ⟨[], ?_, ?_⟩
        · rw [removeLeavesFromLevel, if_pos (by simp [hq])]
          simp
        · rw [collectRemovable, if_pos (by simp [hq])]
      | true =>
        have hcs : ∀ c ∈ cs, height c ≤ h := by
          intro c hc
          have h1 := height_child_le c cs hc
          rw [height] at hh
          omega
        have key : ∀ (cs' : List (RTreeNode T)), (∀ c ∈ cs', height c ≤ h) →
            ∀ (removed toReinsert : List (MbrLeaf T)),
              ∃ delta : List (MbrLeaf T),
                (removeLeavesFromLevel.removeChildren minE dim q f cs' removed
                    toReinsert).2.1 = removed ++ delta
                  ∧ delta.Perm (collectRemovable.collectRemovableList q f cs') := by
          intro cs'
          induction cs' with
          | nil =>
            intro _ removed toReinsert
            refine ⟨[], ?_, ?_⟩
            · rw [removeLeavesFromLevel.removeChildren]
              simp
            · rw [collectRemovable.collectRemovableList]
          | cons c cs' ihl =>
            intro hcs' removed toReinsert
            obtain ⟨d1, hd1, hp1⟩ := ih c (hcs' c (by simp)) removed toReinsert false
            obtain ⟨d2, hd2, hp2⟩ := ihl (fun c hc => hcs' c (by simp [hc]))
              (removeLeavesFromLevel minE dim q f c removed toReinsert false).2.2.1
              (removeLeavesFromLevel minE dim q f c removed toReinsert false).2.2.2
            refine ⟨d1 ++ d2, ?_, ?_⟩
            · rw [removeLeavesFromLevel.removeChildren]
              simp only []
              rw [hd2, hd1, List.append_assoc]
            · rw [collectRemovable.collectRemovableList]
              exact hp1.append hp2
        obtain ⟨delta, hd, hp⟩ := key cs hcs removed toReinsert
        refine ⟨delta, ?_, ?_⟩
        · rw [removeLevel_removed minE dim q f mbr cs removed toReinsert atRoot hq]
          exact hd
        · rw [collectRemovable, if_neg (by simp [hq])]
          exact hp

/-- C9 (amended): the vector returned by `retain` — and hence by
`remove(q) = retain(q, |_| false)` — contains exactly the removable `(geometry, item)`
pairs: those of leaves in unpruned leaf-bearing nodes whose geometry the query accepts
and for which the predicate returns false, i.e. it is a permutation of the
traversal-order list `collectRemovable`.  The traversal-order *equality* asserted by
the original claim fails (`C9_counterexample`): inside each node,
`retain_and_append` pops the matched leaves off the vector tail, so their in-node
order is reversed in the returned vector. -/
theorem C9_removed_perm_of_traversal {T : Type} (conf : RStarConf) (rrMin : Nat)
    (q : QueryFns T) (f : T → Bool) (m : MbrMap T) :
    ((mapRetain conf rrMin m q f).2).Perm
      ((collectRemovable q f m.root).map MbrLeaf.extract) := by
  have hmain : ((removeFromRoot rrMin conf q f m.root).2).Perm
      (collectRemovable q f m.root) := by
    rw [removeFromRoot]
    cases he : m.root.isEmpty with
    | true =>
      rw [if_pos rfl, collectRemovable_of_isEmpty q f m.root he]
    | false =>
      rw [if_neg (by simp)]
      simp only []
      obtain ⟨delta, hd, hp⟩ := removeLeavesFromLevel_removed_delta rrMin conf.dim
        q f (height m.root) m.root le_rfl [] [] true
      rw [hd]
      simpa using hp
  rw [mapRetain]
  simp only []
  exact List.Perm.map _ hmain

/-- C9: counterexample to the claimed traversal order.  Two leaves `[0,1] ↦ 1` then
`[2,3] ↦ 2` inserted into one node are both matched by an `Overlaps [-1,10]` query
with an always-false predicate; the removal pass encounters them in order
`(…1), (…2)` (the list `collectRemovable`), but `retain` returns them popped from the
tail: `(…2), (…1)`. -/
theorem C9_counterexample :
    (mapRetain (newWithOptions 1 4 dReinsertP dSplitP 32) 1
        (mapInsert (newWithOptions 1 4 dReinsertP dSplitP 32)
          (mapInsert (newWithOptions 1 4 dReinsertP dSplitP 32) (mapNew Nat 1)
            [((0 : ℤ), 1)] 1)
          [((2 : ℤ), 3)] 2)
        ((MbrRectQuery.Overlaps [((-1 : ℤ), 10)]).toQuery Nat) (fun _ => false)).2
      = [([((2 : ℤ), 3)], 2), ([((0 : ℤ), 1)], 1)]
    ∧ (collectRemovable ((MbrRectQuery.Overlaps [((-1 : ℤ), 10)]).toQuery Nat)
          (fun _ => false)
          (mapInsert (newWithOptions 1 4 dReinsertP dSplitP 32)
            (mapInsert (newWithOptions 1 4 dReinsertP dSplitP 32) (mapNew Nat 1)
              [((0 : ℤ), 1)] 1)
            [((2 : ℤ), 3)] 2).root).map MbrLeaf.extract
      = [([((0 : ℤ), 1)], 1), ([((2 : ℤ), 3)], 2)]
    ∧ (mapRetain (newWithOptions 1 4 dReinsertP dSplitP 32) 1
        (mapInsert (newWithOptions 1 4 dReinsertP dSplitP 32)
          (mapInsert (newWithOptions 1 4 dReinsertP dSplitP 32) (mapNew Nat 1)
            [((0 : ℤ), 1)] 1)
          [((2 : ℤ), 3)] 2)
        ((MbrRectQuery.Overlaps [((-1 : ℤ), 10)]).toQuery Nat) (fun _ => false)).2
      ≠ (collectRemovable ((MbrRectQuery.Overlaps [((-1 : ℤ), 10)]).toQuery Nat)
          (fun _ => false)
          (mapInsert (newWithOptions 1 4 dReinsertP dSplitP 32)
            (mapInsert (newWithOptions 1 4 dReinsertP dSplitP 32) (mapNew Nat 1)
              [((0 : ℤ), 1)] 1)
            [((2 : ℤ), 3)] 2).root).map MbrLeaf.extract := by
  decide

/-! ## Box arithmetic for the invariant machinery -/

theorem boxOKB_iff (dim : Nat) (B : ℤ) (r : Rect) : boxOKB dim B r = true ↔
    r.length = dim ∧ ∀ e ∈ r, -B ≤ e.1 ∧ e.1 ≤ e.2 ∧ e.2 ≤ B := by
  rw [boxOKB, Bool.and_eq_true, beq_iff_eq, List.all_eq_true]
  constructor
  · rintro ⟨h1, h2⟩
    refine ⟨h1, fun e he => ?_⟩
    have h3 := h2 e he
    simp only [Bool.and_eq_true, decide_eq_true_eq] at h3
    exact ⟨h3.1.1, h3.1.2, h3.2⟩
  · rintro ⟨h1, h2⟩
    refine ⟨h1, fun e he => ?_⟩
    have h3 := h2 e he
    simp only [Bool.and_eq_true, decide_eq_true_eq]
    exact ⟨⟨h3.1, h3.2.1⟩, h3.2.2⟩

theorem boxOKB_expandMbrToFit {dim : Nat} {B : ℤ} {g m : Rect}
    (hg : boxOKB dim B g = true) (hm : boxOKB dim B m = true) :
    boxOKB dim B (expandMbrToFit g m) = true := by
  rw [boxOKB_iff] at hg hm ⊢
  refine ⟨by rw [length_expandMbrToFit]; exact hm.1, ?_⟩
  intro e he
  rw [List.mem_iff_getElem] at he
  obtain ⟨i, hi, rfl⟩ := he
  rw [length_expandMbrToFit] at hi
  have hE := getD_expandMbrToFit g m i (0, 0) hi
  rw [List.getD_eq_getElem _ _ (by rw [length_expandMbrToFit]; exact hi)] at hE
  rw [hE]
  have hme : m.getD i (0, 0) ∈ m := by
    rw [List.getD_eq_getElem _ _ hi]
    exact List.getElem_mem _
  have h1 := hm.2 _ hme
  split
  · next hig =>
    have hge : g.getD i (0, 0) ∈ g := by
      rw [List.getD_eq_getElem _ _ hig]
      exact List.getElem_mem _
    have h2 := hg.2 _ hge
    refine ⟨le_min h1.1 h2.1, ?_, max_le h1.2.2 h2.2.2⟩
    exact le_trans (min_le_left _ _) (le_trans h1.2.1 (le_max_left _ _))
  · exact h1

theorem boxOKB_foldExpand {dim : Nat} {B : ℤ} (bs : List Rect) (m : Rect)
    (hm : boxOKB dim B m = true) (hbs : ∀ b ∈ bs, boxOKB dim B b = true) :
    boxOKB dim B (bs.foldl (fun acc bb => expandMbrToFit bb acc) m) = true := by
  induction bs generalizing m with
  | nil => exact hm
  | cons b bs ih =>
    exact ih _ (boxOKB_expandMbrToFit (hbs b (by simp)) hm)
      (fun x hx => hbs x (by simp [hx]))

theorem expand_maxInverted_eq {dim : Nat} {B : ℤ} {b : Rect} (hBF : B < FMAX)
    (hb : boxOKB dim B b = true) :
    expandMbrToFit b (maxInverted dim) = b := by
  rw [boxOKB_iff] at hb
  apply List.ext_getElem
  · rw [length_expandMbrToFit, length_maxInverted, hb.1]
  · intro i h1 h2
    rw [length_expandMbrToFit, length_maxInverted] at h1
    have hE := getD_expandMbrToFit b (maxInverted dim) i (0, 0)
      (by rw [length_maxInverted]; exact h1)
    rw [List.getD_eq_getElem _ _
      (by rw [length_expandMbrToFit, length_maxInverted]; exact h1)] at hE
    rw [hE, if_pos (by rw [hb.1]; exact h1)]
    have hbi : b.getD i (0, 0) ∈ b := by
      rw [List.getD_eq_getElem _ _ h2]
      exact List.getElem_mem _
    have hbb := hb.2 _ hbi
    have hmi : (maxInverted dim).getD i (0, 0) = (FMAX, -FMAX) := by
      rw [maxInverted, List.getD_eq_getElem _ _ (by rw [List.length_replicate]; exact h1)]
      simp
    rw [hmi, List.getD_eq_getElem _ _ h2]
    have hbb2 := hb.2 _ (List.getElem_mem h2)
    have e1 : min FMAX b[i].1 = b[i].1 := by
      apply min_eq_right
      omega
    have e2 : max (-FMAX) b[i].2 = b[i].2 := by
      apply max_eq_right
      omega
    rw [e1, e2]

theorem boxOKB_mbrOf_boxes {dim : Nat} {B : ℤ} (hBF : B < FMAX) (bs : List Rect)
    (hne : bs ≠ []) (hbs : ∀ b ∈ bs, boxOKB dim B b = true) :
    boxOKB dim B (bs.foldl (fun acc bb => expandMbrToFit bb acc) (maxInverted dim))
      = true := by
  match bs, hne with
  | b :: bs, _ =>
    rw [List.foldl_cons, expand_maxInverted_eq hBF (hbs b (by simp))]
    exact boxOKB_foldExpand bs b (hbs b (by simp)) (fun x hx => hbs x (by simp [hx]))

theorem insideB_refl (g : Rect) : insideB g g = true := by
  rw [insideB_iff]
  exact ⟨rfl, fun i _ => ⟨le_refl _, le_refl _⟩⟩

theorem insideB_expand_both {g m R : Rect} (hg : insideB g R = true)
    (hm : insideB m R = true) : insideB (expandMbrToFit g m) R = true := by
  rw [insideB_iff] at hg hm ⊢
  refine ⟨by rw [length_expandMbrToFit]; exact hm.1, ?_⟩
  intro i hi
  have h1 := hm.2 i hi
  simp only [minForAxis, maxForAxis] at h1 ⊢
  rw [getD_expandMbrToFit g m i _ (by rw [hm.1]; exact hi)]
  split
  · next hig =>
    have h2 := hg.2 i hi
    simp only [minForAxis, maxForAxis] at h2
    constructor
    · exact le_min h1.1 h2.1
    · exact max_le h1.2 h2.2
  · exact h1

theorem insideB_mbrOf_subset {dim : Nat} {B : ℤ} (hBF : B < FMAX) (bs : List Rect)
    (R : Rect) (hne : bs ≠ []) (hbox : ∀ b ∈ bs, boxOKB dim B b = true)
    (hin : ∀ b ∈ bs, insideB b R = true) :
    insideB (bs.foldl (fun acc bb => expandMbrToFit bb acc) (maxInverted dim)) R
      = true := by
  match bs, hne with
  | b :: bs, _ =>
    rw [List.foldl_cons, expand_maxInverted_eq hBF (hbox b (by simp))]
    have main : ∀ (l : List Rect) (acc : Rect), insideB acc R = true →
        (∀ x ∈ l, insideB x R = true) →
        insideB (l.foldl (fun a bb => expandMbrToFit bb a) acc) R = true := by
      intro l
      induction l with
      | nil => intro acc ha _; exact ha
      | cons x l ih =>
        intro acc ha hl
        exact ih _ (insideB_expand_both (hl x (by simp)) ha)
          (fun y hy => hl y (by simp [hy]))
    exact main bs b (hin b (by simp)) (fun y hy => hin y (by simp [hy]))

theorem insideB_expand_congr {g m₁ m₂ : Rect} (h : insideB m₁ m₂ = true) :
    insideB (expandMbrToFit g m₁) (expandMbrToFit g m₂) = true := by
  rw [insideB_iff] at h ⊢
  refine ⟨by rw [length_expandMbrToFit, length_expandMbrToFit, h.1], ?_⟩
  intro i hi
  rw [length_expandMbrToFit] at hi
  have h2 := h.2 i hi
  simp only [minForAxis, maxForAxis] at h2 ⊢
  rw [getD_expandMbrToFit g m₂ i _ hi, getD_expandMbrToFit g m₁ i _ (by omega)]
  split
  · constructor
    · exact min_le_min h2.1 (le_refl _)
    · exact max_le_max h2.2 (le_refl _)
  · exact h2

theorem zpowNat_nonneg {M : ℤ} (hM : 0 ≤ M) : ∀ n : Nat, 0 ≤ zpowNat M n := by
  intro n
  induction n with
  | zero => norm_num [zpowNat]
  | succ n ih => rw [zpowNat]; exact mul_nonneg hM ih

theorem foldl_mul_bounds {M : ℤ} (hM : 0 ≤ M) :
    ∀ (l : List ℤ) (a : ℤ), 0 ≤ a → (∀ x ∈ l, 0 ≤ x ∧ x ≤ M) →
      0 ≤ l.foldl (fun p x => p * x) a ∧
        l.foldl (fun p x => p * x) a ≤ a * zpowNat M l.length := by
  intro l
  induction l with
  | nil =>
    intro a ha _
    refine ⟨ha, ?_⟩
    simp [zpowNat]
  | cons x l ih =>
    intro a ha hx
    obtain ⟨h0, h1⟩ := ih (a * x) (mul_nonneg ha (hx x (by simp)).1)
      (fun y hy => hx y (by simp [hy]))
    refine ⟨h0, le_trans h1 ?_⟩
    have hz : 0 ≤ zpowNat M l.length := zpowNat_nonneg hM _
    have hxM := (hx x (by simp)).2
    have hx0 := (hx x (by simp)).1
    calc a * x * zpowNat M l.length
        ≤ a * M * zpowNat M l.length := by
          apply mul_le_mul_of_nonneg_right _ hz
          exact mul_le_mul_of_nonneg_left hxM ha
      _ = a * zpowNat M (l.length + 1) := by rw [zpowNat]; ring

theorem areaOverlapped_bounds {dim : Nat} {B : ℤ} {r1 r2 : Rect} (hB : 0 ≤ B)
    (h1 : boxOKB dim B r1 = true) (h2 : boxOKB dim B r2 = true) :
    0 ≤ areaOverlappedWithMbr r1 r2 ∧
      areaOverlappedWithMbr r1 r2 ≤ zpowNat (2 * B) dim := by
  rw [boxOKB_iff] at h1 h2
  rw [areaOverlappedWithMbr]
  rw [show ((r2.zip r1).foldl
      (fun area p => area * max (min p.1.2 p.2.2 - max p.1.1 p.2.1) 0) 1)
      = ((r2.zip r1).map (fun p => max (min p.1.2 p.2.2 - max p.1.1 p.2.1) 0)).foldl
        (fun p x => p * x) 1 from by rw [List.foldl_map]]
  have hlen : ((r2.zip r1).map
      (fun p => max (min p.1.2 p.2.2 - max p.1.1 p.2.1) 0)).length = dim := by
    rw [List.length_map, List.length_zip, h1.1, h2.1, Nat.min_self]
  have hfac : ∀ x ∈ (r2.zip r1).map
      (fun p => max (min p.1.2 p.2.2 - max p.1.1 p.2.1) 0), 0 ≤ x ∧ x ≤ 2 * B := by
    intro x hx
    rw [List.mem_map] at hx
    obtain ⟨p, hp, rfl⟩ := hx
    obtain ⟨hm2, hm1⟩ := List.of_mem_zip hp
    have hb1 := h1.2 _ hm1
    have hb2 := h2.2 _ hm2
    constructor
    · exact le_max_right _ _
    · rcases max_cases (min p.1.2 p.2.2 - max p.1.1 p.2.1) 0 with ⟨he, _⟩ | ⟨he, _⟩ <;>
        rw [he]
      · have ha : min p.1.2 p.2.2 ≤ p.1.2 := min_le_left _ _
        have hb : p.1.1 ≤ max p.1.1 p.2.1 := le_max_left _ _
        omega
      · omega
  obtain ⟨hl, hr⟩ := foldl_mul_bounds (by omega) _ 1 (by norm_num) hfac
  rw [hlen] at hr
  refine ⟨hl, le_trans hr (by omega)⟩

theorem leavesOfList_append {T : Type} (a b : List (RTreeNode T)) :
    leavesOf.leavesOfList (a ++ b)
      = leavesOf.leavesOfList a ++ leavesOf.leavesOfList b := by
  induction a with
  | nil => simp [leavesOf.leavesOfList]
  | cons c a ih =>
    rw [List.cons_append, leavesOf.leavesOfList, leavesOf.leavesOfList, ih,
      List.append_assoc]

theorem leavesOf_isEmpty {T : Type} (n : RTreeNode T) (h : n.isEmpty = true) :
    leavesOf n = [] := by
  cases n with
  | Leaves mbr cs =>
    have : cs = [] := by simpa [RTreeNode.isEmpty, List.isEmpty_iff] using h
    subst this
    rfl
  | Level mbr cs =>
    have : cs = [] := by simpa [RTreeNode.isEmpty, List.isEmpty_iff] using h
    subst this
    rfl

theorem nodeInvList_iff {T : Type} (dim : Nat) (B : ℤ) (pm : Rect)
    (cs : List (RTreeNode T)) :
    nodeInvB.nodeInvList dim B pm cs = true ↔
      ∀ c ∈ cs, nodeInvB dim B c = true ∧ insideB c.mbr pm = true ∧
        c.isEmpty = false := by
  induction cs with
  | nil => simp [nodeInvB.nodeInvList]
  | cons c cs ih =>
    rw [nodeInvB.nodeInvList, Bool.and_eq_true, Bool.and_eq_true, Bool.and_eq_true, ih]
    constructor
    · rintro ⟨⟨⟨h1, h2⟩, h3⟩, h4⟩
      intro x hx
      rcases List.mem_cons.mp hx with rfl | hx
      · exact ⟨h1, h2, by simpa using h3⟩
      · exact h4 x hx
    · intro h
      refine ⟨⟨⟨(h c (by simp)).1, (h c (by simp)).2.1⟩, ?_⟩, fun x hx => h x (by simp [hx])⟩
      simp [(h c (by simp)).2.2]

theorem sizeList_iff {T : Type} (maxE : Nat) (cs : List (RTreeNode T)) :
    sizeOK.sizeList maxE cs = true ↔ ∀ c ∈ cs, sizeOK maxE c = true := by
  induction cs with
  | nil => simp [sizeOK.sizeList]
  | cons c cs ih =>
    rw [sizeOK.sizeList, Bool.and_eq_true, ih]
    constructor
    · rintro ⟨h1, h2⟩ x hx
      rcases List.mem_cons.mp hx with rfl | hx
      · exact h1
      · exact h2 x hx
    · intro h
      exact ⟨h c (by simp), fun x hx => h x (by simp [hx])⟩

theorem nodeInv_leaves_boxOKB {T : Type} (dim : Nat) (B : ℤ) :
    ∀ (h : Nat) (n : RTreeNode T), height n ≤ h → nodeInvB dim B n = true →
      ∀ l ∈ leavesOf n, boxOKB dim B l.geometry = true := by
  intro h
  induction h with
  | zero =>
    intro n hh hinv l hl
    cases n with
    | Leaves mbr cs =>
      rw [nodeInvB, Bool.and_eq_true, Bool.and_eq_true, List.all_eq_true] at hinv
      have := hinv.2 l hl
      simp only [Bool.and_eq_true] at this
      exact this.1
    | Level mbr cs => simp [height] at hh
  | succ h ih =>
    intro n hh hinv l hl
    cases n with
    | Leaves mbr cs =>
      rw [nodeInvB, Bool.and_eq_true, Bool.and_eq_true, List.all_eq_true] at hinv
      have := hinv.2 l hl
      simp only [Bool.and_eq_true] at this
      exact this.1
    | Level mbr cs =>
      rw [nodeInvB, Bool.and_eq_true, Bool.and_eq_true, Bool.and_eq_true] at hinv
      have hlist := (nodeInvList_iff dim B mbr cs).mp hinv.2
      rw [show leavesOf (RTreeNode.Level mbr cs) = leavesOf.leavesOfList cs from rfl,
        mem_leavesOfList] at hl
      obtain ⟨c, hc, hlc⟩ := hl
      have hhc : height c ≤ h := by
        have h1 := height_child_le c cs hc
        rw [height] at hh
        omega
      exact ih c hhc (hlist c hc).1 l hlc

/-! ## The R* split routines: permutation and split-position facts -/

theorem mbrOfListWith_eq_boxes {V : Type} (ops : GeomOps V) (bx : V → Rect)
    (hops : ∀ v m, ops.expandFit v m = expandMbrToFit (bx v) m)
    (dim : Nat) (l : List V) :
    mbrOfListWith ops dim l
      = (l.map bx).foldl (fun acc bb => expandMbrToFit bb acc) (maxInverted dim) := by
  rw [mbrOfListWith, List.foldl_map]
  simp only [hops]

theorem foldl_preserve {α β : Type} (P : α → Prop) (f : α → β → α) :
    ∀ (l : List β) (a : α), (∀ x b, b ∈ l → P x → P (f x b)) → P a → P (l.foldl f a) := by
  intro l
  induction l with
  | nil => intro a _ h; exact h
  | cons b l ih =>
    intro a hstep ha
    exact ih _ (fun x c hc hx => hstep x c (by simp [hc]) hx) (hstep a b (by simp) ha)

theorem sortForEdge_perm {V : Type} (ops : GeomOps V) (axis edge : Nat)
    (children : List V) : (sortForEdge ops axis edge children).Perm children := by
  rw [sortForEdge]
  split <;> exact stableSortBy_perm _ _

theorem minByFirst_mem {α β : Type} (key : α → β) (lt : β → β → Bool) (dflt : α)
    (l : List α) (hne : l ≠ []) : minByFirst key lt dflt l ∈ l := by
  match l, hne with
  | a :: l, _ =>
    rw [minByFirst]
    have go_mem : ∀ (l₂ : List α) (best : α),
        minByFirst.go key lt l₂ best = best ∨ minByFirst.go key lt l₂ best ∈ l₂ := by
      intro l₂
      induction l₂ with
      | nil => intro best; left; rfl
      | cons x l₂ ih =>
        intro best
        rw [minByFirst.go]
        split
        · rcases ih x with h | h
          · right; simp [h]
          · right; simp [h]
        · rcases ih best with h | h
          · left; exact h
          · right; simp [h]
    rcases go_mem l a with h | h
    · simp [h]
    · simp [h]

theorem argminIdxBy_lt_length {α β : Type} (key : α → β) (lt : β → β → Bool)
    (l : List α) (hne : l ≠ []) : argminIdxBy key lt l < l.length := by
  match l, hne with
  | a :: l, _ =>
    rw [argminIdxBy]
    have go_lt : ∀ (l₂ : List α) (i best : Nat) (bk : β) (M : Nat), best < M →
        i + l₂.length ≤ M → argminIdxBy.go key lt l₂ i best bk < M := by
      intro l₂
      induction l₂ with
      | nil => intro i best bk M hb _; rw [argminIdxBy.go]; exact hb
      | cons x l₂ ih =>
        intro i best bk M hb hi
        rw [argminIdxBy.go]
        simp only [List.length_cons] at hi
        split
        · exact ih (i + 1) i (key x) M (by omega) (by omega)
        · exact ih (i + 1) best bk M hb (by omega)
    have h2 := go_lt l 1 0 (key a) (l.length + 1) (by omega) (by omega)
    simpa using h2

theorem chooseSubnode_spec {T : Type} (conf : RStarConf)
    (children : List (RTreeNode T)) (leaf : MbrLeaf T) (hne : children ≠ []) :
    (chooseSubnode conf children leaf).1.Perm children ∧
      (chooseSubnode conf children leaf).2
        < (chooseSubnode conf children leaf).1.length := by
  match children, hne with
  | c0 :: cs, _ =>
    rw [chooseSubnode]
    simp only [List.head?_cons]
    split
    · split
      · simp only []
        refine ⟨stableSortBy_perm _ _, ?_⟩
        by_cases ht : (stableSortBy
            (fun a b => lex2Le (rsAreaCost a.mbr leaf) (rsAreaCost b.mbr leaf))
            (c0 :: cs)).take conf.chooseSubtreeP = []
        · rw [ht, argminIdxBy]
          rw [stableSortBy_length]
          simp
        · refine lt_of_lt_of_le (argminIdxBy_lt_length _ _ _ ht) ?_
          rw [List.length_take]
          omega
      · simp only []
        refine ⟨List.Perm.refl _, ?_⟩
        exact argminIdxBy_lt_length _ _ _ (by simp)
    · simp only []
      refine ⟨List.Perm.refl _, ?_⟩
      exact argminIdxBy_lt_length _ _ _ (by simp)

theorem splitForReinsert_decomp {T : Type} (conf : RStarConf) (mbr : Rect)
    (children : List (MbrLeaf T)) :
    ∃ sorted : List (MbrLeaf T), sorted.Perm children ∧
      splitForReinsert conf mbr children
        = (mbrOfListWith (leafOps T) conf.dim (sorted.take conf.reinsertM),
           sorted.take conf.reinsertM, sorted.drop conf.reinsertM) := by
  exact ⟨_, stableSortBy_perm _ _, rfl⟩

theorem bestSplitPositionForAxis_spec {V : Type} (conf : RStarConf) (ops : GeomOps V)
    (bx : V → Rect) (hops : ∀ v m, ops.expandFit v m = expandMbrToFit (bx v) m)
    {B : ℤ} (hB0 : 0 ≤ B) (hBF : B < FMAX) (hpow : zpowNat (2 * B) conf.dim < FMAX)
    (hmk : 1 ≤ conf.minK) (hkk : conf.minK < conf.maxK)
    (axis : Nat) (children : List V) (hlen : conf.maxK ≤ children.length)
    (hbox : ∀ c ∈ children, boxOKB conf.dim B (bx c) = true) :
    (bestSplitPositionForAxis conf ops axis children).1.Perm children ∧
      conf.minK ≤ (bestSplitPositionForAxis conf ops axis children).2.2.2.2 ∧
      (bestSplitPositionForAxis conf ops axis children).2.2.2.2 < conf.maxK := by
  have overlapLt : ∀ (sorted : List V) (k : Nat), sorted.Perm children →
      1 ≤ k → k < children.length →
      areaOverlappedWithMbr (mbrOfListWith ops conf.dim (sorted.take k))
        (mbrOfListWith ops conf.dim (sorted.drop k)) < FMAX := by
    intro sorted k hperm hk1 hk2
    have hslen : sorted.length = children.length := hperm.length_eq
    have hbox2 : ∀ c ∈ sorted, boxOKB conf.dim B (bx c) = true := by
      intro c hc
      exact hbox c (hperm.mem_iff.mp hc)
    have hb1 : boxOKB conf.dim B (mbrOfListWith ops conf.dim (sorted.take k)) = true := by
      rw [mbrOfListWith_eq_boxes ops bx hops]
      apply boxOKB_mbrOf_boxes hBF
      · apply List.ne_nil_of_length_pos
        rw [List.length_map, List.length_take]
        omega
      · intro b hb
        rw [List.mem_map] at hb
        obtain ⟨c, hc, rfl⟩ := hb
        exact hbox2 c (List.mem_of_mem_take hc)
    have hb2 : boxOKB conf.dim B (mbrOfListWith ops conf.dim (sorted.drop k)) = true := by
      rw [mbrOfListWith_eq_boxes ops bx hops]
      apply boxOKB_mbrOf_boxes hBF
      · apply List.ne_nil_of_length_pos
        rw [List.length_map, List.length_drop]
        omega
      · intro b hb
        rw [List.mem_map] at hb
        obtain ⟨c, hc, rfl⟩ := hb
        exact hbox2 c (List.mem_of_mem_drop hc)
    have hbd := (areaOverlapped_bounds hB0 hb1 hb2).2
    omega
  have keyPres : ∀ (sorted : List V) (edge : Nat) (a₀ : BspAcc),
      conf.minK ≤ a₀.dIndex ∧ a₀.dIndex < conf.maxK →
      conf.minK ≤ ((List.range' conf.minK (conf.maxK - conf.minK)).foldl
        (fun (a : BspAcc) (k : Nat) =>
        let r1 := mbrOfListWith ops conf.dim (sorted.take k)
        let r2 := mbrOfListWith ops conf.dim (sorted.drop k)
        let area := rectArea r1 + rectArea r2
        let overlap := areaOverlappedWithMbr r1 r2
        let a₁ := { a with margin := a.margin + rectMargin r1 + rectMargin r2 }
        if lex2Lt (overlap, area) (a₁.dOverlap, a₁.dArea) then
          { a₁ with dOverlap := overlap, dArea := area, dEdge := edge, dIndex := k }
        else a₁) a₀).dIndex ∧
      ((List.range' conf.minK (conf.maxK - conf.minK)).foldl
        (fun (a : BspAcc) (k : Nat) =>
        let r1 := mbrOfListWith ops conf.dim (sorted.take k)
        let r2 := mbrOfListWith ops conf.dim (sorted.drop k)
        let area := rectArea r1 + rectArea r2
        let overlap := areaOverlappedWithMbr r1 r2
        let a₁ := { a with margin := a.margin + rectMargin r1 + rectMargin r2 }
        if lex2Lt (overlap, area) (a₁.dOverlap, a₁.dArea) then
          { a₁ with dOverlap := overlap, dArea := area, dEdge := edge, dIndex := k }
        else a₁) a₀).dIndex < conf.maxK := by
    intro sorted edge a₀ h₀
    refine foldl_preserve
      (fun (a : BspAcc) => conf.minK ≤ a.dIndex ∧ a.dIndex < conf.maxK) _ _ a₀ ?_ h₀
    intro x k hk hx
    have hkb : conf.minK ≤ k ∧ k < conf.maxK := by
      rw [List.mem_range'_1] at hk
      omega
    simp only []
    split
    · exact hkb
    · exact hx
  have keyEst : ∀ (sorted : List V) (edge : Nat) (a₀ : BspAcc),
      sorted.Perm children → a₀.dOverlap = FMAX →
      conf.minK ≤ ((List.range' conf.minK (conf.maxK - conf.minK)).foldl
        (fun (a : BspAcc) (k : Nat) =>
        let r1 := mbrOfListWith ops conf.dim (sorted.take k)
        let r2 := mbrOfListWith ops conf.dim (sorted.drop k)
        let area := rectArea r1 + rectArea r2
        let overlap := areaOverlappedWithMbr r1 r2
        let a₁ := { a with margin := a.margin + rectMargin r1 + rectMargin r2 }
        if lex2Lt (overlap, area) (a₁.dOverlap, a₁.dArea) then
          { a₁ with dOverlap := overlap, dArea := area, dEdge := edge, dIndex := k }
        else a₁) a₀).dIndex ∧
      ((List.range' conf.minK (conf.maxK - conf.minK)).foldl
        (fun (a : BspAcc) (k : Nat) =>
        let r1 := mbrOfListWith ops conf.dim (sorted.take k)
        let r2 := mbrOfListWith ops conf.dim (sorted.drop k)
        let area := rectArea r1 + rectArea r2
        let overlap := areaOverlappedWithMbr r1 r2
        let a₁ := { a with margin := a.margin + rectMargin r1 + rectMargin r2 }
        if lex2Lt (overlap, area) (a₁.dOverlap, a₁.dArea) then
          { a₁ with dOverlap := overlap, dArea := area, dEdge := edge, dIndex := k }
        else a₁) a₀).dIndex < conf.maxK := by
    intro sorted edge a₀ hperm hOv
    rw [show conf.maxK - conf.minK = (conf.maxK - conf.minK - 1) + 1 from by omega,
      List.range'_succ, List.foldl_cons]
    refine foldl_preserve
      (fun (a : BspAcc) => conf.minK ≤ a.dIndex ∧ a.dIndex < conf.maxK) _ _ _ ?_ ?_
    · intro x k hk hx
      have hkb : conf.minK ≤ k ∧ k < conf.maxK := by
        rw [List.mem_range'_1] at hk
        omega
      simp only []
      split
      · exact hkb
      · exact hx
    · simp only []
      have hcond : lex2Lt
          (areaOverlappedWithMbr (mbrOfListWith ops conf.dim (sorted.take conf.minK))
            (mbrOfListWith ops conf.dim (sorted.drop conf.minK)),
           rectArea (mbrOfListWith ops conf.dim (sorted.take conf.minK))
             + rectArea (mbrOfListWith ops conf.dim (sorted.drop conf.minK)))
          (a₀.dOverlap, a₀.dArea) = true := by
        rw [lex2Lt, Bool.or_eq_true, decide_eq_true_eq]
        left
        rw [hOv]
        exact overlapLt sorted conf.minK hperm hmk (by omega)
      rw [if_pos hcond]
      exact ⟨le_refl _, hkk⟩
  refine ⟨?_, ?_⟩
  · rw [bestSplitPositionForAxis]
    simp only [List.foldl_cons, List.foldl_nil]
    exact (sortForEdge_perm ops axis 1 _).trans (sortForEdge_perm ops axis 0 children)
  · rw [bestSplitPositionForAxis]
    simp only [List.foldl_cons, List.foldl_nil]
    exact keyPres _ 1 _
      (keyEst (sortForEdge ops axis 0 children) 0 ⟨0, FMAX, FMAX, 0, 0⟩
        (sortForEdge_perm ops axis 0 children) rfl)

theorem rstarSplit_spec {V : Type} (conf : RStarConf) (ops : GeomOps V)
    (bx : V → Rect) (hops : ∀ v m, ops.expandFit v m = expandMbrToFit (bx v) m)
    {B : ℤ} (hB0 : 0 ≤ B) (hBF : B < FMAX) (hpow : zpowNat (2 * B) conf.dim < FMAX)
    (hdim : 1 ≤ conf.dim) (hmk : 1 ≤ conf.minK) (hkk : conf.minK < conf.maxK)
    (mbr : Rect) (children : List V) (hlen : conf.maxK ≤ children.length)
    (hbox : ∀ c ∈ children, boxOKB conf.dim B (bx c) = true) :
    ∃ (sorted : List V) (si : Nat), sorted.Perm children ∧
      conf.minK ≤ si ∧ si < conf.maxK ∧
      rstarSplit conf ops mbr children
        = (mbrOfListWith ops conf.dim (sorted.take si), sorted.take si,
           mbrOfListWith ops conf.dim (sorted.drop si), sorted.drop si) := by
  have hstep : ∀ (st : List V × List (ℤ × (Nat × Nat × Nat))) (axis : Nat),
      axis ∈ List.range conf.dim →
      (st.1.Perm children ∧
        ∀ x ∈ st.2, conf.minK ≤ x.2.2.2 ∧ x.2.2.2 < conf.maxK) →
      ((fun (st : List V × List (ℤ × (Nat × Nat × Nat))) (axis : Nat) =>
        let r := bestSplitPositionForAxis conf ops axis st.1
        (r.1, st.2 ++ [r.2])) st axis).1.Perm children ∧
        ∀ x ∈ ((fun (st : List V × List (ℤ × (Nat × Nat × Nat))) (axis : Nat) =>
          let r := bestSplitPositionForAxis conf ops axis st.1
          (r.1, st.2 ++ [r.2])) st axis).2,
          conf.minK ≤ x.2.2.2 ∧ x.2.2.2 < conf.maxK := by
    intro st axis _ hst
    have hb := bestSplitPositionForAxis_spec conf ops bx hops hB0 hBF hpow hmk hkk
      axis st.1 (by rw [hst.1.length_eq]; exact hlen)
      (fun c hc => hbox c (hst.1.mem_iff.mp hc))
    refine ⟨hb.1.trans hst.1, ?_⟩
    intro x hx
    simp only [] at hx
    rw [List.mem_append] at hx
    rcases hx with hx | hx
    · exact hst.2 x hx
    · rw [List.mem_singleton] at hx
      subst hx
      exact ⟨hb.2.1, hb.2.2⟩
  have hfold := foldl_preserve
    (fun (st : List V × List (ℤ × (Nat × Nat × Nat))) => st.1.Perm children ∧
      ∀ x ∈ st.2, conf.minK ≤ x.2.2.2 ∧ x.2.2.2 < conf.maxK)
    (fun (st : List V × List (ℤ × (Nat × Nat × Nat))) (axis : Nat) =>
      let r := bestSplitPositionForAxis conf ops axis st.1
      (r.1, st.2 ++ [r.2]))
    (List.range conf.dim) (children, []) hstep ⟨List.Perm.refl _, by simp⟩
  have hne2 : ((List.range conf.dim).foldl
      (fun (st : List V × List (ℤ × (Nat × Nat × Nat))) (axis : Nat) =>
        let r := bestSplitPositionForAxis conf ops axis st.1
        (r.1, st.2 ++ [r.2])) (children, [])).2 ≠ [] := by
    have hgrow : ∀ (l : List Nat) (st : List V × List (ℤ × (Nat × Nat × Nat))),
        st.2 ≠ [] → (l.foldl
          (fun (st : List V × List (ℤ × (Nat × Nat × Nat))) (axis : Nat) =>
            let r := bestSplitPositionForAxis conf ops axis st.1
            (r.1, st.2 ++ [r.2])) st).2 ≠ [] := by
      intro l
      induction l with
      | nil => intro st h; exact h
      | cons a l ih =>
        intro st h
        rw [List.foldl_cons]
        exact ih _ (by simp)
    obtain ⟨d2, hd2⟩ : ∃ d2, conf.dim = d2 + 1 := ⟨conf.dim - 1, by omega⟩
    rw [hd2]
    rw [show List.range (d2 + 1) = 0 :: List.range' 1 d2 from by
      rw [List.range_eq_range']
      rw [show d2 + 1 = d2 + 1 from rfl, List.range'_succ]]
    rw [List.foldl_cons]
    exact hgrow _ _ (by simp)
  have hmem := minByFirst_mem (fun (r : ℤ × (Nat × Nat × Nat)) => r.1)
    (fun x y => decide (x < y)) (0, 0, 0, 0) _ hne2
  have hbest := hfold.2 _ hmem
  exact ⟨_, _, (sortForEdge_perm _ _ _ _).trans hfold.1, hbest.1, hbest.2, rfl⟩

/-! ## Structural invariant helpers -/

theorem nodeInvB_Leaves_iff (T : Type) (dim : Nat) (B : ℤ) (mbr : Rect)
    (cs : List (MbrLeaf T)) :
    nodeInvB dim B (.Leaves mbr cs) = true ↔
      mbr.length = dim ∧
        (cs = [] ∧ mbr = maxInverted dim ∨ boxOKB dim B mbr = true) ∧
        ∀ l ∈ cs, boxOKB dim B l.geometry = true ∧ insideB l.geometry mbr = true := by
  rw [nodeInvB, Bool.and_eq_true, Bool.and_eq_true, beq_iff_eq, Bool.or_eq_true,
    Bool.and_eq_true, beq_iff_eq, List.all_eq_true]
  constructor
  · rintro ⟨⟨h1, h2⟩, h3⟩
    refine ⟨h1, ?_, fun l hl => ?_⟩
    · rcases h2 with ⟨he, hm⟩ | hb
      · exact Or.inl ⟨List.isEmpty_iff.mp he, hm⟩
      · exact Or.inr hb
    · have h4 := h3 l hl
      simp only [Bool.and_eq_true] at h4
      exact h4
  · rintro ⟨h1, h2, h3⟩
    refine ⟨⟨h1, ?_⟩, fun l hl => ?_⟩
    · rcases h2 with ⟨he, hm⟩ | hb
      · exact Or.inl ⟨List.isEmpty_iff.mpr he, hm⟩
      · exact Or.inr hb
    · simp only [Bool.and_eq_true]
      exact h3 l hl

theorem nodeInvB_Level_iff (T : Type) (dim : Nat) (B : ℤ) (mbr : Rect)
    (cs : List (RTreeNode T)) :
    nodeInvB dim B (.Level mbr cs) = true ↔
      mbr.length = dim ∧ cs ≠ [] ∧ boxOKB dim B mbr = true ∧
        ∀ c ∈ cs, nodeInvB dim B c = true ∧ insideB c.mbr mbr = true ∧
          c.isEmpty = false := by
  rw [nodeInvB, Bool.and_eq_true, Bool.and_eq_true, Bool.and_eq_true, beq_iff_eq,
    nodeInvList_iff]
  constructor
  · rintro ⟨⟨⟨h1, h2⟩, h3⟩, h4⟩
    refine ⟨h1, ?_, h3, h4⟩
    intro hcon
    subst hcon
    simp at h2
  · rintro ⟨h1, h2, h3, h4⟩
    refine ⟨⟨⟨h1, ?_⟩, h3⟩, h4⟩
    simp [List.isEmpty_iff, h2]

theorem sizeOK_Leaves_iff (T : Type) (maxE : Nat) (mbr : Rect)
    (cs : List (MbrLeaf T)) :
    sizeOK maxE (RTreeNode.Leaves mbr cs) = true ↔ cs.length ≤ maxE := by
  rw [sizeOK]
  simp

theorem sizeOK_Level_iff (T : Type) (maxE : Nat) (mbr : Rect)
    (cs : List (RTreeNode T)) :
    sizeOK maxE (RTreeNode.Level mbr cs) = true ↔
      cs.length ≤ maxE ∧ ∀ c ∈ cs, sizeOK maxE c = true := by
  rw [sizeOK, Bool.and_eq_true, sizeList_iff]
  simp

theorem isEmpty_false_of_ne_nil_leaves {T : Type} (mbr : Rect)
    (cs : List (MbrLeaf T)) (h : cs ≠ []) :
    (RTreeNode.Leaves mbr cs).isEmpty = false := by
  rw [RTreeNode.isEmpty]
  simpa [List.isEmpty_iff] using h

theorem isEmpty_false_of_ne_nil_level {T : Type} (mbr : Rect)
    (cs : List (RTreeNode T)) (h : cs ≠ []) :
    (RTreeNode.Level mbr cs).isEmpty = false := by
  rw [RTreeNode.isEmpty]
  simpa [List.isEmpty_iff] using h

theorem nodeInvB_mbr_boxOKB {T : Type} {dim : Nat} {B : ℤ} (n : RTreeNode T)
    (hinv : nodeInvB dim B n = true) (hne : n.isEmpty = false) :
    boxOKB dim B n.mbr = true := by
  cases n with
  | Leaves mbr cs =>
    rw [nodeInvB_Leaves_iff] at hinv
    rcases hinv.2.1 with ⟨he, _⟩ | hb
    · subst he
      simp [RTreeNode.isEmpty] at hne
    · exact hb
  | Level mbr cs =>
    rw [nodeInvB_Level_iff] at hinv
    exact hinv.2.2.1

theorem boxOKB_mbrOf_leaves {T : Type} {dim : Nat} {B : ℤ} (hBF : B < FMAX)
    (kept : List (MbrLeaf T)) (hne : kept ≠ [])
    (hbox : ∀ l ∈ kept, boxOKB dim B l.geometry = true) :
    boxOKB dim B (mbrOfListWith (leafOps T) dim kept) = true := by
  rw [mbrOfListWith_eq_boxes (leafOps T) (fun l => l.geometry) (fun _ _ => rfl)]
  apply boxOKB_mbrOf_boxes hBF
  · simpa using hne
  · intro b hb
    rw [List.mem_map] at hb
    obtain ⟨l, hl, rfl⟩ := hb
    exact hbox l hl

theorem boxOKB_mbrOf_nodes {T : Type} {dim : Nat} {B : ℤ} (hBF : B < FMAX)
    (cs : List (RTreeNode T)) (hne : cs ≠ [])
    (hbox : ∀ c ∈ cs, boxOKB dim B c.mbr = true) :
    boxOKB dim B (mbrOfListWith (nodeOps T) dim cs) = true := by
  rw [mbrOfListWith_eq_boxes (nodeOps T) (fun c => c.mbr) (fun _ _ => rfl)]
  apply boxOKB_mbrOf_boxes hBF
  · simpa using hne
  · intro b hb
    rw [List.mem_map] at hb
    obtain ⟨c, hc, rfl⟩ := hb
    exact hbox c hc

theorem inside_mbrOf_leaves {T : Type} {dim : Nat} (kept : List (MbrLeaf T))
    (l : MbrLeaf T) (hl : l ∈ kept) (hlen : l.geometry.length = dim) :
    insideB l.geometry (mbrOfListWith (leafOps T) dim kept) = true := by
  rw [mbrOfListWith_eq_boxes (leafOps T) (fun l => l.geometry) (fun _ _ => rfl)]
  exact insideB_foldExpand _ _ _ (List.mem_map_of_mem _ hl)
    (by rw [length_maxInverted]; exact hlen)

theorem inside_mbrOf_nodes {T : Type} {dim : Nat} (cs : List (RTreeNode T))
    (c : RTreeNode T) (hc : c ∈ cs) (hlen : c.mbr.length = dim) :
    insideB c.mbr (mbrOfListWith (nodeOps T) dim cs) = true := by
  rw [mbrOfListWith_eq_boxes (nodeOps T) (fun c => c.mbr) (fun _ _ => rfl)]
  exact insideB_foldExpand _ _ _ (List.mem_map_of_mem _ hc)
    (by rw [length_maxInverted]; exact hlen)

theorem inside_mbrOf_leaves_subset {T : Type} {dim : Nat} {B : ℤ} (hBF : B < FMAX)
    (kept : List (MbrLeaf T)) (R : Rect) (hne : kept ≠ [])
    (hbox : ∀ l ∈ kept, boxOKB dim B l.geometry = true)
    (hin : ∀ l ∈ kept, insideB l.geometry R = true) :
    insideB (mbrOfListWith (leafOps T) dim kept) R = true := by
  rw [mbrOfListWith_eq_boxes (leafOps T) (fun l => l.geometry) (fun _ _ => rfl)]
  apply insideB_mbrOf_subset hBF _ _ (by simpa using hne)
  · intro b hb
    rw [List.mem_map] at hb
    obtain ⟨l, hl, rfl⟩ := hb
    exact hbox l hl
  · intro b hb
    rw [List.mem_map] at hb
    obtain ⟨l, hl, rfl⟩ := hb
    exact hin l hl

theorem inside_mbrOf_nodes_subset {T : Type} {dim : Nat} {B : ℤ} (hBF : B < FMAX)
    (cs : List (RTreeNode T)) (R : Rect) (hne : cs ≠ [])
    (hbox : ∀ c ∈ cs, boxOKB dim B c.mbr = true)
    (hin : ∀ c ∈ cs, insideB c.mbr R = true) :
    insideB (mbrOfListWith (nodeOps T) dim cs) R = true := by
  rw [mbrOfListWith_eq_boxes (nodeOps T) (fun c => c.mbr) (fun _ _ => rfl)]
  apply insideB_mbrOf_subset hBF _ _ (by simpa using hne)
  · intro b hb
    rw [List.mem_map] at hb
    obtain ⟨c, hc, rfl⟩ := hb
    exact hbox c hc
  · intro b hb
    rw [List.mem_map] at hb
    obtain ⟨c, hc, rfl⟩ := hb
    exact hin c hc

theorem leavesNode_recomputed_inv {T : Type} {dim : Nat} {B : ℤ} (hBF : B < FMAX)
    (kept : List (MbrLeaf T)) (hne : kept ≠ [])
    (hbox : ∀ l ∈ kept, boxOKB dim B l.geometry = true) :
    nodeInvB dim B (.Leaves (mbrOfListWith (leafOps T) dim kept) kept) = true := by
  rw [nodeInvB_Leaves_iff]
  refine ⟨length_mbrOfListWith_leafOps T dim kept, Or.inr ?_, fun l hl => ?_⟩
  · exact boxOKB_mbrOf_leaves hBF kept hne hbox
  · refine ⟨hbox l hl, ?_⟩
    exact inside_mbrOf_leaves kept l hl ((boxOKB_iff _ _ _).mp (hbox l hl)).1

theorem levelNode_recomputed_inv {T : Type} {dim : Nat} {B : ℤ} (hBF : B < FMAX)
    (cs : List (RTreeNode T)) (hne : cs ≠ [])
    (hcs : ∀ c ∈ cs, nodeInvB dim B c = true ∧ c.isEmpty = false) :
    nodeInvB dim B (.Level (mbrOfListWith (nodeOps T) dim cs) cs) = true := by
  have hbox : ∀ c ∈ cs, boxOKB dim B c.mbr = true := by
    intro c hc
    exact nodeInvB_mbr_boxOKB c (hcs c hc).1 (hcs c hc).2
  rw [nodeInvB_Level_iff]
  refine ⟨length_mbrOfListWith_nodeOps T dim cs, hne,
    boxOKB_mbrOf_nodes hBF cs hne hbox, fun c hc => ?_⟩
  refine ⟨(hcs c hc).1, ?_, (hcs c hc).2⟩
  exact inside_mbrOf_nodes cs c hc ((boxOKB_iff _ _ _).mp (hbox c hc)).1

theorem leavesOfList_perm {T : Type} {l₁ l₂ : List (RTreeNode T)} (h : l₁.Perm l₂) :
    (leavesOf.leavesOfList l₁).Perm (leavesOf.leavesOfList l₂) := by
  have he : ∀ l : List (RTreeNode T), leavesOf.leavesOfList l = l.flatMap leavesOf := by
    intro l
    induction l with
    | nil => rfl
    | cons c l ih => rw [leavesOf.leavesOfList, ih, List.flatMap_cons]
  rw [he, he]
  exact h.flatMap_right leavesOf

theorem rstarHandleOverflow_spec {T : Type} (conf : RStarConf) {B : ℤ}
    (hconf : RStarConfOk conf) (hB : BoundsOk conf.dim B)
    (level : RTreeNode T) (atRoot forceSplit : Bool)
    (hinv : nodeInvB conf.dim B level = true)
    (hlen : level.len = conf.max + 1)
    (hsub : ∀ mbr cs, level = RTreeNode.Level mbr cs →
      sizeOK.sizeList conf.max cs = true)
    (hreach : ∀ mbr cs, level = RTreeNode.Level mbr cs →
      atRoot = true ∨ forceSplit = true) :
    (leavesOf (rstarHandleOverflow conf level atRoot forceSplit).1
        ++ resLeaves (rstarHandleOverflow conf level atRoot forceSplit).2).Perm
      (leavesOf level) ∧
    nodeInvB conf.dim B (rstarHandleOverflow conf level atRoot forceSplit).1 = true ∧
    sizeOK conf.max (rstarHandleOverflow conf level atRoot forceSplit).1 = true ∧
    (rstarHandleOverflow conf level atRoot forceSplit).1.isEmpty = false ∧
    insideB (rstarHandleOverflow conf level atRoot forceSplit).1.mbr level.mbr
      = true ∧
    (∀ c, (rstarHandleOverflow conf level atRoot forceSplit).2 = .Split c →
      nodeInvB conf.dim B c = true ∧ sizeOK conf.max c = true ∧
      c.isEmpty = false ∧ insideB c.mbr level.mbr = true) ∧
    (forceSplit = true → ∀ ls,
      (rstarHandleOverflow conf level atRoot forceSplit).2 ≠ .Reinsert ls) ∧
    (atRoot = false → forceSplit = false → ∀ c,
      (rstarHandleOverflow conf level atRoot forceSplit).2 ≠ .Split c) := by
  obtain ⟨hdim, hmk, hkk, hkm, hrm1, hrmM⟩ := hconf
  obtain ⟨hB0, hBF, hpow⟩ := hB
  cases level with
  | Leaves mbr cs =>
    simp only [RTreeNode.len] at hlen
    rw [nodeInvB_Leaves_iff] at hinv
    obtain ⟨hm1, hdisj, hls⟩ := hinv
    rw [rstarHandleOverflow]
    split
    case isTrue hcond =>
      obtain ⟨sorted, hperm, heq⟩ := splitForReinsert_decomp conf mbr cs
      have hslen : sorted.length = cs.length := hperm.length_eq
      simp only []
      rw [heq]
      simp only []
      have hkmem : ∀ l ∈ sorted.take conf.reinsertM, l ∈ cs := by
        intro l hl
        exact hperm.mem_iff.mp (List.mem_of_mem_take hl)
      have hkbox : ∀ l ∈ sorted.take conf.reinsertM,
          boxOKB conf.dim B l.geometry = true := fun l hl => (hls l (hkmem l hl)).1
      have hkne : sorted.take conf.reinsertM ≠ [] := by
        apply List.ne_nil_of_length_pos
        rw [List.length_take]
        omega
      refine ⟨?_, ?_, ?_, ?_, ?_, ?_, ?_, ?_⟩
      · show ((sorted.take conf.reinsertM) ++ sorted.drop conf.reinsertM).Perm cs
        rw [List.take_append_drop]
        exact hperm
      · exact leavesNode_recomputed_inv hBF _ hkne hkbox
      · rw [sizeOK_Leaves_iff, List.length_take]
        omega
      · exact isEmpty_false_of_ne_nil_leaves _ _ hkne
      · exact inside_mbrOf_leaves_subset hBF _ _ hkne hkbox
          (fun l hl => (hls l (hkmem l hl)).2)
      · intro c hc
        exact InsertResult.noConfusion hc
      · intro hfs
        rw [hfs] at hcond
        simp at hcond
      · intro _ _ c hc
        exact InsertResult.noConfusion hc
    case isFalse hcond =>
      obtain ⟨sorted, si, hperm, hsi1, hsi2, heq⟩ := rstarSplit_spec conf (leafOps T)
        (fun l => l.geometry) (fun _ _ => rfl) hB0 hBF hpow hdim hmk hkk mbr cs
        (by omega) (fun l hl => (hls l hl).1)
      have hslen : sorted.length = cs.length := hperm.length_eq
      simp only []
      rw [heq]
      simp only []
      have hkmem : ∀ l ∈ sorted.take si, l ∈ cs := by
        intro l hl
        exact hperm.mem_iff.mp (List.mem_of_mem_take hl)
      have hdmem : ∀ l ∈ sorted.drop si, l ∈ cs := by
        intro l hl
        exact hperm.mem_iff.mp (List.mem_of_mem_drop hl)
      have hkne : sorted.take si ≠ [] := by
        apply List.ne_nil_of_length_pos
        rw [List.length_take]
        omega
      have hdne : sorted.drop si ≠ [] := by
        apply List.ne_nil_of_length_pos
        rw [List.length_drop]
        omega
      refine ⟨?_, ?_, ?_, ?_, ?_, ?_, ?_, ?_⟩
      · show ((sorted.take si) ++ sorted.drop si).Perm cs
        rw [List.take_append_drop]
        exact hperm
      · exact leavesNode_recomputed_inv hBF _ hkne
          (fun l hl => (hls l (hkmem l hl)).1)
      · rw [sizeOK_Leaves_iff, List.length_take]
        omega
      · exact isEmpty_false_of_ne_nil_leaves _ _ hkne
      · exact inside_mbrOf_leaves_subset hBF _ _ hkne
          (fun l hl => (hls l (hkmem l hl)).1)
          (fun l hl => (hls l (hkmem l hl)).2)
      · intro c hc
        injection hc with hc2
        subst hc2
        refine ⟨?_, ?_, ?_, ?_⟩
        · exact leavesNode_recomputed_inv hBF _ hdne
            (fun l hl => (hls l (hdmem l hl)).1)
        · rw [sizeOK_Leaves_iff, List.length_drop]
          omega
        · exact isEmpty_false_of_ne_nil_leaves _ _ hdne
        · exact inside_mbrOf_leaves_subset hBF _ _ hdne
            (fun l hl => (hls l (hdmem l hl)).1)
            (fun l hl => (hls l (hdmem l hl)).2)
      · intro _ ls hc
        exact InsertResult.noConfusion hc
      · intro h1 h2
        rw [h1, h2] at hcond
        simp at hcond
  | Level mbr cs =>
    simp only [RTreeNode.len] at hlen
    rw [nodeInvB_Level_iff] at hinv
    obtain ⟨hm1, hne0, hmbox, hcs⟩ := hinv
    have hsub2 : ∀ c ∈ cs, sizeOK conf.max c = true :=
      (sizeList_iff conf.max cs).mp (hsub mbr cs rfl)
    rw [rstarHandleOverflow]
    split
    case isTrue hcond =>
      rcases hreach mbr cs rfl with h | h <;>
        · rw [h] at hcond
          simp at hcond
    case isFalse hcond =>
      obtain ⟨sorted, si, hperm, hsi1, hsi2, heq⟩ := rstarSplit_spec conf (nodeOps T)
        (fun c => c.mbr) (fun _ _ => rfl) hB0 hBF hpow hdim hmk hkk mbr cs
        (by omega) (fun c hc => nodeInvB_mbr_boxOKB c (hcs c hc).1 (hcs c hc).2.2)
      have hslen : sorted.length = cs.length := hperm.length_eq
      simp only []
      rw [heq]
      simp only []
      have hkmem : ∀ c ∈ sorted.take si, c ∈ cs := by
        intro c hc
        exact hperm.mem_iff.mp (List.mem_of_mem_take hc)
      have hdmem : ∀ c ∈ sorted.drop si, c ∈ cs := by
        intro c hc
        exact hperm.mem_iff.mp (List.mem_of_mem_drop hc)
      have hkne : sorted.take si ≠ [] := by
        apply List.ne_nil_of_length_pos
        rw [List.length_take]
        omega
      have hdne : sorted.drop si ≠ [] := by
        apply List.ne_nil_of_length_pos
        rw [List.length_drop]
        omega
      refine ⟨?_, ?_, ?_, ?_, ?_, ?_, ?_, ?_⟩
      · show (leavesOf.leavesOfList (sorted.take si)
            ++ leavesOf.leavesOfList (sorted.drop si)).Perm
          (leavesOf.leavesOfList cs)
        rw [← leavesOfList_append, List.take_append_drop]
        exact leavesOfList_perm hperm
      · exact levelNode_recomputed_inv hBF _ hkne
          (fun c hc => ⟨(hcs c (hkmem c hc)).1, (hcs c (hkmem c hc)).2.2⟩)
      · rw [sizeOK_Level_iff]
        refine ⟨by rw [List.length_take]; omega, fun c hc => hsub2 c (hkmem c hc)⟩
      · exact isEmpty_false_of_ne_nil_level _ _ hkne
      · exact inside_mbrOf_nodes_subset hBF _ _ hkne
          (fun c hc => nodeInvB_mbr_boxOKB c (hcs c (hkmem c hc)).1
            (hcs c (hkmem c hc)).2.2)
          (fun c hc => (hcs c (hkmem c hc)).2.1)
      · intro c hc
        injection hc with hc2
        subst hc2
        refine ⟨?_, ?_, ?_, ?_⟩
        · exact levelNode_recomputed_inv hBF _ hdne
            (fun c hc => ⟨(hcs c (hdmem c hc)).1, (hcs c (hdmem c hc)).2.2⟩)
        · rw [sizeOK_Level_iff]
          refine ⟨by rw [List.length_drop]; omega, fun c hc => hsub2 c (hdmem c hc)⟩
        · exact isEmpty_false_of_ne_nil_level _ _ hdne
        · exact inside_mbrOf_nodes_subset hBF _ _ hdne
            (fun c hc => nodeInvB_mbr_boxOKB c (hcs c (hdmem c hc)).1
              (hcs c (hdmem c hc)).2.2)
            (fun c hc => (hcs c (hdmem c hc)).2.1)
      · intro _ ls hc
        exact InsertResult.noConfusion hc
      · intro h1 h2
        rw [h1, h2] at hcond
        simp at hcond

theorem perm_append_swap_right {α : Type} (A R X : List α) :
    ((A ++ R) ++ X).Perm ((A ++ X) ++ R) := by
  rw [List.append_assoc, List.append_assoc]
  exact List.Perm.append_left A List.perm_append_comm

theorem nodeInvB_mbr_length {T : Type} {dim : Nat} {B : ℤ} {n : RTreeNode T}
    (hinv : nodeInvB dim B n = true) : n.mbr.length = dim := by
  cases n with
  | Leaves mbr cs => exact ((nodeInvB_Leaves_iff T dim B mbr cs).mp hinv).1
  | Level mbr cs => exact ((nodeInvB_Level_iff T dim B mbr cs).mp hinv).1

theorem leavesOfList_set_conserve {T : Type} :
    ∀ (cs : List (RTreeNode T)) (i : Nat) (v : RTreeNode T) (hi : i < cs.length)
      (X Y : List (MbrLeaf T)),
      (leavesOf v ++ X).Perm (Y ++ leavesOf cs[i]) →
      (leavesOf.leavesOfList (cs.set i v) ++ X).Perm
        (Y ++ leavesOf.leavesOfList cs) := by
  intro cs
  induction cs with
  | nil => intro i v hi; simp at hi
  | cons c cs ih =>
    intro i v hi X Y h
    cases i with
    | zero =>
      simp only [List.set_cons_zero, List.getElem_cons_zero] at h ⊢
      rw [leavesOf.leavesOfList, leavesOf.leavesOfList]
      refine List.Perm.trans
        (perm_append_swap_right (leavesOf v) (leavesOf.leavesOfList cs) X) ?_
      refine List.Perm.trans (h.append_right (leavesOf.leavesOfList cs)) ?_
      rw [List.append_assoc]
    | succ i =>
      simp only [List.set_cons_succ, List.getElem_cons_succ] at h ⊢
      rw [leavesOf.leavesOfList, leavesOf.leavesOfList]
      have hi2 : i < cs.length := by simpa using hi
      have hmain := ih i v hi2 X Y h
      rw [List.append_assoc]
      refine List.Perm.trans (List.Perm.append_left (leavesOf c) hmain) ?_
      rw [← List.append_assoc, ← List.append_assoc]
      exact List.Perm.append_right _ List.perm_append_comm

theorem rstarInsertGo_leaves_spec {T : Type} (conf : RStarConf) {B : ℤ}
    (hconf : RStarConfOk conf) (hB : BoundsOk conf.dim B)
    (fuel : Nat) (mbr : Rect) (cs : List (MbrLeaf T)) (leaf : MbrLeaf T)
    (atRoot forceSplit : Bool)
    (hinv : nodeInvB conf.dim B (.Leaves mbr cs) = true)
    (hsz : sizeOK conf.max (.Leaves mbr cs) = true)
    (hlf : boxOKB conf.dim B leaf.geometry = true) :
    (leavesOf (rstarInsertGo conf fuel (.Leaves mbr cs) leaf atRoot forceSplit).1
        ++ resLeaves
          (rstarInsertGo conf fuel (.Leaves mbr cs) leaf atRoot forceSplit).2).Perm
      (leaf :: leavesOf (RTreeNode.Leaves mbr cs)) ∧
    nodeInvB conf.dim B
      (rstarInsertGo conf fuel (.Leaves mbr cs) leaf atRoot forceSplit).1 = true ∧
    sizeOK conf.max
      (rstarInsertGo conf fuel (.Leaves mbr cs) leaf atRoot forceSplit).1 = true ∧
    (rstarInsertGo conf fuel (.Leaves mbr cs) leaf atRoot forceSplit).1.isEmpty
      = false ∧
    insideB (rstarInsertGo conf fuel (.Leaves mbr cs) leaf atRoot forceSplit).1.mbr
      (expandMbrToFit leaf.geometry (RTreeNode.Leaves mbr cs).mbr) = true ∧
    (∀ c, (rstarInsertGo conf fuel (.Leaves mbr cs) leaf atRoot forceSplit).2
        = .Split c →
      nodeInvB conf.dim B c = true ∧ sizeOK conf.max c = true ∧
      c.isEmpty = false ∧
      insideB c.mbr (expandMbrToFit leaf.geometry (RTreeNode.Leaves mbr cs).mbr)
        = true) ∧
    (forceSplit = true → ∀ ls,
      (rstarInsertGo conf fuel (.Leaves mbr cs) leaf atRoot forceSplit).2
        ≠ .Reinsert ls) ∧
    (atRoot = false → forceSplit = false → ∀ c,
      (rstarInsertGo conf fuel (.Leaves mbr cs) leaf atRoot forceSplit).2
        ≠ .Split c) := by
  have hBF := hB.2.1
  rw [nodeInvB_Leaves_iff] at hinv
  obtain ⟨hm1, hdisj, hls⟩ := hinv
  rw [sizeOK_Leaves_iff] at hsz
  have hmbr0 : boxOKB conf.dim B (expandMbrToFit leaf.geometry mbr) = true := by
    rcases hdisj with ⟨hce, hmm⟩ | hb
    · rw [hmm, expand_maxInverted_eq hBF hlf]
      exact hlf
    · exact boxOKB_expandMbrToFit hlf hb
  have hinv2 : nodeInvB conf.dim B
      (.Leaves (expandMbrToFit leaf.geometry mbr) (cs ++ [leaf])) = true := by
    rw [nodeInvB_Leaves_iff]
    refine ⟨by rw [length_expandMbrToFit]; exact hm1, Or.inr hmbr0, ?_⟩
    intro l hl
    rw [List.mem_append, List.mem_singleton] at hl
    rcases hl with hl | rfl
    · exact ⟨(hls l hl).1, insideB_expand_mono _ _ _ (hls l hl).2⟩
    · refine ⟨hlf, insideB_expand_self _ _ ?_⟩
      rw [((boxOKB_iff _ _ _).mp hlf).1, hm1]
  rw [rstarInsertGo.eq_def]
  simp only [RTreeNode.mbr]
  split
  case isTrue hgt =>
    simp only [RTreeNode.len, List.length_append, List.length_cons,
      List.length_nil] at hgt
    have hO := rstarHandleOverflow_spec conf hconf hB
      (.Leaves (expandMbrToFit leaf.geometry mbr) (cs ++ [leaf])) atRoot forceSplit
      hinv2
      (by simp only [RTreeNode.len, List.length_append, List.length_cons,
            List.length_nil]
          omega)
      (fun _ _ h => RTreeNode.noConfusion h)
      (fun _ _ h => RTreeNode.noConfusion h)
    obtain ⟨hO1, hO2, hO3, hO4, hO5, hO6, hO7, hO8⟩ := hO
    refine ⟨?_, hO2, hO3, hO4, ?_, ?_, hO7, hO8⟩
    · exact hO1.trans (List.perm_append_singleton leaf cs)
    · exact hO5
    · exact hO6
  case isFalse hle =>
    simp only [RTreeNode.len, List.length_append, List.length_cons,
      List.length_nil] at hle
    refine ⟨?_, hinv2, ?_, ?_, ?_, ?_, ?_, ?_⟩
    · show ((cs ++ [leaf]) ++ []).Perm (leaf :: cs)
      rw [List.append_nil]
      exact List.perm_append_singleton leaf cs
    · rw [sizeOK_Leaves_iff, List.length_append, List.length_cons, List.length_nil]
      omega
    · exact isEmpty_false_of_ne_nil_leaves _ _ (by simp)
    · exact insideB_refl _
    · intro c hc
      exact InsertResult.noConfusion hc
    · intro _ ls hc
      exact InsertResult.noConfusion hc
    · intro _ _ c hc
      exact InsertResult.noConfusion hc

theorem rstarInsertGo_spec {T : Type} (conf : RStarConf) {B : ℤ}
    (hconf : RStarConfOk conf) (hB : BoundsOk conf.dim B) :
    ∀ (fuel : Nat) (node : RTreeNode T) (leaf : MbrLeaf T) (atRoot forceSplit : Bool),
      height node ≤ fuel →
      nodeInvB conf.dim B node = true →
      sizeOK conf.max node = true →
      boxOKB conf.dim B leaf.geometry = true →
      (leavesOf (rstarInsertGo conf fuel node leaf atRoot forceSplit).1
          ++ resLeaves (rstarInsertGo conf fuel node leaf atRoot forceSplit).2).Perm
        (leaf :: leavesOf node) ∧
      nodeInvB conf.dim B (rstarInsertGo conf fuel node leaf atRoot forceSplit).1
        = true ∧
      sizeOK conf.max (rstarInsertGo conf fuel node leaf atRoot forceSplit).1
        = true ∧
      (rstarInsertGo conf fuel node leaf atRoot forceSplit).1.isEmpty = false ∧
      insideB (rstarInsertGo conf fuel node leaf atRoot forceSplit).1.mbr
        (expandMbrToFit leaf.geometry node.mbr) = true ∧
      (∀ c, (rstarInsertGo conf fuel node leaf atRoot forceSplit).2 = .Split c →
        nodeInvB conf.dim B c = true ∧ sizeOK conf.max c = true ∧
        c.isEmpty = false ∧
        insideB c.mbr (expandMbrToFit leaf.geometry node.mbr) = true) ∧
      (forceSplit = true → ∀ ls,
        (rstarInsertGo conf fuel node leaf atRoot forceSplit).2 ≠ .Reinsert ls) ∧
      (atRoot = false → forceSplit = false → ∀ c,
        (rstarInsertGo conf fuel node leaf atRoot forceSplit).2 ≠ .Split c) := by
  intro fuel
  induction fuel with
  | zero =>
    intro node leaf atRoot forceSplit hfuel hinv hsz hlf
    cases node with
    | Leaves mbr cs =>
      exact rstarInsertGo_leaves_spec conf hconf hB 0 mbr cs leaf atRoot forceSplit
        hinv hsz hlf
    | Level mbr cs =>
      rw [height] at hfuel
      omega
  | succ fuel ih =>
    intro node leaf atRoot forceSplit hfuel hinv hsz hlf
    cases node with
    | Leaves mbr cs =>
      exact rstarInsertGo_leaves_spec conf hconf hB (fuel + 1) mbr cs leaf atRoot
        forceSplit hinv hsz hlf
    | Level mbr cs =>
      have hBF := hB.2.1
      rw [nodeInvB_Level_iff] at hinv
      obtain ⟨hm1, hne0, hmbox, hcs⟩ := hinv
      rw [sizeOK_Level_iff] at hsz
      obtain ⟨hszlen, hszcs⟩ := hsz
      rw [height] at hfuel
      obtain ⟨hchperm, hchlt⟩ := chooseSubnode_spec conf cs leaf hne0
      obtain ⟨sub, hsubeq⟩ : ∃ sub,
          (chooseSubnode conf cs leaf).1[(chooseSubnode conf cs leaf).2]? = some sub :=
        ⟨_, List.getElem?_eq_getElem hchlt⟩
      have hsubeq2a : (chooseSubnode conf cs leaf).1[(chooseSubnode conf cs leaf).2]
          = sub := by
        have h3 := List.getElem?_eq_getElem hchlt
        rw [hsubeq] at h3
        exact (Option.some.inj h3).symm
      have hsubmem : sub ∈ cs :=
        hchperm.mem_iff.mp (hsubeq2a ▸ List.getElem_mem hchlt)
      obtain ⟨hsubinv, hsubin, hsubne⟩ := hcs _ hsubmem
      have hsubsz := hszcs _ hsubmem
      have hsubh : height sub ≤ fuel := by
        have h2 := height_child_le sub cs hsubmem
        omega
      obtain ⟨IH1, IH2, IH3, IH4, IH5, IH6, IH7, IH8⟩ :=
        ih sub leaf false forceSplit hsubh hsubinv hsubsz hlf
      have hmbr0 : boxOKB conf.dim B (expandMbrToFit leaf.geometry mbr) = true :=
        boxOKB_expandMbrToFit hlf hmbox
      have hcs0pos : 0 < cs.length := List.length_pos.mpr hne0
      have hlen2 : ((chooseSubnode conf cs leaf).1.set (chooseSubnode conf cs leaf).2
          (rstarInsertGo conf fuel sub leaf false forceSplit).1).length
          = cs.length := by
        rw [List.length_set, hchperm.length_eq]
      have hIH5' : insideB (rstarInsertGo conf fuel sub leaf false forceSplit).1.mbr
          (expandMbrToFit leaf.geometry mbr) = true :=
        insideB_trans IH5 (insideB_expand_congr hsubin)
      have hmem2 : ∀ x ∈ (chooseSubnode conf cs leaf).1.set
          (chooseSubnode conf cs leaf).2
          (rstarInsertGo conf fuel sub leaf false forceSplit).1,
          (nodeInvB conf.dim B x = true ∧ x.isEmpty = false ∧
            sizeOK conf.max x = true) ∧
          insideB x.mbr (expandMbrToFit leaf.geometry mbr) = true := by
        intro x hx
        rcases List.mem_or_eq_of_mem_set hx with hx | rfl
        · have hxc := hcs x (hchperm.mem_iff.mp hx)
          exact ⟨⟨hxc.1, hxc.2.2, hszcs x (hchperm.mem_iff.mp hx)⟩,
            insideB_expand_mono _ _ _ hxc.2.1⟩
        · exact ⟨⟨IH2, IH4, IH3⟩, hIH5'⟩
      have hchne2 : (chooseSubnode conf cs leaf).1.set (chooseSubnode conf cs leaf).2
          (rstarInsertGo conf fuel sub leaf false forceSplit).1 ≠ [] := by
        apply List.ne_nil_of_length_pos
        rw [hlen2]
        exact hcs0pos
      have hsubeq2 : (chooseSubnode conf cs leaf).1[(chooseSubnode conf cs leaf).2]
          = sub := by
        have h3 := List.getElem?_eq_getElem hchlt
        rw [hsubeq] at h3
        exact (Option.some.inj h3).symm
      have htot : (leavesOf.leavesOfList ((chooseSubnode conf cs leaf).1.set
            (chooseSubnode conf cs leaf).2
            (rstarInsertGo conf fuel sub leaf false forceSplit).1)
          ++ resLeaves (rstarInsertGo conf fuel sub leaf false forceSplit).2).Perm
          ([leaf] ++ leavesOf.leavesOfList cs) := by
        have hset := leavesOfList_set_conserve (chooseSubnode conf cs leaf).1
          (chooseSubnode conf cs leaf).2
          (rstarInsertGo conf fuel sub leaf false forceSplit).1 hchlt
          (resLeaves (rstarInsertGo conf fuel sub leaf false forceSplit).2) [leaf]
          (by rw [hsubeq2]; exact IH1)
        exact hset.trans (List.Perm.append_left [leaf] (leavesOfList_perm hchperm))
      rw [rstarInsertGo.eq_def]
      simp only [RTreeNode.mbr]
      rw [hsubeq]
      simp only []
      cases hsplit : (rstarInsertGo conf fuel sub leaf false forceSplit).2 with
      | Ok =>
        rw [hsplit] at htot
        simp only [resLeaves] at htot
        rw [List.append_nil] at htot
        refine ⟨?_, ?_, ?_, ?_, ?_, ?_, ?_, ?_⟩
        · show (leavesOf.leavesOfList _ ++ []).Perm _
          rw [List.append_nil]
          exact htot
        · rw [nodeInvB_Level_iff]
          exact ⟨by rw [length_expandMbrToFit]; exact hm1, hchne2, hmbr0,
            fun x hx => ⟨(hmem2 x hx).1.1, (hmem2 x hx).2, (hmem2 x hx).1.2.1⟩⟩
        · rw [sizeOK_Level_iff]
          exact ⟨by rw [hlen2]; exact hszlen, fun x hx => (hmem2 x hx).1.2.2⟩
        · exact isEmpty_false_of_ne_nil_level _ _ hchne2
        · exact insideB_refl _
        · intro c hc
          exact InsertResult.noConfusion hc
        · intro _ ls hc
          exact InsertResult.noConfusion hc
        · intro _ _ c hc
          exact InsertResult.noConfusion hc
      | Reinsert ls =>
        rw [hsplit] at htot
        simp only [resLeaves] at htot
        refine ⟨?_, ?_, ?_, ?_, ?_, ?_, ?_, ?_⟩
        · exact htot
        · exact levelNode_recomputed_inv hBF _ hchne2
            (fun x hx => ⟨(hmem2 x hx).1.1, (hmem2 x hx).1.2.1⟩)
        · rw [sizeOK_Level_iff]
          exact ⟨by rw [hlen2]; exact hszlen, fun x hx => (hmem2 x hx).1.2.2⟩
        · exact isEmpty_false_of_ne_nil_level _ _ hchne2
        · exact inside_mbrOf_nodes_subset hBF _ _ hchne2
            (fun x hx => nodeInvB_mbr_boxOKB x (hmem2 x hx).1.1 (hmem2 x hx).1.2.1)
            (fun x hx => (hmem2 x hx).2)
        · intro c hc
          exact InsertResult.noConfusion hc
        · intro hfs ls2 hc
          exact absurd hsplit (IH7 hfs ls)
        · intro _ _ c hc
          exact InsertResult.noConfusion hc
      | Split c =>
        obtain ⟨hc1, hc2, hc3, hc4⟩ := IH6 c hsplit
        have hcin : insideB c.mbr (expandMbrToFit leaf.geometry mbr) = true :=
          insideB_trans hc4 (insideB_expand_congr hsubin)
        rw [hsplit] at htot
        simp only [resLeaves] at htot
        have hmemapp : ∀ x ∈ ((chooseSubnode conf cs leaf).1.set
            (chooseSubnode conf cs leaf).2
            (rstarInsertGo conf fuel sub leaf false forceSplit).1) ++ [c],
            (nodeInvB conf.dim B x = true ∧ x.isEmpty = false ∧
              sizeOK conf.max x = true) ∧
            insideB x.mbr (expandMbrToFit leaf.geometry mbr) = true := by
          intro x hx
          rw [List.mem_append, List.mem_singleton] at hx
          rcases hx with hx | rfl
          · exact hmem2 x hx
          · exact ⟨⟨hc1, hc3, hc2⟩, hcin⟩
        have hinv3 : nodeInvB conf.dim B (.Level (expandMbrToFit leaf.geometry mbr)
            (((chooseSubnode conf cs leaf).1.set (chooseSubnode conf cs leaf).2
              (rstarInsertGo conf fuel sub leaf false forceSplit).1) ++ [c]))
            = true := by
          rw [nodeInvB_Level_iff]
          exact ⟨by rw [length_expandMbrToFit]; exact hm1, by simp, hmbr0,
            fun x hx => ⟨(hmemapp x hx).1.1, (hmemapp x hx).2, (hmemapp x hx).1.2.1⟩⟩
        have hnodel : leavesOf.leavesOfList
            (((chooseSubnode conf cs leaf).1.set (chooseSubnode conf cs leaf).2
              (rstarInsertGo conf fuel sub leaf false forceSplit).1) ++ [c])
            = leavesOf.leavesOfList ((chooseSubnode conf cs leaf).1.set
                (chooseSubnode conf cs leaf).2
                (rstarInsertGo conf fuel sub leaf false forceSplit).1)
              ++ leavesOf c := by
          rw [leavesOfList_append, leavesOf.leavesOfList, leavesOf.leavesOfList,
            List.append_nil]
        have htot2 : (leavesOf.leavesOfList
            (((chooseSubnode conf cs leaf).1.set (chooseSubnode conf cs leaf).2
              (rstarInsertGo conf fuel sub leaf false forceSplit).1) ++ [c])).Perm
            ([leaf] ++ leavesOf.leavesOfList cs) := by
          rw [hnodel]
          exact htot
        simp only []
        split
        case isTrue hgt =>
          simp only [RTreeNode.len, List.length_append, List.length_cons,
            List.length_nil, hlen2] at hgt
          have hO := rstarHandleOverflow_spec conf hconf hB
            (.Level (expandMbrToFit leaf.geometry mbr)
              (((chooseSubnode conf cs leaf).1.set (chooseSubnode conf cs leaf).2
                (rstarInsertGo conf fuel sub leaf false forceSplit).1) ++ [c]))
            atRoot forceSplit hinv3
            (by simp only [RTreeNode.len, List.length_append, List.length_cons,
                  List.length_nil, hlen2]
                omega)
            (by intro mbr2 cs2 heq
                injection heq with h1 h2
                subst h2
                exact (sizeList_iff _ _).mpr (fun x hx => (hmemapp x hx).1.2.2))
            (by intro mbr2 cs2 heq
                cases hfs2 : forceSplit with
                | true => exact Or.inr rfl
                | false => exact absurd hsplit (IH8 rfl hfs2 c))
          obtain ⟨hO1, hO2, hO3, hO4, hO5, hO6, hO7, hO8⟩ := hO
          refine ⟨?_, hO2, hO3, hO4, ?_, ?_, hO7, hO8⟩
          · exact hO1.trans htot2
          · exact hO5
          · exact hO6
        case isFalse hle =>
          simp only [RTreeNode.len, List.length_append, List.length_cons,
            List.length_nil, hlen2] at hle
          refine ⟨?_, hinv3, ?_, ?_, ?_, ?_, ?_, ?_⟩
          · show (leavesOf.leavesOfList _ ++ []).Perm _
            rw [List.append_nil]
            exact htot2
          · rw [sizeOK_Level_iff]
            refine ⟨?_, fun x hx => (hmemapp x hx).1.2.2⟩
            rw [List.length_append, List.length_cons, List.length_nil, hlen2]
            omega
          · exact isEmpty_false_of_ne_nil_level _ _ (by simp)
          · exact insideB_refl _
          · intro c2 hc
            exact InsertResult.noConfusion hc
          · intro _ ls hc
            exact InsertResult.noConfusion hc
          · intro _ _ c2 hc
            exact InsertResult.noConfusion hc

theorem rstarHandleSplitRoot_spec {T : Type} (conf : RStarConf) {B : ℤ}
    (hconf : RStarConfOk conf) (r1 c : RTreeNode T)
    (h1 : nodeInvB conf.dim B r1 = true) (hs1 : sizeOK conf.max r1 = true)
    (hne1 : r1.isEmpty = false)
    (h2 : nodeInvB conf.dim B c = true) (hs2 : sizeOK conf.max c = true)
    (hne2 : c.isEmpty = false) :
    leavesOf (rstarHandleSplitRoot r1 c) = leavesOf r1 ++ leavesOf c ∧
    nodeInvB conf.dim B (rstarHandleSplitRoot r1 c) = true ∧
    sizeOK conf.max (rstarHandleSplitRoot r1 c) = true := by
  obtain ⟨hdim, hmk, hkk, hkm, hrm1, hrmM⟩ := hconf
  have hl1 : r1.mbr.length = conf.dim := nodeInvB_mbr_length h1
  have hl2 : c.mbr.length = conf.dim := nodeInvB_mbr_length h2
  refine ⟨?_, ?_, ?_⟩
  · show leavesOf.leavesOfList [r1, c] = leavesOf r1 ++ leavesOf c
    rw [leavesOf.leavesOfList, leavesOf.leavesOfList, leavesOf.leavesOfList,
      List.append_nil]
  · rw [rstarHandleSplitRoot, nodeInvB_Level_iff]
    refine ⟨by rw [length_expandMbrToFit]; exact hl1, by simp, ?_, ?_⟩
    · exact boxOKB_expandMbrToFit (nodeInvB_mbr_boxOKB c h2 hne2)
        (nodeInvB_mbr_boxOKB r1 h1 hne1)
    · intro x hx
      rw [List.mem_cons, List.mem_singleton] at hx
      rcases hx with rfl | rfl
      · exact ⟨h1, insideB_expand_mono _ _ _ (insideB_refl _), hne1⟩
      · exact ⟨h2, insideB_expand_self _ _ (by rw [hl1, hl2]), hne2⟩
  · rw [rstarHandleSplitRoot, sizeOK_Level_iff]
    refine ⟨by simp; omega, ?_⟩
    intro x hx
    rw [List.mem_cons, List.mem_singleton] at hx
    rcases hx with rfl | rfl
    · exact hs1
    · exact hs2

theorem rstarForceFold_spec {T : Type} (conf : RStarConf) {B : ℤ}
    (hconf : RStarConfOk conf) (hB : BoundsOk conf.dim B) :
    ∀ (ls : List (MbrLeaf T)) (rt : RTreeNode T),
      nodeInvB conf.dim B rt = true → sizeOK conf.max rt = true →
      (∀ l ∈ ls, boxOKB conf.dim B l.geometry = true) →
      (leavesOf (ls.foldl (fun rt lf =>
        let r₂ := rstarInsertGo conf (height rt) rt lf true true
        match r₂.2 with
        | .Split child => rstarHandleSplitRoot r₂.1 child
        | .Reinsert _ => r₂.1
        | .Ok => r₂.1) rt)).Perm (ls ++ leavesOf rt) ∧
      nodeInvB conf.dim B (ls.foldl (fun rt lf =>
        let r₂ := rstarInsertGo conf (height rt) rt lf true true
        match r₂.2 with
        | .Split child => rstarHandleSplitRoot r₂.1 child
        | .Reinsert _ => r₂.1
        | .Ok => r₂.1) rt) = true ∧
      sizeOK conf.max (ls.foldl (fun rt lf =>
        let r₂ := rstarInsertGo conf (height rt) rt lf true true
        match r₂.2 with
        | .Split child => rstarHandleSplitRoot r₂.1 child
        | .Reinsert _ => r₂.1
        | .Ok => r₂.1) rt) = true := by
  intro ls
  induction ls with
  | nil =>
    intro rt hinv hsz _
    refine ⟨?_, hinv, hsz⟩
    rw [List.foldl_nil, List.nil_append]
  | cons l ls ih =>
    intro rt hinv hsz hbx
    obtain ⟨IH1, IH2, IH3, IH4, IH5, IH6, IH7, IH8⟩ :=
      rstarInsertGo_spec conf hconf hB (height rt) rt l true true le_rfl hinv hsz
        (hbx l (by simp))
    rw [List.foldl_cons]
    have hstep : (leavesOf ((fun rt lf =>
          let r₂ := rstarInsertGo conf (height rt) rt lf true true
          match r₂.2 with
          | .Split child => rstarHandleSplitRoot r₂.1 child
          | .Reinsert _ => r₂.1
          | .Ok => r₂.1) rt l)).Perm (l :: leavesOf rt) ∧
        nodeInvB conf.dim B ((fun rt lf =>
          let r₂ := rstarInsertGo conf (height rt) rt lf true true
          match r₂.2 with
          | .Split child => rstarHandleSplitRoot r₂.1 child
          | .Reinsert _ => r₂.1
          | .Ok => r₂.1) rt l) = true ∧
        sizeOK conf.max ((fun rt lf =>
          let r₂ := rstarInsertGo conf (height rt) rt lf true true
          match r₂.2 with
          | .Split child => rstarHandleSplitRoot r₂.1 child
          | .Reinsert _ => r₂.1
          | .Ok => r₂.1) rt l) = true := by
      simp only []
      cases hres : (rstarInsertGo conf (height rt) rt l true true).2 with
      | Ok =>
        rw [hres] at IH1
        simp only [resLeaves] at IH1
        rw [List.append_nil] at IH1
        exact ⟨IH1, IH2, IH3⟩
      | Reinsert ls2 => exact absurd hres (IH7 rfl ls2)
      | Split c =>
        obtain ⟨hc1, hc2, hc3, hc4⟩ := IH6 c hres
        obtain ⟨hsr1, hsr2, hsr3⟩ := rstarHandleSplitRoot_spec conf hconf
          (rstarInsertGo conf (height rt) rt l true true).1 c IH2 IH3 IH4 hc1 hc2 hc3
        rw [hres] at IH1
        simp only [resLeaves] at IH1
        refine ⟨?_, hsr2, hsr3⟩
        rw [hsr1]
        exact IH1
    obtain ⟨hs1, hs2, hs3⟩ := hstep
    obtain ⟨hi1, hi2, hi3⟩ := ih _ hs2 hs3 (fun x hx => hbx x (by simp [hx]))
    refine ⟨?_, hi2, hi3⟩
    refine hi1.trans ?_
    refine (List.Perm.append_left ls hs1).trans ?_
    exact List.perm_middle

theorem rstarInsertIntoRoot_spec {T : Type} (conf : RStarConf) {B : ℤ}
    (hconf : RStarConfOk conf) (hB : BoundsOk conf.dim B)
    (root : RTreeNode T) (leaf : MbrLeaf T)
    (hinv : nodeInvB conf.dim B root = true)
    (hsz : sizeOK conf.max root = true)
    (hlf : boxOKB conf.dim B leaf.geometry = true) :
    (leavesOf (rstarInsertIntoRoot conf root leaf)).Perm (leaf :: leavesOf root) ∧
    nodeInvB conf.dim B (rstarInsertIntoRoot conf root leaf) = true ∧
    sizeOK conf.max (rstarInsertIntoRoot conf root leaf) = true := by
  obtain ⟨IH1, IH2, IH3, IH4, IH5, IH6, IH7, IH8⟩ :=
    rstarInsertGo_spec conf hconf hB (height root) root leaf true false le_rfl hinv
      hsz hlf
  rw [rstarInsertIntoRoot]
  simp only []
  cases hres : (rstarInsertGo conf (height root) root leaf true false).2 with
  | Ok =>
    rw [hres] at IH1
    simp only [resLeaves] at IH1
    rw [List.append_nil] at IH1
    exact ⟨IH1, IH2, IH3⟩
  | Split c =>
    obtain ⟨hc1, hc2, hc3, hc4⟩ := IH6 c hres
    obtain ⟨hsr1, hsr2, hsr3⟩ := rstarHandleSplitRoot_spec conf hconf
      (rstarInsertGo conf (height root) root leaf true false).1 c IH2 IH3 IH4
      hc1 hc2 hc3
    rw [hres] at IH1
    simp only [resLeaves] at IH1
    refine ⟨?_, hsr2, hsr3⟩
    rw [hsr1]
    exact IH1
  | Reinsert ls =>
    rw [hres] at IH1
    simp only [resLeaves] at IH1
    have hbx : ∀ l ∈ ls, boxOKB conf.dim B l.geometry = true := by
      intro l hl
      have hmem : l ∈ leaf :: leavesOf root :=
        IH1.mem_iff.mp (by rw [List.mem_append]; exact Or.inr hl)
      rw [List.mem_cons] at hmem
      rcases hmem with rfl | hmem
      · exact hlf
      · exact nodeInv_leaves_boxOKB conf.dim B (height root) root le_rfl hinv l hmem
    obtain ⟨hf1, hf2, hf3⟩ := rstarForceFold_spec conf hconf hB ls
      (rstarInsertGo conf (height root) root leaf true false).1 IH2 IH3 hbx
    refine ⟨?_, hf2, hf3⟩
    refine hf1.trans ?_
    refine (List.perm_append_comm).trans ?_
    exact IH1

theorem heightL_le {T : Type} (l : List (RTreeNode T)) (m : Nat)
    (h : ∀ x ∈ l, height x ≤ m) : height.heightL l ≤ m := by
  induction l with
  | nil => rw [height.heightL]; omega
  | cons c l ih =>
    rw [height.heightL]
    exact Nat.max_le.mpr ⟨h c (by simp), ih (fun x hx => h x (by simp [hx]))⟩

theorem consumeNode_eq {T : Type} :
    ∀ (hf : Nat) (n : RTreeNode T), height n ≤ hf → ∀ acc,
      consumeLeavesForReinsert.consumeNode n acc = acc ++ leavesOf n := by
  intro hf
  induction hf with
  | zero =>
    intro n hh acc
    cases n with
    | Leaves mbr cs => rfl
    | Level mbr cs =>
      rw [height] at hh
      omega
  | succ hf ih =>
    intro n hh acc
    cases n with
    | Leaves mbr cs => rfl
    | Level mbr cs =>
      rw [consumeLeavesForReinsert.consumeNode]
      rw [height] at hh
      have klist : ∀ (ns : List (RTreeNode T)), (∀ x ∈ ns, height x ≤ hf) →
          ∀ (acc : List (MbrLeaf T)),
          consumeLeavesForReinsert ns acc = acc ++ leavesOf.leavesOfList ns := by
        intro ns
        induction ns with
        | nil =>
          intro _ acc
          rw [consumeLeavesForReinsert, leavesOf.leavesOfList, List.append_nil]
        | cons m ms ihm =>
          intro hhs acc
          rw [consumeLeavesForReinsert, ih m (hhs m (by simp)) acc,
            ihm (fun x hx => hhs x (by simp [hx])) (acc ++ leavesOf m),
            leavesOf.leavesOfList, List.append_assoc]
      exact klist cs (fun x hx => by have := height_child_le x cs hx; omega) acc

theorem consumeLeaves_eq {T : Type} (hf : Nat) :
    ∀ (ns : List (RTreeNode T)), (∀ x ∈ ns, height x ≤ hf) →
      ∀ (acc : List (MbrLeaf T)),
        consumeLeavesForReinsert ns acc = acc ++ leavesOf.leavesOfList ns := by
  intro ns
  induction ns with
  | nil =>
    intro _ acc
    rw [consumeLeavesForReinsert, leavesOf.leavesOfList, List.append_nil]
  | cons m ms ihm =>
    intro hhs acc
    rw [consumeLeavesForReinsert, consumeNode_eq hf m (hhs m (by simp)) acc,
      ihm (fun x hx => hhs x (by simp [hx])) (acc ++ leavesOf m),
      leavesOf.leavesOfList, List.append_assoc]

theorem filter_split_perm {α : Type} (p : α → Bool) (l rem : List α)
    (hrem : rem.Perm (l.filter (fun a => !p a))) :
    (l.filter p ++ rem).Perm l :=
  (List.Perm.append_left (l.filter p) hrem).trans (List.filter_append_perm p l)

theorem removeLeaves_leaves_conserve {T : Type} (minE dim : Nat) {B : ℤ}
    (maxE : Nat) (q : QueryFns T) (f : T → Bool) (hmin : 1 ≤ minE) (hBF : B < FMAX)
    (mbr : Rect) (cs : List (MbrLeaf T)) (removed toReinsert : List (MbrLeaf T))
    (atRoot : Bool)
    (hinv : nodeInvB dim B (.Leaves mbr cs) = true)
    (hsz : sizeOK maxE (.Leaves mbr cs) = true)
    (hne : atRoot = false → (RTreeNode.Leaves mbr cs).isEmpty = false) :
    ∃ dRem dRe : List (MbrLeaf T),
      (removeLeavesFromLevel minE dim q f (.Leaves mbr cs) removed toReinsert
          atRoot).2.2.1 = removed ++ dRem ∧
      (removeLeavesFromLevel minE dim q f (.Leaves mbr cs) removed toReinsert
          atRoot).2.2.2 = toReinsert ++ dRe ∧
      ((if (removeLeavesFromLevel minE dim q f (.Leaves mbr cs) removed toReinsert
              atRoot).1 = true
          then leavesOf (removeLeavesFromLevel minE dim q f (.Leaves mbr cs) removed
            toReinsert atRoot).2.1
          else []) ++ dRem ++ dRe).Perm (leavesOf (RTreeNode.Leaves mbr cs)) ∧
      ((removeLeavesFromLevel minE dim q f (.Leaves mbr cs) removed toReinsert
            atRoot).1 = true → atRoot = false →
        nodeInvB dim B (removeLeavesFromLevel minE dim q f (.Leaves mbr cs) removed
            toReinsert atRoot).2.1 = true ∧
        sizeOK maxE (removeLeavesFromLevel minE dim q f (.Leaves mbr cs) removed
            toReinsert atRoot).2.1 = true ∧
        insideB (removeLeavesFromLevel minE dim q f (.Leaves mbr cs) removed
            toReinsert atRoot).2.1.mbr (RTreeNode.Leaves mbr cs).mbr = true ∧
        (removeLeavesFromLevel minE dim q f (.Leaves mbr cs) removed toReinsert
            atRoot).2.1.isEmpty = false) ∧
      (atRoot = true →
        (removeLeavesFromLevel minE dim q f (.Leaves mbr cs) removed toReinsert
            atRoot).1 = true ∧
        sizeOK maxE (removeLeavesFromLevel minE dim q f (.Leaves mbr cs) removed
            toReinsert atRoot).2.1 = true ∧
        (nodeInvB dim B (removeLeavesFromLevel minE dim q f (.Leaves mbr cs) removed
            toReinsert atRoot).2.1 = true ∨
          ((removeLeavesFromLevel minE dim q f (.Leaves mbr cs) removed toReinsert
              atRoot).2.1.isEmpty = true ∧
            (removeLeavesFromLevel minE dim q f (.Leaves mbr cs) removed toReinsert
              atRoot).2.1.hasLevels = true))) ∧
      height (removeLeavesFromLevel minE dim q f (.Leaves mbr cs) removed toReinsert
          atRoot).2.1 ≤ height (RTreeNode.Leaves mbr cs) := by
  have hinvP := (nodeInvB_Leaves_iff T dim B mbr cs).mp hinv
  obtain ⟨hm1, hdisj, hls⟩ := hinvP
  have hszP := (sizeOK_Leaves_iff T maxE mbr cs).mp hsz
  obtain ⟨rem, hra, hrem⟩ := retainAndAppend_spec
    (fun leaf => !q.acceptLeaf leaf || f leaf.item) cs removed
  rw [removeLeavesFromLevel]
  cases hq : q.acceptLevel (RTreeNode.Leaves mbr cs) with
  | false =>
    rw [if_pos (by simp [hq])]
    refine ⟨[], [], by simp, by simp, by simp, ?_, ?_, ?_⟩
    · intro _ hroot
      exact ⟨hinv, hsz, insideB_refl _, hne hroot⟩
    · intro hroot
      exact ⟨rfl, hsz, Or.inl hinv⟩
    · exact Nat.le.refl
  | true =>
    rw [if_neg (by simp [hq])]
    simp only []
    simp only [removeMatchingLeaves]
    rw [hra]
    simp only []
    have hkbox : ∀ l ∈ cs.filter (fun leaf => !q.acceptLeaf leaf || f leaf.item),
        boxOKB dim B l.geometry = true :=
      fun l hl => (hls l (List.mem_of_mem_filter hl)).1
    have hkin : ∀ l ∈ cs.filter (fun leaf => !q.acceptLeaf leaf || f leaf.item),
        insideB l.geometry mbr = true :=
      fun l hl => (hls l (List.mem_of_mem_filter hl)).2
    have hklen : (cs.filter
        (fun leaf => !q.acceptLeaf leaf || f leaf.item)).length ≤ cs.length :=
      List.length_filter_le _ _
    have hinvK : ∀ (hne2 : cs.filter
          (fun leaf => !q.acceptLeaf leaf || f leaf.item) ≠ []),
        nodeInvB dim B (RTreeNode.Leaves
          (mbrOfListWith (leafOps T) dim
            (cs.filter (fun leaf => !q.acceptLeaf leaf || f leaf.item)))
          (cs.filter (fun leaf => !q.acceptLeaf leaf || f leaf.item))) = true :=
      fun hne2 => leavesNode_recomputed_inv hBF _ hne2 hkbox
    have B3 : cs.length
          = (cs.filter (fun leaf => !q.acceptLeaf leaf || f leaf.item)).length →
        rem = [] ∧ cs.filter (fun leaf => !q.acceptLeaf leaf || f leaf.item)
          = cs := by
      intro hlenE
      have hfeq : cs.filter (fun leaf => !q.acceptLeaf leaf || f leaf.item) = cs :=
        (List.filter_sublist _).eq_of_length hlenE.symm
      have hlen2 := (List.filter_append_perm
        (fun leaf => !q.acceptLeaf leaf || f leaf.item) cs).length_eq
      rw [List.length_append] at hlen2
      have hzero : (cs.filter (fun a =>
          !(!q.acceptLeaf a || f a.item))).length = 0 := by omega
      have hnil : cs.filter (fun a => !(!q.acceptLeaf a || f a.item)) = [] :=
        List.length_eq_zero.mp hzero
      rw [hnil] at hrem
      exact ⟨List.Perm.eq_nil hrem, hfeq⟩
    cases hatR : atRoot with
    | true =>
      rw [if_neg (by simp)]
      simp only []
      by_cases heq : cs.length
          = (cs.filter (fun leaf => !q.acceptLeaf leaf || f leaf.item)).length
      · rw [if_neg (by simp [heq])]
        simp only []
        obtain ⟨hremnil, hfeq⟩ := B3 heq
        subst hremnil
        rw [hfeq]
        refine ⟨[], [], by simp, by simp, by simp,
          ?_, ?_, ?_⟩
        · intro _ hcon
          simp at hcon
        · intro _
          exact ⟨trivial, hsz, Or.inl hinv⟩
        · exact Nat.le.refl
      · rw [if_pos (by simp [bne_iff_ne]; exact heq)]
        simp only []
        refine ⟨rem, [], rfl, by simp, ?_, ?_, ?_, ?_⟩
        · show ((cs.filter (fun leaf => !q.acceptLeaf leaf || f leaf.item) ++ rem)
              ++ []).Perm cs
          rw [List.append_nil]
          exact filter_split_perm _ cs rem hrem
        · intro _ hcon
          simp at hcon
        · intro _
          refine ⟨trivial, by
            rw [sizeOK_Leaves_iff]
            exact le_trans (List.length_filter_le _ _) hszP, ?_⟩
          by_cases hne2 : cs.filter (fun leaf => !q.acceptLeaf leaf || f leaf.item)
              = []
          · left
            rw [hne2]
            rw [nodeInvB_Leaves_iff]
            exact ⟨by rw [length_mbrOfListWith_leafOps], Or.inl ⟨rfl, rfl⟩, by simp⟩
          · exact Or.inl (hinvK hne2)
        · exact Nat.le.refl
    | false =>
      by_cases hlt : (cs.filter
          (fun leaf => !q.acceptLeaf leaf || f leaf.item)).length < minE
      · rw [if_pos (by simp [hlt])]
        simp only []
        refine ⟨rem, cs.filter (fun leaf => !q.acceptLeaf leaf || f leaf.item),
          rfl, rfl, ?_, ?_, ?_, ?_⟩
        · show (([] : List (MbrLeaf T)) ++ rem
              ++ cs.filter (fun leaf => !q.acceptLeaf leaf || f leaf.item)).Perm cs
          rw [List.nil_append]
          exact List.perm_append_comm.trans (filter_split_perm _ cs rem hrem)
        · intro hcon
          simp at hcon
        · intro hcon
          simp at hcon
        · exact Nat.le.refl
      · rw [if_neg (by simp [hlt])]
        simp only []
        by_cases heq : cs.length
            = (cs.filter (fun leaf => !q.acceptLeaf leaf || f leaf.item)).length
        · rw [if_neg (by simp [heq])]
          simp only []
          obtain ⟨hremnil, hfeq⟩ := B3 heq
          subst hremnil
          rw [hfeq]
          refine ⟨[], [], by simp, by simp, by simp,
            ?_, ?_, ?_⟩
          · intro _ _
            exact ⟨hinv, hsz, insideB_refl _, hne hatR⟩
          · intro hcon
            simp at hcon
          · exact Nat.le.refl
        · rw [if_pos (by simp [bne_iff_ne]; exact heq)]
          simp only []
          have hne2 : cs.filter (fun leaf => !q.acceptLeaf leaf || f leaf.item)
              ≠ [] := by
            apply List.ne_nil_of_length_pos
            omega
          refine ⟨rem, [], rfl, by simp, ?_, ?_, ?_, ?_⟩
          · show ((cs.filter (fun leaf => !q.acceptLeaf leaf || f leaf.item) ++ rem)
                ++ []).Perm cs
            rw [List.append_nil]
            exact filter_split_perm _ cs rem hrem
          · intro _ _
            refine ⟨hinvK hne2, ?_, ?_, ?_⟩
            · rw [sizeOK_Leaves_iff]
              exact le_trans (List.length_filter_le _ _) hszP
            · exact inside_mbrOf_leaves_subset hBF _ _ hne2 hkbox hkin
            · exact isEmpty_false_of_ne_nil_leaves _ _ hne2
          · intro hcon
            simp at hcon
          · exact Nat.le.refl

theorem removeLeavesFromLevel_conserve {T : Type} (minE dim : Nat) {B : ℤ}
    (maxE : Nat) (q : QueryFns T) (f : T → Bool) (hmin : 1 ≤ minE)
    (hBF : B < FMAX) :
    ∀ (h : Nat) (node : RTreeNode T), height node ≤ h →
      nodeInvB dim B node = true → sizeOK maxE node = true →
      ∀ (removed toReinsert : List (MbrLeaf T)) (atRoot : Bool),
        (atRoot = false → node.isEmpty = false) →
        ∃ dRem dRe : List (MbrLeaf T),
          (removeLeavesFromLevel minE dim q f node removed toReinsert
              atRoot).2.2.1 = removed ++ dRem ∧
          (removeLeavesFromLevel minE dim q f node removed toReinsert
              atRoot).2.2.2 = toReinsert ++ dRe ∧
          ((if (removeLeavesFromLevel minE dim q f node removed toReinsert
                  atRoot).1 = true
              then leavesOf (removeLeavesFromLevel minE dim q f node removed
                toReinsert atRoot).2.1
              else []) ++ dRem ++ dRe).Perm (leavesOf node) ∧
          ((removeLeavesFromLevel minE dim q f node removed toReinsert
                atRoot).1 = true → atRoot = false →
            nodeInvB dim B (removeLeavesFromLevel minE dim q f node removed
                toReinsert atRoot).2.1 = true ∧
            sizeOK maxE (removeLeavesFromLevel minE dim q f node removed
                toReinsert atRoot).2.1 = true ∧
            insideB (removeLeavesFromLevel minE dim q f node removed
                toReinsert atRoot).2.1.mbr node.mbr = true ∧
            (removeLeavesFromLevel minE dim q f node removed toReinsert
                atRoot).2.1.isEmpty = false) ∧
          (atRoot = true →
            (removeLeavesFromLevel minE dim q f node removed toReinsert
                atRoot).1 = true ∧
            sizeOK maxE (removeLeavesFromLevel minE dim q f node removed
                toReinsert atRoot).2.1 = true ∧
            (nodeInvB dim B (removeLeavesFromLevel minE dim q f node removed
                toReinsert atRoot).2.1 = true ∨
              ((removeLeavesFromLevel minE dim q f node removed toReinsert
                  atRoot).2.1.isEmpty = true ∧
                (removeLeavesFromLevel minE dim q f node removed toReinsert
                  atRoot).2.1.hasLevels = true))) ∧
          height (removeLeavesFromLevel minE dim q f node removed toReinsert
              atRoot).2.1 ≤ height node := by
  intro h
  induction h with
  | zero =>
    intro node hh hinv hsz removed toReinsert atRoot hne
    cases node with
    | Leaves mbr cs =>
      exact removeLeaves_leaves_conserve minE dim maxE q f hmin hBF mbr cs removed
        toReinsert atRoot hinv hsz hne
    | Level mbr cs =>
      rw [height] at hh
      omega
  | succ h ih =>
    intro node hh hinv hsz removed toReinsert atRoot hne
    cases node with
    | Leaves mbr cs =>
      exact removeLeaves_leaves_conserve minE dim maxE q f hmin hBF mbr cs removed
        toReinsert atRoot hinv hsz hne
    | Level mbr cs =>
      have hinvP := (nodeInvB_Level_iff T dim B mbr cs).mp hinv
      obtain ⟨hm1, hne0, hmbox, hcs⟩ := hinvP
      have hszP := (sizeOK_Level_iff T maxE mbr cs).mp hsz
      obtain ⟨hszlen, hszcs⟩ := hszP
      rw [height] at hh
      have hhs : ∀ c ∈ cs, height c ≤ h := by
        intro c hc
        have h2 := height_child_le c cs hc
        omega
      have key : ∀ (cs2 : List (RTreeNode T)), (∀ c ∈ cs2, height c ≤ h) →
          (∀ c ∈ cs2, nodeInvB dim B c = true ∧ sizeOK maxE c = true ∧
            c.isEmpty = false ∧ insideB c.mbr mbr = true) →
          ∀ (rm ri : List (MbrLeaf T)),
          ∃ dRem dRe : List (MbrLeaf T),
            (removeLeavesFromLevel.removeChildren minE dim q f cs2 rm ri).2.1
              = rm ++ dRem ∧
            (removeLeavesFromLevel.removeChildren minE dim q f cs2 rm ri).2.2
              = ri ++ dRe ∧
            (leavesOf.leavesOfList
                (removeLeavesFromLevel.removeChildren minE dim q f cs2 rm ri).1
              ++ dRem ++ dRe).Perm (leavesOf.leavesOfList cs2) ∧
            (∀ x ∈ (removeLeavesFromLevel.removeChildren minE dim q f cs2 rm ri).1,
              nodeInvB dim B x = true ∧ sizeOK maxE x = true ∧
              x.isEmpty = false ∧ insideB x.mbr mbr = true ∧
              height x ≤ height.heightL cs2) ∧
            (removeLeavesFromLevel.removeChildren minE dim q f cs2 rm ri).1.length
              ≤ cs2.length := by
        intro cs2
        induction cs2 with
        | nil =>
          intro _ _ rm ri
          rw [removeLeavesFromLevel.removeChildren]
          exact ⟨[], [], by simp, by simp, by simp [leavesOf.leavesOfList],
            by simp, by simp⟩
        | cons c cs2 ihl =>
          intro hch hcf rm ri
          obtain ⟨d1, e1, hc1, hc2, hc3, hc4, hc5, hc6⟩ := ih c (hch c (by simp))
            (hcf c (by simp)).1 (hcf c (by simp)).2.1 rm ri false
            (fun _ => (hcf c (by simp)).2.2.1)
          obtain ⟨d2, e2, hr1, hr2, hr3, hr4, hr5⟩ := ihl
            (fun x hx => hch x (by simp [hx]))
            (fun x hx => hcf x (by simp [hx]))
            (removeLeavesFromLevel minE dim q f c rm ri false).2.2.1
            (removeLeavesFromLevel minE dim q f c rm ri false).2.2.2
          rw [removeLeavesFromLevel.removeChildren]
          simp only []
          refine ⟨d1 ++ d2, e1 ++ e2, ?_, ?_, ?_, ?_, ?_⟩
          · rw [hr1, hc1, List.append_assoc]
          · rw [hr2, hc2, List.append_assoc]
          · cases hres : (removeLeavesFromLevel minE dim q f c rm ri false).1 with
            | true =>
              rw [hres] at hc3
              rw [if_pos rfl] at hc3
              rw [if_pos rfl]
              rw [leavesOf.leavesOfList, leavesOf.leavesOfList]
              rw [← Multiset.coe_eq_coe] at hc3 hr3 ⊢
              simp only [← Multiset.coe_add] at hc3 hr3 ⊢
              rw [← hc3, ← hr3]
              abel
            | false =>
              rw [hres] at hc3
              rw [if_neg (by simp)] at hc3
              rw [if_neg (by simp)]
              rw [leavesOf.leavesOfList]
              rw [← Multiset.coe_eq_coe] at hc3 hr3 ⊢
              simp only [← Multiset.coe_add] at hc3 hr3 ⊢
              simp only [Multiset.coe_nil] at hc3
              rw [← hc3, ← hr3]
              abel
          · intro x hx
            by_cases hres : (removeLeavesFromLevel minE dim q f c rm ri false).1
                = true
            · rw [if_pos hres] at hx
              rw [List.mem_cons] at hx
              rcases hx with rfl | hx
              · obtain ⟨hq1, hq2, hq3, hq4⟩ := hc4 hres rfl
                refine ⟨hq1, hq2, hq4, insideB_trans hq3 (hcf c (by simp)).2.2.2, ?_⟩
                rw [height.heightL]
                exact le_trans hc6 (Nat.le_max_left _ _)
              · obtain ⟨hq1, hq2, hq3, hq4, hq5⟩ := hr4 x hx
                refine ⟨hq1, hq2, hq3, hq4, ?_⟩
                rw [height.heightL]
                exact le_trans hq5 (Nat.le_max_right _ _)
            · rw [if_neg hres] at hx
              obtain ⟨hq1, hq2, hq3, hq4, hq5⟩ := hr4 x hx
              refine ⟨hq1, hq2, hq3, hq4, ?_⟩
              rw [height.heightL]
              exact le_trans hq5 (Nat.le_max_right _ _)
          · by_cases hres : (removeLeavesFromLevel minE dim q f c rm ri false).1
                = true
            · rw [if_pos hres]
              simpa using hr5
            · rw [if_neg hres]
              refine le_trans hr5 (by simp)
      obtain ⟨dR, dE, hK1, hK2, hK3, hK4, hK5⟩ := key cs hhs
        (fun c hc => ⟨(hcs c hc).1, hszcs c hc, (hcs c hc).2.2, (hcs c hc).2.1⟩)
        removed toReinsert
      have hKh : ∀ x ∈ (removeLeavesFromLevel.removeChildren minE dim q f cs removed
          toReinsert).1, height x ≤ h := by
        intro x hx
        have h2 := (hK4 x hx).2.2.2.2
        omega
      have hKheightL : height.heightL
          (removeLeavesFromLevel.removeChildren minE dim q f cs removed
            toReinsert).1 ≤ height.heightL cs :=
        heightL_le _ _ (fun x hx => (hK4 x hx).2.2.2.2)
      rw [removeLeavesFromLevel]
      cases hq : q.acceptLevel (RTreeNode.Level mbr cs) with
      | false =>
        rw [if_pos (by simp [hq])]
        refine ⟨[], [], by simp, by simp, by simp, ?_, ?_, Nat.le.refl⟩
        · intro _ hroot
          exact ⟨hinv, hsz, insideB_refl _, hne hroot⟩
        · intro _
          exact ⟨rfl, hsz, Or.inl hinv⟩
      | true =>
        rw [if_neg (by simp [hq])]
        simp only []
        cases hatR : atRoot with
        | true =>
          rw [if_neg (by simp)]
          simp only []
          by_cases heq : cs.length = (removeLeavesFromLevel.removeChildren minE dim
              q f cs removed toReinsert).1.length
          · rw [if_neg (by simp [heq])]
            simp only []
            refine ⟨dR, dE, hK1, hK2, ?_, ?_, ?_, ?_⟩
            · show (leavesOf.leavesOfList _ ++ dR ++ dE).Perm _
              exact hK3
            · intro _ hcon
              simp at hcon
            · intro _
              refine ⟨trivial, ?_, ?_⟩
              · rw [sizeOK_Level_iff]
                exact ⟨by omega, fun x hx => (hK4 x hx).2.1⟩
              · left
                rw [nodeInvB_Level_iff]
                refine ⟨hm1, ?_, hmbox, fun x hx =>
                  ⟨(hK4 x hx).1, (hK4 x hx).2.2.2.1, (hK4 x hx).2.2.1⟩⟩
                apply List.ne_nil_of_length_pos
                have := List.length_pos.mpr hne0
                omega
            · show height (RTreeNode.Level mbr _) ≤ height (RTreeNode.Level mbr cs)
              rw [height, height]
              omega
          · rw [if_pos (by simp [bne_iff_ne]; exact heq)]
            simp only []
            by_cases hKe : (removeLeavesFromLevel.removeChildren minE dim q f cs
                removed toReinsert).1 = []
            · refine ⟨dR, dE, hK1, hK2, ?_, ?_, ?_, ?_⟩
              · show (leavesOf.leavesOfList _ ++ dR ++ dE).Perm _
                exact hK3
              · intro _ hcon
                simp at hcon
              · intro _
                refine ⟨trivial, ?_, ?_⟩
                · rw [sizeOK_Level_iff]
                  exact ⟨by omega, fun x hx => (hK4 x hx).2.1⟩
                · right
                  rw [hKe]
                  exact ⟨rfl, rfl⟩
              · show height (RTreeNode.Level _ _) ≤ height (RTreeNode.Level mbr cs)
                rw [height, height]
                omega
            · refine ⟨dR, dE, hK1, hK2, ?_, ?_, ?_, ?_⟩
              · show (leavesOf.leavesOfList _ ++ dR ++ dE).Perm _
                exact hK3
              · intro _ hcon
                simp at hcon
              · intro _
                refine ⟨trivial, ?_, ?_⟩
                · rw [sizeOK_Level_iff]
                  exact ⟨by omega, fun x hx => (hK4 x hx).2.1⟩
                · left
                  exact levelNode_recomputed_inv hBF _ hKe
                    (fun x hx => ⟨(hK4 x hx).1, (hK4 x hx).2.2.1⟩)
              · show height (RTreeNode.Level _ _) ≤ height (RTreeNode.Level mbr cs)
                rw [height, height]
                omega
        | false =>
          by_cases hlt : (removeLeavesFromLevel.removeChildren minE dim q f cs
              removed toReinsert).1.length < minE
          · rw [if_pos (by simp [hlt])]
            simp only []
            rw [consumeLeaves_eq h _ hKh]
            refine ⟨dR, dE ++ leavesOf.leavesOfList
              (removeLeavesFromLevel.removeChildren minE dim q f cs removed
                toReinsert).1, hK1, ?_, ?_, ?_, ?_, ?_⟩
            · rw [hK2, List.append_assoc]
            · show (([] : List (MbrLeaf T)) ++ dR ++ (dE ++ leavesOf.leavesOfList
                  (removeLeavesFromLevel.removeChildren minE dim q f cs removed
                    toReinsert).1)).Perm (leavesOf.leavesOfList cs)
              rw [← Multiset.coe_eq_coe] at hK3 ⊢
              simp only [← Multiset.coe_add] at hK3 ⊢
              simp only [Multiset.coe_nil]
              rw [← hK3]
              abel
            · intro hcon
              simp at hcon
            · intro hcon
              simp at hcon
            · show height (RTreeNode.Level mbr _) ≤ height (RTreeNode.Level mbr cs)
              rw [height, height]
              omega
          · rw [if_neg (by simp [hlt])]
            simp only []
            have hKe : (removeLeavesFromLevel.removeChildren minE dim q f cs
                removed toReinsert).1 ≠ [] := by
              apply List.ne_nil_of_length_pos
              omega
            by_cases heq : cs.length = (removeLeavesFromLevel.removeChildren minE
                dim q f cs removed toReinsert).1.length
            · rw [if_neg (by simp [heq])]
              simp only []
              refine ⟨dR, dE, hK1, hK2, ?_, ?_, ?_, ?_⟩
              · show (leavesOf.leavesOfList _ ++ dR ++ dE).Perm _
                exact hK3
              · intro _ _
                refine ⟨?_, ?_, insideB_refl _, ?_⟩
                · rw [nodeInvB_Level_iff]
                  exact ⟨hm1, hKe, hmbox, fun x hx =>
                    ⟨(hK4 x hx).1, (hK4 x hx).2.2.2.1, (hK4 x hx).2.2.1⟩⟩
                · rw [sizeOK_Level_iff]
                  exact ⟨by omega, fun x hx => (hK4 x hx).2.1⟩
                · exact isEmpty_false_of_ne_nil_level _ _ hKe
              · intro hcon
                simp at hcon
              · show height (RTreeNode.Level mbr _) ≤ height (RTreeNode.Level mbr cs)
                rw [height, height]
                omega
            · rw [if_pos (by simp [bne_iff_ne]; exact heq)]
              simp only []
              refine ⟨dR, dE, hK1, hK2, ?_, ?_, ?_, ?_⟩
              · show (leavesOf.leavesOfList _ ++ dR ++ dE).Perm _
                exact hK3
              · intro _ _
                refine ⟨?_, ?_, ?_, ?_⟩
                · exact levelNode_recomputed_inv hBF _ hKe
                    (fun x hx => ⟨(hK4 x hx).1, (hK4 x hx).2.2.1⟩)
                · rw [sizeOK_Level_iff]
                  exact ⟨by omega, fun x hx => (hK4 x hx).2.1⟩
                · exact inside_mbrOf_nodes_subset hBF _ _ hKe
                    (fun x hx => nodeInvB_mbr_boxOKB x (hK4 x hx).1
                      (hK4 x hx).2.2.1)
                    (fun x hx => (hK4 x hx).2.2.2.1)
                · exact isEmpty_false_of_ne_nil_level _ _ hKe
              · intro hcon
                simp at hcon
              · show height (RTreeNode.Level _ _) ≤ height (RTreeNode.Level mbr cs)
                rw [height, height]
                omega

theorem nodeInvB_newLeaves {T : Type} (dim : Nat) (B : ℤ) :
    nodeInvB dim B (RTreeNode.newLeaves dim : RTreeNode T) = true := by
  rw [RTreeNode.newLeaves, nodeInvB_Leaves_iff]
  exact ⟨length_maxInverted dim, Or.inl ⟨rfl, rfl⟩, by simp⟩

theorem sizeOK_newLeaves {T : Type} (dim maxE : Nat) :
    sizeOK maxE (RTreeNode.newLeaves dim : RTreeNode T) = true := by
  rw [RTreeNode.newLeaves, sizeOK_Leaves_iff]
  simp

theorem insertIntoRoot_fold_spec {T : Type} (conf : RStarConf) {B : ℤ}
    (hconf : RStarConfOk conf) (hB : BoundsOk conf.dim B) :
    ∀ (ls : List (MbrLeaf T)) (rt : RTreeNode T),
      nodeInvB conf.dim B rt = true → sizeOK conf.max rt = true →
      (∀ l ∈ ls, boxOKB conf.dim B l.geometry = true) →
      (leavesOf (ls.foldl (fun rt leaf => rstarInsertIntoRoot conf rt leaf)
          rt)).Perm (ls ++ leavesOf rt) ∧
      nodeInvB conf.dim B (ls.foldl (fun rt leaf => rstarInsertIntoRoot conf rt
        leaf) rt) = true ∧
      sizeOK conf.max (ls.foldl (fun rt leaf => rstarInsertIntoRoot conf rt leaf)
        rt) = true := by
  intro ls
  induction ls with
  | nil =>
    intro rt hinv hsz _
    refine ⟨?_, hinv, hsz⟩
    rw [List.foldl_nil, List.nil_append]
  | cons l ls ih =>
    intro rt hinv hsz hbx
    obtain ⟨h1, h2, h3⟩ := rstarInsertIntoRoot_spec conf hconf hB rt l hinv hsz
      (hbx l (by simp))
    rw [List.foldl_cons]
    obtain ⟨hi1, hi2, hi3⟩ := ih (rstarInsertIntoRoot conf rt l) h2 h3
      (fun x hx => hbx x (by simp [hx]))
    refine ⟨?_, hi2, hi3⟩
    refine hi1.trans ?_
    refine (List.Perm.append_left ls h1).trans ?_
    exact List.perm_middle

theorem removeFromRoot_spec {T : Type} (minE : Nat) (conf : RStarConf) {B : ℤ}
    (hconf : RStarConfOk conf) (hB : BoundsOk conf.dim B) (hmin : 1 ≤ minE)
    (q : QueryFns T) (f : T → Bool) (root : RTreeNode T)
    (hinv : nodeInvB conf.dim B root = true) (hsz : sizeOK conf.max root = true) :
    (leavesOf (removeFromRoot minE conf q f root).1
        ++ (removeFromRoot minE conf q f root).2).Perm (leavesOf root) ∧
    nodeInvB conf.dim B (removeFromRoot minE conf q f root).1 = true ∧
    sizeOK conf.max (removeFromRoot minE conf q f root).1 = true := by
  rw [removeFromRoot]
  split
  case isTrue he =>
    refine ⟨?_, hinv, hsz⟩
    rw [List.append_nil]
  case isFalse he =>
    simp only []
    obtain ⟨dRem, dRe, h1, h2, h3, h4, h5⟩ := removeLeavesFromLevel_conserve minE
      conf.dim conf.max q f hmin hB.2.1 (height root) root le_rfl hinv hsz [] []
      true (fun hcon => absurd hcon (by simp))
    obtain ⟨h5a, h5b, h5c⟩ := h5.1 rfl
    rw [if_pos h5a] at h3
    rw [List.nil_append] at h1 h2
    have hroot2 : ∀ root₂ : RTreeNode T,
        root₂ = (if ((removeLeavesFromLevel minE conf.dim q f root [] []
              true).2.1.isEmpty
            && (removeLeavesFromLevel minE conf.dim q f root [] []
              true).2.1.hasLevels) = true
          then RTreeNode.newLeaves conf.dim
          else (removeLeavesFromLevel minE conf.dim q f root [] [] true).2.1) →
        leavesOf root₂
            = leavesOf (removeLeavesFromLevel minE conf.dim q f root [] []
              true).2.1 ∧
          nodeInvB conf.dim B root₂ = true ∧ sizeOK conf.max root₂ = true := by
      intro root₂ hdef
      by_cases hcond : ((removeLeavesFromLevel minE conf.dim q f root [] []
            true).2.1.isEmpty
          && (removeLeavesFromLevel minE conf.dim q f root [] []
            true).2.1.hasLevels) = true
      · rw [if_pos hcond] at hdef
        subst hdef
        rw [Bool.and_eq_true] at hcond
        refine ⟨?_, nodeInvB_newLeaves conf.dim B, sizeOK_newLeaves conf.dim
          conf.max⟩
        rw [leavesOf_isEmpty _ hcond.1]
        rfl
      · rw [if_neg hcond] at hdef
        subst hdef
        refine ⟨rfl, ?_, h5b⟩
        rcases h5c with hok | ⟨he1, he2⟩
        · exact hok
        · exact absurd (by rw [he1, he2]; rfl) hcond
    obtain ⟨hr1, hr2, hr3⟩ := hroot2 _ rfl
    have hbxdRe : ∀ l ∈ dRe, boxOKB conf.dim B l.geometry = true := by
      intro l hl
      have hmem : l ∈ leavesOf root := by
        refine h3.mem_iff.mp ?_
        rw [List.mem_append]
        exact Or.inr hl
      exact nodeInv_leaves_boxOKB conf.dim B (height root) root le_rfl hinv l hmem
    obtain ⟨hf1, hf2, hf3⟩ := insertIntoRoot_fold_spec conf hconf hB dRe _ hr2 hr3
      hbxdRe
    rw [h1, h2]
    refine ⟨?_, hf2, hf3⟩
    refine ((hf1.append (List.Perm.refl dRem)).trans ?_)
    rw [hr1]
    rw [← Multiset.coe_eq_coe] at h3 ⊢
    simp only [← Multiset.coe_add] at h3 ⊢
    rw [← h3]
    abel

theorem applyOps_good {T : Type} (conf : RStarConf) (rrMin : Nat) {B : ℤ}
    (hconf : RStarConfOk conf) (hB : BoundsOk conf.dim B) (hmin : 1 ≤ rrMin) :
    ∀ (ops : List (MapOp T)) (m : MbrMap T),
      (∀ op ∈ ops, opOK conf.dim B op) →
      nodeInvB conf.dim B m.root = true → sizeOK conf.max m.root = true →
      m.len = leafCount m.root →
      nodeInvB conf.dim B (applyOps conf rrMin m ops).root = true ∧
      sizeOK conf.max (applyOps conf rrMin m ops).root = true ∧
      (applyOps conf rrMin m ops).len
        = leafCount (applyOps conf rrMin m ops).root := by
  intro ops
  induction ops with
  | nil =>
    intro m _ h1 h2 h3
    exact ⟨h1, h2, h3⟩
  | cons op ops ih =>
    intro m hops h1 h2 h3
    have hstep : nodeInvB conf.dim B (applyOp conf rrMin m op).root = true ∧
        sizeOK conf.max (applyOp conf rrMin m op).root = true ∧
        (applyOp conf rrMin m op).len = leafCount (applyOp conf rrMin m op).root := by
      cases op with
      | insert g t =>
        have hg : boxOKB conf.dim B g = true := hops (.insert g t) (by simp)
        obtain ⟨hs1, hs2, hs3⟩ := rstarInsertIntoRoot_spec conf hconf hB m.root
          ⟨g, t⟩ h1 h2 hg
        refine ⟨hs2, hs3, ?_⟩
        show m.len + 1 = leafCount (rstarInsertIntoRoot conf m.root ⟨g, t⟩)
        rw [leafCount, hs1.length_eq, List.length_cons]
        rw [h3, leafCount]
      | retain q2 f2 =>
        obtain ⟨hs1, hs2, hs3⟩ := removeFromRoot_spec rrMin conf hconf hB hmin q2
          f2 m.root h1 h2
        refine ⟨hs2, hs3, ?_⟩
        have hlen := hs1.length_eq
        rw [List.length_append] at hlen
        show m.len - (removeFromRoot rrMin conf q2 f2 m.root).2.length
          = leafCount (removeFromRoot rrMin conf q2 f2 m.root).1
        rw [h3]
        rw [leafCount, leafCount] at *
        omega
      | clear =>
        exact ⟨nodeInvB_newLeaves conf.dim B, sizeOK_newLeaves conf.dim conf.max,
          rfl⟩
    exact ih (applyOp conf rrMin m op) (fun x hx => hops x (by simp [hx]))
      hstep.1 hstep.2.1 hstep.2.2

theorem overlap_rectMax {dim : Nat} {B : ℤ} (hBF : B < FMAX)
    (g : Rect) (hg : boxOKB dim B g = true) :
    overlappedByMbr g (rectMax dim) = true := by
  rw [overlappedByMbr_iff]
  intro i h1 h2
  rw [rectMax, List.length_replicate] at h1
  have hmin : minForAxis (rectMax dim) i = -FMAX := by
    rw [minForAxis, rectMax,
      List.getD_eq_getElem _ _ (by rw [List.length_replicate]; exact h1)]
    simp
  have hmax : maxForAxis (rectMax dim) i = FMAX := by
    rw [maxForAxis, rectMax,
      List.getD_eq_getElem _ _ (by rw [List.length_replicate]; exact h1)]
    simp
  rw [hmin, hmax]
  rw [boxOKB_iff] at hg
  have hgi := hg.2 (g.getD i (0, 0))
    (by rw [List.getD_eq_getElem _ _ h2]; exact List.getElem_mem _)
  rw [minForAxis, maxForAxis]
  omega

theorem collect_all {T : Type} (conf : RStarConf) {B : ℤ} (hBF : B < FMAX) :
    ∀ (h : Nat) (n : RTreeNode T), height n ≤ h → nodeInvB conf.dim B n = true →
      collectNode ((MbrRectQuery.Overlaps (rectMax conf.dim)).toQuery T) n
        = leavesOf n := by
  intro h
  induction h with
  | zero =>
    intro n hh hinv
    cases n with
    | Leaves mbr cs =>
      show cs.filter _ = cs
      apply List.filter_eq_self.mpr
      intro l hl
      have hbx := ((nodeInvB_Leaves_iff T conf.dim B mbr cs).mp hinv).2.2 l hl
      exact overlap_rectMax hBF _ hbx.1
    | Level mbr cs =>
      rw [height] at hh
      omega
  | succ h ih =>
    intro n hh hinv
    cases n with
    | Leaves mbr cs =>
      show cs.filter _ = cs
      apply List.filter_eq_self.mpr
      intro l hl
      have hbx := ((nodeInvB_Leaves_iff T conf.dim B mbr cs).mp hinv).2.2 l hl
      exact overlap_rectMax hBF _ hbx.1
    | Level mbr cs =>
      have hinvP := (nodeInvB_Level_iff T conf.dim B mbr cs).mp hinv
      obtain ⟨hm1, hne0, hmbox, hcs⟩ := hinvP
      rw [height] at hh
      show collectNode.collectList _ cs = leavesOf.leavesOfList cs
      have klist : ∀ cs2 : List (RTreeNode T),
          (∀ c ∈ cs2, height c ≤ h ∧ nodeInvB conf.dim B c = true ∧
            c.isEmpty = false) →
          collectNode.collectList
            ((MbrRectQuery.Overlaps (rectMax conf.dim)).toQuery T) cs2
            = leavesOf.leavesOfList cs2 := by
        intro cs2
        induction cs2 with
        | nil => intro _; rfl
        | cons c cs2 ihl =>
          intro hfacts
          rw [collectNode.collectList, leavesOf.leavesOfList]
          have hacc : ((MbrRectQuery.Overlaps
              (rectMax conf.dim)).toQuery T).acceptLevel c = true := by
            show overlappedByMbr c.mbr (rectMax conf.dim) = true
            exact overlap_rectMax hBF _ (nodeInvB_mbr_boxOKB c
              (hfacts c (by simp)).2.1 (hfacts c (by simp)).2.2)
          rw [if_pos hacc, ih c (hfacts c (by simp)).1 (hfacts c (by simp)).2.1,
            ihl (fun x hx => hfacts x (by simp [hx]))]
      exact klist cs (fun c hc => ⟨by have := height_child_le c cs hc; omega,
        (hcs c hc).1, (hcs c hc).2.2⟩)

theorem mapIter_len {T : Type} (conf : RStarConf) {B : ℤ} (hBF : B < FMAX)
    (m : MbrMap T) (hinv : nodeInvB conf.dim B m.root = true) :
    (mapIter conf m).length = leafCount m.root := by
  rw [mapIter, List.length_map, iterQuery]
  split
  case isTrue hc =>
    rw [Bool.or_eq_true] at hc
    rcases hc with hc | hc
    · rw [leafCount, leavesOf_isEmpty _ hc]
    · by_cases hem : m.root.isEmpty = true
      · rw [leafCount, leavesOf_isEmpty _ hem]
      · exfalso
        have hacc : ((MbrRectQuery.Overlaps
            (rectMax conf.dim)).toQuery T).acceptLevel m.root = true := by
          show overlappedByMbr m.root.mbr (rectMax conf.dim) = true
          exact overlap_rectMax hBF _ (nodeInvB_mbr_boxOKB m.root hinv
            (by revert hem; cases m.root.isEmpty <;> simp))
        rw [hacc] at hc
        simp at hc
  case isFalse hc =>
    rw [collect_all conf hBF (height m.root) m.root le_rfl hinv, leafCount]

theorem removeFromRoot_removed_perm {T : Type} (minE : Nat) (conf : RStarConf)
    (q : QueryFns T) (f : T → Bool) (root : RTreeNode T) :
    ((removeFromRoot minE conf q f root).2).Perm (collectRemovable q f root) := by
  rw [removeFromRoot]
  cases he : root.isEmpty with
  | true =>
    rw [if_pos rfl, collectRemovable_of_isEmpty q f root he]
  | false =>
    rw [if_neg (by simp)]
    simp only []
    obtain ⟨delta, hd, hp⟩ := removeLeavesFromLevel_removed_delta minE conf.dim
      q f (height root) root le_rfl [] [] true
    rw [hd]
    simpa using hp

theorem collectRemovable_mem {T : Type} (q : QueryFns T) (f : T → Bool) :
    ∀ (h : Nat) (n : RTreeNode T), height n ≤ h →
      ∀ l ∈ collectRemovable q f n, q.acceptLeaf l = true ∧ f l.item = false := by
  intro h
  induction h with
  | zero =>
    intro n hh l hl
    cases n with
    | Leaves mbr cs =>
      rw [collectRemovable] at hl
      split at hl
      · exact absurd hl (List.not_mem_nil l)
      · rw [List.mem_filter] at hl
        have h2 := hl.2
        simp only [Bool.and_eq_true, Bool.not_eq_true'] at h2
        exact h2
    | Level mbr cs =>
      rw [height] at hh
      omega
  | succ h ih =>
    intro n hh l hl
    cases n with
    | Leaves mbr cs =>
      rw [collectRemovable] at hl
      split at hl
      · exact absurd hl (List.not_mem_nil l)
      · rw [List.mem_filter] at hl
        have h2 := hl.2
        simp only [Bool.and_eq_true, Bool.not_eq_true'] at h2
        exact h2
    | Level mbr cs =>
      rw [collectRemovable] at hl
      split at hl
      · exact absurd hl (List.not_mem_nil l)
      · rw [height] at hh
        have klist : ∀ cs2 : List (RTreeNode T), (∀ c ∈ cs2, height c ≤ h) →
            l ∈ collectRemovable.collectRemovableList q f cs2 →
            q.acceptLeaf l = true ∧ f l.item = false := by
          intro cs2
          induction cs2 with
          | nil =>
            intro _ hl2
            exact absurd hl2 (List.not_mem_nil l)
          | cons c cs2 ihl =>
            intro hhs hl2
            rw [collectRemovable.collectRemovableList, List.mem_append] at hl2
            rcases hl2 with hl2 | hl2
            · exact ih c (hhs c (by simp)) l hl2
            · exact ihl (fun x hx => hhs x (by simp [hx])) hl2
        exact klist cs (fun c hc => by have := height_child_le c cs hc; omega) hl

/-- C2 (amended): starting from a fresh map, after any sequence of public
operations whose inserted geometries are valid boxes with all coordinates in
`[-B, B]` where `(2B)^dim < P::MAX`, `len()` equals the number of leaves reachable
from the root, which equals `iter().count()`.  Without the coordinate bound the
`iter().count()` equality fails (`C2_counterexample`): `iter` is
`iter_query(Overlaps(Rect::max()))` and `overlapped_by_mbr` is strict, so a leaf
with a coordinate at `P::MAX` is reachable but never yielded. -/
theorem C2_len_eq_leafcount_eq_iter_count {T : Type} (conf : RStarConf)
    (rrMin : Nat) (B : ℤ) (ops : List (MapOp T))
    (hconf : RStarConfOk conf) (hB : BoundsOk conf.dim B) (hmin : 1 ≤ rrMin)
    (hops : ∀ op ∈ ops, opOK conf.dim B op) :
    (applyOps conf rrMin (mapNew T conf.dim) ops).len
        = leafCount (applyOps conf rrMin (mapNew T conf.dim) ops).root ∧
      (applyOps conf rrMin (mapNew T conf.dim) ops).len
        = (mapIter conf (applyOps conf rrMin (mapNew T conf.dim) ops)).length := by
  obtain ⟨h1, h2, h3⟩ := applyOps_good conf rrMin hconf hB hmin ops
    (mapNew T conf.dim) hops (nodeInvB_newLeaves conf.dim B)
    (sizeOK_newLeaves conf.dim conf.max) rfl
  refine ⟨h3, ?_⟩
  rw [mapIter_len conf hB.2.1 _ h1]
  exact h3

/-- C2: counterexample to the unconditional `len() = iter().count()` claim.  A
single insert of the degenerate box `[MAX, MAX]` gives `len = 1` and one leaf
reachable from the root, but `iter()` — `iter_query(Overlaps(Rect::max()))`, whose
node and leaf acceptance tests are the strict `overlapped_by_mbr` — yields nothing,
because `x1 < y2` fails at the `MAX` coordinate. -/
theorem C2_counterexample :
    (mapInsert (newWithOptions 1 4 dReinsertP dSplitP 32) (mapNew Nat 1)
        [((FMAX : ℤ), FMAX)] 0).len = 1
    ∧ leafCount (mapInsert (newWithOptions 1 4 dReinsertP dSplitP 32) (mapNew Nat 1)
        [((FMAX : ℤ), FMAX)] 0).root = 1
    ∧ (mapIter (newWithOptions 1 4 dReinsertP dSplitP 32)
        (mapInsert (newWithOptions 1 4 dReinsertP dSplitP 32) (mapNew Nat 1)
          [((FMAX : ℤ), FMAX)] 0)).length = 0 := by
  decide

/-- Witness for C2 at a concrete input: one bounded insert into a fresh
one-dimensional map with the default-like configuration. -/
theorem C2_len_eq_leafcount_eq_iter_count_witness :
    RStarConfOk (newWithOptions 1 4 dReinsertP dSplitP 32) ∧
    BoundsOk (newWithOptions 1 4 dReinsertP dSplitP 32).dim 10 ∧
    ((applyOps (newWithOptions 1 4 dReinsertP dSplitP 32) 1 (mapNew Nat 1)
        [MapOp.insert [((0 : ℤ), 1)] 0]).len
      = leafCount (applyOps (newWithOptions 1 4 dReinsertP dSplitP 32) 1
        (mapNew Nat 1) [MapOp.insert [((0 : ℤ), 1)] 0]).root ∧
    (applyOps (newWithOptions 1 4 dReinsertP dSplitP 32) 1 (mapNew Nat 1)
        [MapOp.insert [((0 : ℤ), 1)] 0]).len
      = (mapIter (newWithOptions 1 4 dReinsertP dSplitP 32)
        (applyOps (newWithOptions 1 4 dReinsertP dSplitP 32) 1 (mapNew Nat 1)
          [MapOp.insert [((0 : ℤ), 1)] 0])).length) :=
  ⟨by unfold RStarConfOk; decide, by unfold BoundsOk; decide,
    C2_len_eq_leafcount_eq_iter_count (newWithOptions 1 4 dReinsertP dSplitP 32) 1
      10 [MapOp.insert [((0 : ℤ), 1)] 0] (by unfold RStarConfOk; decide)
      (by unfold BoundsOk; decide) (by decide)
      (by
        intro op hop
        rw [List.mem_singleton] at hop
        subst hop
        show boxOKB (newWithOptions 1 4 dReinsertP dSplitP 32).dim 10
          [((0 : ℤ), 1)] = true
        decide)⟩

/-- C1 (amended): on a structurally sound tree (`nodeInvB` with coordinates in
`[-B, B]`, `sizeOK`), `retain(q, f)` — and hence `remove(q)` — is *sound*: every
returned `(geometry, item)` pair comes from a leaf whose geometry `q` accepts and
on which `f` returned false, and the tree keeps exactly the leaves that were not
returned (including every reinserted orphan).  The converse direction of the
original claim is false (`C1_counterexample`): `accept_level` prunes with the
strict `overlapped_by_mbr`, so a leaf whose geometry the query accepts can sit in
a pruned subtree and survive the call. -/
theorem C1_retain_sound_and_conservative {T : Type} (conf : RStarConf)
    (rrMin : Nat) (B : ℤ) (q : QueryFns T) (f : T → Bool) (m : MbrMap T)
    (hconf : RStarConfOk conf) (hB : BoundsOk conf.dim B) (hmin : 1 ≤ rrMin)
    (hinv : nodeInvB conf.dim B m.root = true)
    (hsz : sizeOK conf.max m.root = true) :
    (∀ p ∈ (mapRetain conf rrMin m q f).2, ∃ l : MbrLeaf T,
        p = l.extract ∧ q.acceptLeaf l = true ∧ f l.item = false) ∧
    ∃ removedLeaves : List (MbrLeaf T),
      (mapRetain conf rrMin m q f).2 = removedLeaves.map MbrLeaf.extract ∧
      (leavesOf (mapRetain conf rrMin m q f).1.root ++ removedLeaves).Perm
        (leavesOf m.root) := by
  constructor
  · intro p hp
    rw [mapRetain] at hp
    simp only [] at hp
    rw [List.mem_map] at hp
    obtain ⟨l, hl, rfl⟩ := hp
    refine ⟨l, rfl, ?_⟩
    have hlc : l ∈ collectRemovable q f m.root :=
      (removeFromRoot_removed_perm rrMin conf q f m.root).mem_iff.mp hl
    exact collectRemovable_mem q f (height m.root) m.root le_rfl l hlc
  · refine ⟨(removeFromRoot rrMin conf q f m.root).2, rfl, ?_⟩
    exact (removeFromRoot_spec rrMin conf hconf hB hmin q f m.root hinv hsz).1

/-- C1: counterexample to the claimed "if" direction.  One leaf `[1,1] ↦ 0`;
`retain(ContainedBy [0,1], |_| false)` should remove it — `accept_leaf` is true
(non-strict containment) and the predicate is false — yet the removal pass rejects
the root via the strict `overlapped_by_mbr` (`1 < 1` fails), returns nothing, and
the leaf stays in the tree. -/
theorem C1_counterexample :
    (mapRetain (newWithOptions 1 4 dReinsertP dSplitP 32) 1
        (mapInsert (newWithOptions 1 4 dReinsertP dSplitP 32) (mapNew Nat 1)
          [((1 : ℤ), 1)] 0)
        ((MbrRectQuery.ContainedBy [((0 : ℤ), 1)]).toQuery Nat)
        (fun _ => false)).2 = []
    ∧ (MbrRectQuery.ContainedBy [((0 : ℤ), 1)]).acceptLeaf
        (⟨[((1 : ℤ), 1)], (0 : Nat)⟩ : MbrLeaf Nat) = true
    ∧ leavesOf (mapInsert (newWithOptions 1 4 dReinsertP dSplitP 32) (mapNew Nat 1)
        [((1 : ℤ), 1)] 0).root = [⟨[((1 : ℤ), 1)], 0⟩]
    ∧ leavesOf (mapRetain (newWithOptions 1 4 dReinsertP dSplitP 32) 1
        (mapInsert (newWithOptions 1 4 dReinsertP dSplitP 32) (mapNew Nat 1)
          [((1 : ℤ), 1)] 0)
        ((MbrRectQuery.ContainedBy [((0 : ℤ), 1)]).toQuery Nat)
        (fun _ => false)).1.root = [⟨[((1 : ℤ), 1)], 0⟩] := by
  decide

/-- Witness for C1 at a concrete input: the `Overlaps [-1, 10]` removal on a
two-leaf map is sound and conservative. -/
theorem C1_retain_sound_and_conservative_witness :
    nodeInvB (newWithOptions 1 4 dReinsertP dSplitP 32).dim 10
      (mapInsert (newWithOptions 1 4 dReinsertP dSplitP 32) (mapNew Nat 1)
        [((1 : ℤ), 1)] 0).root = true ∧
    ((∀ p ∈ (mapRetain (newWithOptions 1 4 dReinsertP dSplitP 32) 1
        (mapInsert (newWithOptions 1 4 dReinsertP dSplitP 32) (mapNew Nat 1)
          [((1 : ℤ), 1)] 0)
        ((MbrRectQuery.Overlaps [((-1 : ℤ), 10)]).toQuery Nat)
        (fun _ => false)).2, ∃ l : MbrLeaf Nat,
        p = l.extract ∧ ((MbrRectQuery.Overlaps [((-1 : ℤ), 10)]).toQuery
          Nat).acceptLeaf l = true ∧ (fun _ => false) l.item = false) ∧
    ∃ removedLeaves : List (MbrLeaf Nat),
      (mapRetain (newWithOptions 1 4 dReinsertP dSplitP 32) 1
        (mapInsert (newWithOptions 1 4 dReinsertP dSplitP 32) (mapNew Nat 1)
          [((1 : ℤ), 1)] 0)
        ((MbrRectQuery.Overlaps [((-1 : ℤ), 10)]).toQuery Nat)
        (fun _ => false)).2 = removedLeaves.map MbrLeaf.extract ∧
      (leavesOf (mapRetain (newWithOptions 1 4 dReinsertP dSplitP 32) 1
          (mapInsert (newWithOptions 1 4 dReinsertP dSplitP 32) (mapNew Nat 1)
            [((1 : ℤ), 1)] 0)
          ((MbrRectQuery.Overlaps [((-1 : ℤ), 10)]).toQuery Nat)
          (fun _ => false)).1.root ++ removedLeaves).Perm
        (leavesOf (mapInsert (newWithOptions 1 4 dReinsertP dSplitP 32)
          (mapNew Nat 1) [((1 : ℤ), 1)] 0).root)) :=
  ⟨by decide,
    C1_retain_sound_and_conservative (newWithOptions 1 4 dReinsertP dSplitP 32) 1
      10 ((MbrRectQuery.Overlaps [((-1 : ℤ), 10)]).toQuery Nat) (fun _ => false)
      (mapInsert (newWithOptions 1 4 dReinsertP dSplitP 32) (mapNew Nat 1)
        [((1 : ℤ), 1)] 0)
      (by unfold RStarConfOk; decide) (by unfold BoundsOk; decide) (by decide)
      (by decide) (by decide)⟩

end SpatialRs
